import Mathlib

/-!
Shallow embedding of the hierarchical k-means index of
`src/cpp/flann/algorithms/kmeans_index.h` (class `KMeansIndex`).

Modelling conventions:
* `float`/`double` distance values are idealised as `ℚ` (exact arithmetic);
  the `double` working buffers of `computeClustering` and the `DistanceType`
  node fields therefore coincide in the model.
* The `Distance` template parameter is instantiated at squared Euclidean
  distance (`flann::L2`), the distance the claims are about.
* Vectors are total functions `ℕ → ℚ` together with an ambient dimension
  `dim`; a C array of `veclen_` entries corresponds to the restriction of
  such a function to `Finset.range dim`.
* Fallible operations (a `throw`, a dereference of the null `root_`
  pointer, the unbounded recursion of `computeClustering` on degenerate
  data) are modelled with `Option`: `none` means the C++ call does not
  return normally.
* External collaborators whose code is not part of the repository snapshot
  (`result_set.h`, `heap.h`, `random.h`) are modelled from the spec; the
  definitions concerned say so in their doc comments.
-/

namespace KMeansSpec

/-! ### Vectors, datasets and the squared Euclidean distance -/

/-- A feature vector: coordinate `j` of the vector is `v j`.  Coordinates at
or beyond the ambient dimension are irrelevant to every distance and mean
computation, which only touch `Finset.range dim`. -/
abbrev Vec : Type := ℕ → ℚ

/-- The dataset (`dataset_` in the source): a row-major matrix, one `Vec`
per row. -/
abbrev Dataset : Type := List Vec

/-- Row access `dataset_[i]`; out-of-range rows give the zero vector (the
source never reads out of range on the executions modelled here). -/
def dsGet (ds : Dataset) (i : ℕ) : Vec := ds.getD i (fun _ => 0)

/-- Squared Euclidean distance on the first `dim` coordinates, the
`Distance` functor `flann::L2` the index is instantiated with:
`sum((a[j]-b[j])^2)`. -/
def sqDist (dim : ℕ) (a b : Vec) : ℚ :=
  ∑ j in Finset.range dim, (a j - b j) ^ 2

theorem sqDist_nonneg (dim : ℕ) (a b : Vec) : 0 ≤ sqDist dim a b :=
  Finset.sum_nonneg fun _ _ => sq_nonneg _

theorem sqDist_comm (dim : ℕ) (a b : Vec) : sqDist dim a b = sqDist dim b a := by
  unfold sqDist
  refine Finset.sum_congr rfl fun j _ => ?_
  ring

/-! ### The tree node

Mirrors `struct KMeansNode` of the source: `pivot`, `radius`, `variance`,
`size`, `childs` (empty exactly on terminal nodes), `indices` (used only on
terminal nodes) and `level`. -/

/-- Node of the hierarchical k-means tree (`KMeansNode` in the source). -/
inductive KMeansNode : Type where
  | mk (pivot : Vec) (radius : ℚ) (variance : ℚ) (size : ℕ)
      (childs : List KMeansNode) (indices : List ℕ) (level : ℕ)

namespace KMeansNode

def pivot : KMeansNode → Vec
  | mk p _ _ _ _ _ _ => p

def radius : KMeansNode → ℚ
  | mk _ r _ _ _ _ _ => r

def variance : KMeansNode → ℚ
  | mk _ _ v _ _ _ _ => v

def size : KMeansNode → ℕ
  | mk _ _ _ s _ _ _ => s

def childs : KMeansNode → List KMeansNode
  | mk _ _ _ _ c _ _ => c

def indices : KMeansNode → List ℕ
  | mk _ _ _ _ _ i _ => i

def level : KMeansNode → ℕ
  | mk _ _ _ _ _ _ l => l

@[simp] theorem pivot_mk (p r v s c i l) : pivot (mk p r v s c i l) = p := rfl

@[simp] theorem radius_mk (p r v s c i l) : radius (mk p r v s c i l) = r := rfl

@[simp] theorem variance_mk (p r v s c i l) : variance (mk p r v s c i l) = v := rfl

@[simp] theorem size_mk (p r v s c i l) : size (mk p r v s c i l) = s := rfl

@[simp] theorem childs_mk (p r v s c i l) : childs (mk p r v s c i l) = c := rfl

@[simp] theorem indices_mk (p r v s c i l) : indices (mk p r v s c i l) = i := rfl

@[simp] theorem level_mk (p r v s c i l) : level (mk p r v s c i l) = l := rfl

end KMeansNode

namespace KMeansNode

/-! Derived tree measures, each defined by mutual structural recursion so
that concrete instances evaluate inside the kernel. -/

mutual

/-- Number of nodes of the subtree (a termination measure for the
best-bin-first loop). -/
def weight : KMeansNode → ℕ
  | mk _ _ _ _ cs _ _ => 1 + weightL cs

def weightL : List KMeansNode → ℕ
  | [] => 0
  | c :: cs => weight c + weightL cs

end

mutual

/-- Height of the tree: 0 on terminal nodes. -/
def height : KMeansNode → ℕ
  | mk _ _ _ _ cs _ _ => heightL cs

def heightL : List KMeansNode → ℕ
  | [] => 0
  | c :: cs => max (height c + 1) (heightL cs)

end

mutual

/-- All point identifiers stored in the subtree: the `indices` lists of its
terminal nodes, in traversal order. -/
def subtreeIndices : KMeansNode → List ℕ
  | mk _ _ _ _ [] idxs _ => idxs
  | mk _ _ _ _ (c :: cs) _ _ => subtreeIndicesL (c :: cs)

def subtreeIndicesL : List KMeansNode → List ℕ
  | [] => []
  | c :: cs => subtreeIndices c ++ subtreeIndicesL cs

end

mutual

/-- Largest `size` field of a terminal node of the subtree (the quantity
`checks` grows by when a leaf is scanned). -/
def maxLeafSize : KMeansNode → ℕ
  | mk _ _ _ s [] _ _ => s
  | mk _ _ _ _ (c :: cs) _ _ => maxLeafSizeL (c :: cs)

def maxLeafSizeL : List KMeansNode → ℕ
  | [] => 0
  | c :: cs => max (maxLeafSize c) (maxLeafSizeL cs)

end

mutual

/-- Structural well-formedness used by the search claims: every terminal
node stores as many indices as its `size` field says (the source's leaf
scan reads `indices[0..size)` and adds `size` to `checks`). -/
def leavesOk : KMeansNode → Bool
  | mk _ _ _ s [] idxs _ => s == idxs.length
  | mk _ _ _ _ (c :: cs) _ _ => leavesOkL (c :: cs)

def leavesOkL : List KMeansNode → Bool
  | [] => true
  | c :: cs => leavesOk c && leavesOkL cs

end

mutual

/-- Radius soundness (spec invariant `radius ≥ distance(pivot, dataset[i])`
for every `i` of the subtree), at every node of the tree. -/
def radiusOk (ds : Dataset) (dim : ℕ) : KMeansNode → Bool
  | mk p r v s cs idxs l =>
    ((subtreeIndices (mk p r v s cs idxs l)).all fun i =>
        decide (sqDist dim p (dsGet ds i) ≤ r)) &&
      radiusOkL ds dim cs

def radiusOkL (ds : Dataset) (dim : ℕ) : List KMeansNode → Bool
  | [] => true
  | c :: cs => radiusOk ds dim c && radiusOkL ds dim cs

end

end KMeansNode

/-! ### The result set

Modelled from the spec: `result_set.h` is not part of the repository
snapshot.  Spec 4.H: a ResultSet is a collector exposing `addPoint(dist,
id)`, `worstDist()` (the current k-th best distance) and `full()`.  The
model is the k-nearest-neighbour collector: it keeps the `capacity`
lexicographically smallest `(distance, id)` pairs seen so far, sorted
ascending; `worstDist` is the largest kept distance once the collector is
full and plus-infinity (the float `max` sentinel of the reference
implementation) before that, represented by the top element of
`WithTop ℚ`. -/

/-- Order on submitted `(distance, id)` pairs: by distance, ties by id. -/
def pLe (a b : ℚ × ℕ) : Prop := a.1 < b.1 ∨ (a.1 = b.1 ∧ a.2 ≤ b.2)

instance : DecidableRel pLe := fun a b => by
  unfold pLe
  infer_instance

instance : IsTotal (ℚ × ℕ) pLe where
  total a b := by
    unfold pLe
    rcases lt_trichotomy a.1 b.1 with h | h | h
    · exact Or.inl (Or.inl h)
    · rcases Nat.le_total a.2 b.2 with h2 | h2
      · exact Or.inl (Or.inr ⟨h, h2⟩)
      · exact Or.inr (Or.inr ⟨h.symm, h2⟩)
    · exact Or.inr (Or.inl h)

instance : IsTrans (ℚ × ℕ) pLe where
  trans a b c hab hbc := by
    unfold pLe at *
    rcases hab with h1 | ⟨h1, h1n⟩ <;> rcases hbc with h2 | ⟨h2, h2n⟩
    · exact Or.inl (h1.trans h2)
    · exact Or.inl (h2 ▸ h1)
    · exact Or.inl (h1 ▸ h2)
    · exact Or.inr ⟨h1.trans h2, h1n.trans h2n⟩

instance : IsAntisymm (ℚ × ℕ) pLe where
  antisymm a b hab hba := by
    unfold pLe at *
    rcases hab with h1 | ⟨h1, h1n⟩ <;> rcases hba with h2 | ⟨h2, h2n⟩
    · exact absurd (h1.trans h2) (lt_irrefl _)
    · exact absurd h1 (h2 ▸ lt_irrefl _)
    · exact absurd h2 (h1 ▸ lt_irrefl _)
    · exact Prod.ext h1 (Nat.le_antisymm h1n h2n)

/-- The `capacity` smallest pairs of a submission multiset, sorted:
canonical final contents of the collector after a stream of submissions. -/
def topK (k : ℕ) (l : List (ℚ × ℕ)) : List (ℚ × ℕ) :=
  (l.insertionSort pLe).take k

/-- K-nearest-neighbour result set.  Modelled from the spec (`result_set.h`
is not in the snapshot): see the section comment above. -/
structure Knn : Type where
  capacity : ℕ
  items : List (ℚ × ℕ)

namespace Knn

/-- The collector with capacity `k` and nothing collected yet. -/
def empty (k : ℕ) : Knn := ⟨k, []⟩

/-- Submission `addPoint(dist, index)`: keep the `capacity`
lexicographically smallest pairs seen. -/
def addPoint (rs : Knn) (d : ℚ) (i : ℕ) : Knn :=
  ⟨rs.capacity, (rs.items.orderedInsert pLe (d, i)).take rs.capacity⟩

/-- Test `full()`: capacity reached. -/
def full (rs : Knn) : Bool := rs.capacity ≤ rs.items.length

/-- Accessor `worstDist()`: the k-th best distance once full; `none` stands
for the infinite sentinel (the float `max` value) reported before that. -/
def worstDist (rs : Knn) : Option ℚ :=
  if rs.capacity ≤ rs.items.length then
    match rs.items.getLast? with
    | some p => some p.1
    | none => none
  else none

@[simp] theorem capacity_addPoint (rs : Knn) (d : ℚ) (i : ℕ) :
    (rs.addPoint d i).capacity = rs.capacity := rfl

@[simp] theorem capacity_empty (k : ℕ) : (empty k).capacity = k := rfl

@[simp] theorem items_empty (k : ℕ) : (empty k).items = [] := rfl

theorem length_addPoint (rs : Knn) (d : ℚ) (i : ℕ) :
    (rs.addPoint d i).items.length = min (rs.items.length + 1) rs.capacity := by
  simp [addPoint, List.orderedInsert_length, Nat.min_comm]

end Knn

/-! ### Canonical-contents lemmas for the collector -/

theorem pLe_refl (a : ℚ × ℕ) : pLe a a := Or.inr ⟨rfl, le_refl _⟩

theorem pLe_fst_le {a b : ℚ × ℕ} (h : pLe a b) : a.1 ≤ b.1 := by
  rcases h with h | ⟨h, _⟩
  · exact h.le
  · exact h.le

theorem topK_perm (k : ℕ) {l l2 : List (ℚ × ℕ)} (h : l.Perm l2) :
    topK k l = topK k l2 := by
  unfold topK
  have hs : (l.insertionSort pLe) = (l2.insertionSort pLe) := by
    refine List.eq_of_perm_of_sorted ?_ (List.sorted_insertionSort pLe l)
      (List.sorted_insertionSort pLe l2)
    exact (List.perm_insertionSort pLe l).trans (h.trans (List.perm_insertionSort pLe l2).symm)
  rw [hs]

theorem insertionSort_append_single (l : List (ℚ × ℕ)) (x : ℚ × ℕ) :
    (l ++ [x]).insertionSort pLe = (l.insertionSort pLe).orderedInsert pLe x := by
  refine List.eq_of_perm_of_sorted ?_ (List.sorted_insertionSort pLe _)
    (List.Sorted.orderedInsert x _ (List.sorted_insertionSort pLe l))
  refine (List.perm_insertionSort pLe _).trans ?_
  refine List.Perm.trans ?_ (List.perm_orderedInsert pLe x _).symm
  exact (List.perm_append_singleton x l).trans ((List.perm_insertionSort pLe l).symm.cons x)

theorem take_orderedInsert_take (x : ℚ × ℕ) :
    ∀ (k : ℕ) (l : List (ℚ × ℕ)),
      ((l.take k).orderedInsert pLe x).take k = (l.orderedInsert pLe x).take k
  | 0, _ => by simp
  | _ + 1, [] => by simp
  | k + 1, a :: l => by
    by_cases h : pLe x a
    · cases k with
      | zero => simp [List.orderedInsert, h]
      | succ m =>
        simp only [List.orderedInsert, if_pos h, List.take_succ_cons]
        rw [List.take_take, min_eq_left (Nat.le_succ m)]
    · simp only [List.take_succ_cons, List.orderedInsert, if_neg h]
      rw [take_orderedInsert_take x k l]

/-- The collector is in the canonical state for submission history `S`. -/
def Knn.IsState (rs : Knn) (k : ℕ) (S : List (ℚ × ℕ)) : Prop :=
  rs.capacity = k ∧ rs.items = topK k S

theorem Knn.isState_empty (k : ℕ) : (Knn.empty k).IsState k [] := by
  constructor
  · rfl
  · simp [Knn.empty, topK, List.insertionSort]

theorem Knn.isState_addPoint {rs : Knn} {k : ℕ} {S : List (ℚ × ℕ)}
    (h : rs.IsState k S) (d : ℚ) (i : ℕ) :
    (rs.addPoint d i).IsState k (S ++ [(d, i)]) := by
  obtain ⟨hc, hi⟩ := h
  refine ⟨hc, ?_⟩
  rw [Knn.addPoint, hi, hc]
  show (((topK k S).orderedInsert pLe (d, i)).take k) = topK k (S ++ [(d, i)])
  rw [topK, take_orderedInsert_take, topK, insertionSort_append_single]

/-- Folding a list of submissions into the collector (the leaf scans of the
searches are folds of this shape). -/
def Knn.addAll (rs : Knn) (l : List (ℚ × ℕ)) : Knn :=
  l.foldl (fun r p => r.addPoint p.1 p.2) rs

@[simp] theorem Knn.addAll_nil (rs : Knn) : rs.addAll [] = rs := rfl

@[simp] theorem Knn.addAll_cons (rs : Knn) (p : ℚ × ℕ) (l : List (ℚ × ℕ)) :
    rs.addAll (p :: l) = (rs.addPoint p.1 p.2).addAll l := rfl

theorem Knn.addAll_append (rs : Knn) (l l2 : List (ℚ × ℕ)) :
    rs.addAll (l ++ l2) = (rs.addAll l).addAll l2 := by
  simp [Knn.addAll, List.foldl_append]

@[simp] theorem Knn.capacity_addAll (rs : Knn) (l : List (ℚ × ℕ)) :
    (rs.addAll l).capacity = rs.capacity := by
  induction l generalizing rs with
  | nil => rfl
  | cons p l ih => simp [ih]

theorem Knn.isState_addAll {rs : Knn} {k : ℕ} {S : List (ℚ × ℕ)}
    (h : rs.IsState k S) (l : List (ℚ × ℕ)) :
    (rs.addAll l).IsState k (S ++ l) := by
  induction l generalizing rs S with
  | nil => simpa using h
  | cons p l ih =>
    have := ih (Knn.isState_addPoint h p.1 p.2)
    simpa using this

theorem Knn.length_addAll (rs : Knn) (l : List (ℚ × ℕ))
    (h : rs.items.length ≤ rs.capacity) :
    (rs.addAll l).items.length = min (rs.items.length + l.length) rs.capacity := by
  induction l generalizing rs with
  | nil =>
    simp [Knn.addAll]
    omega
  | cons p l ih =>
    rw [Knn.addAll_cons]
    rw [ih (rs.addPoint p.1 p.2) (by rw [Knn.length_addPoint]; simp)]
    rw [Knn.length_addPoint]
    simp only [Knn.capacity_addPoint, List.length_cons]
    omega
/-! ### Submissions strictly beyond the current worst distance never change
a full collector -/

theorem sorted_pLe_getLast :
    ∀ (l : List (ℚ × ℕ)), l.Sorted pLe → ∀ y ∈ l, ∀ p, l.getLast? = some p → pLe y p
  | [], _, y, hy => by simp at hy
  | [a], _, y, hy => by
    intro p hp
    have hy2 : y = a := by simpa using hy
    have hp2 : a = p := by simpa using hp
    rw [hy2, ← hp2]
    exact pLe_refl a
  | a :: b :: t, hs, y, hy => by
    intro p hp
    rw [List.getLast?_cons_cons] at hp
    have hst : (b :: t).Sorted pLe := hs.of_cons
    have hpm : p ∈ b :: t := by
      rcases List.mem_getLast?_eq_getLast (Option.mem_def.mpr hp) with ⟨h, h2⟩
      exact h2 ▸ List.getLast_mem h
    rcases List.mem_cons.mp hy with rfl | hy2
    · exact (List.rel_of_sorted_cons hs) p hpm
    · exact sorted_pLe_getLast (b :: t) hst y hy2 p hp

theorem sorted_topK (k : ℕ) (S : List (ℚ × ℕ)) : (topK k S).Sorted pLe :=
  (List.sorted_insertionSort pLe S).sublist (List.take_sublist _ _)

theorem length_topK (k : ℕ) (S : List (ℚ × ℕ)) :
    (topK k S).length = min k S.length := by
  simp [topK, List.length_take, List.length_insertionSort]

theorem take_orderedInsert_of_lt (x : ℚ × ℕ) :
    ∀ (k : ℕ) (l : List (ℚ × ℕ)), k ≤ l.length →
      (∀ y ∈ l.take k, y.1 < x.1) →
      (l.orderedInsert pLe x).take k = l.take k
  | 0, l, _, _ => by simp
  | k + 1, [], hk, _ => by simp at hk
  | k + 1, a :: l, hk, hall => by
    have ha : a.1 < x.1 := hall a (by simp)
    have hxa : ¬ pLe x a := by
      intro hc
      exact absurd (lt_of_le_of_lt (pLe_fst_le hc) ha) (lt_irrefl _)
    simp only [List.orderedInsert, if_neg hxa, List.take_succ_cons]
    rw [take_orderedInsert_of_lt x k l (by simpa using hk)]
    intro y hy
    exact hall y (by simp [List.take_succ_cons]; exact Or.inr hy)

theorem topK_append_single_of_lt {k : ℕ} {S : List (ℚ × ℕ)} (x : ℚ × ℕ)
    (hk : k ≤ S.length) (hall : ∀ y ∈ topK k S, y.1 < x.1) :
    topK k (S ++ [x]) = topK k S := by
  rw [topK, insertionSort_append_single]
  exact take_orderedInsert_of_lt x k _ (by simpa [List.length_insertionSort] using hk) hall

theorem topK_append_of_lt {k : ℕ} {S : List (ℚ × ℕ)} :
    ∀ (L : List (ℚ × ℕ)), k ≤ S.length →
      (∀ x ∈ L, ∀ y ∈ topK k S, y.1 < x.1) →
      topK k (S ++ L) = topK k S := by
  intro L
  induction L generalizing S with
  | nil => simp
  | cons x L ih =>
    intro hk hall
    have h1 : topK k (S ++ [x]) = topK k S :=
      topK_append_single_of_lt x hk fun y hy => hall x (by simp) y hy
    have h2 : topK k ((S ++ [x]) ++ L) = topK k (S ++ [x]) := by
      refine ih (by simp; omega) ?_
      rw [h1]
      intro z hz y hy
      exact hall z (by simp [hz]) y hy
    calc topK k (S ++ x :: L) = topK k ((S ++ [x]) ++ L) := by simp
    _ = topK k (S ++ [x]) := h2
    _ = topK k S := h1

/-- Bridge between the collector state and its `worstDist`: a finite worst
distance means the collector is full and `w` dominates every kept pair. -/
theorem Knn.worst_spec {rs : Knn} {k : ℕ} {S : List (ℚ × ℕ)} {w : ℚ}
    (h : rs.IsState k S) (hw : rs.worstDist = some w) :
    k ≤ S.length ∧ ∀ y ∈ topK k S, y.1 ≤ w := by
  obtain ⟨hc, hi⟩ := h
  unfold Knn.worstDist at hw
  by_cases hfull : rs.capacity ≤ rs.items.length
  · rw [if_pos hfull] at hw
    have hlen : k ≤ S.length := by
      rw [hi, length_topK, hc] at hfull
      omega
    refine ⟨hlen, ?_⟩
    rcases hlast : rs.items.getLast? with _ | p
    · rw [hlast] at hw
      simp at hw
    · rw [hlast] at hw
      simp only [Option.some.injEq] at hw
      intro y hy
      have := sorted_pLe_getLast rs.items (hi ▸ sorted_topK k S) y (hi ▸ hy) p hlast
      have h2 := pLe_fst_le this
      rw [hw] at h2
      exact h2
  · rw [if_neg hfull] at hw
    simp at hw
/-! ### The geometric pruning test and its admissibility -/

/-- Pruning test shared by `findNN` and `findExactNN` (source lines 867-880
and 942-955): with `bsq` the squared distance from the query to the pivot,
`rsq` the node radius and `wsq` the collector worst distance, the subtree
is skipped iff `val > 0` and `val*val - 4*rsq*wsq > 0` where
`val = bsq - rsq - wsq`.  A non-full collector reports the infinite
sentinel (`none`), for which both comparisons are false. -/
def pruneTest (bsq rsq : ℚ) (wsq : Option ℚ) : Bool :=
  match wsq with
  | none => false
  | some w =>
    let val := bsq - rsq - w
    decide (0 < val) && decide (0 < val * val - 4 * rsq * w)

/-- Decomposition of the squared distance used by the admissibility proof:
over the reals, `sqDist q p = sqA + sqB + 2*cross` for the legs through an
intermediate point. -/
theorem sqDist_decompose (dim : ℕ) (q piv p : Vec) :
    ((sqDist dim q p : ℚ) : ℝ) =
      ∑ j in Finset.range dim, (((q j : ℝ)) - piv j) ^ 2 +
      ∑ j in Finset.range dim, (((piv j : ℝ)) - p j) ^ 2 +
      2 * ∑ j in Finset.range dim, (((q j : ℝ)) - piv j) * (((piv j : ℝ)) - p j) := by
  unfold sqDist
  push_cast
  rw [Finset.mul_sum, ← Finset.sum_add_distrib, ← Finset.sum_add_distrib]
  refine Finset.sum_congr rfl fun j _ => ?_
  ring

/-- Admissibility of the pruning test for squared Euclidean distance: if
every point of the subtree lies within the node radius of the pivot and
the test fires on a finite worst distance `w`, then the point is strictly
farther from the query than `w` - the subtree cannot improve a full
result set. -/
theorem pruneTest_admissible {dim : ℕ} {q piv p : Vec} {rsq w : ℚ}
    (hrp : sqDist dim piv p ≤ rsq)
    (ht : pruneTest (sqDist dim q piv) rsq (some w) = true) :
    w < sqDist dim q p := by
  rcases lt_or_le w 0 with hw | hw
  · exact lt_of_lt_of_le hw (sqDist_nonneg dim q p)
  unfold pruneTest at ht
  simp only [Bool.and_eq_true, decide_eq_true_eq] at ht
  obtain ⟨hval, hval2⟩ := ht
  -- move to the real numbers
  set b : ℚ := sqDist dim q piv with hbdef
  have hb0 : (0 : ℚ) ≤ b := sqDist_nonneg dim q piv
  have hrho0 : (0 : ℚ) ≤ sqDist dim piv p := sqDist_nonneg dim piv p
  have hr0 : (0 : ℚ) ≤ rsq := le_trans hrho0 hrp
  set u : ℕ → ℝ := fun j => ((q j : ℝ)) - piv j with hudef
  set v : ℕ → ℝ := fun j => ((piv j : ℝ)) - p j with hvdef
  set B : ℝ := ∑ j in Finset.range dim, u j ^ 2 with hBdef
  set P : ℝ := ∑ j in Finset.range dim, v j ^ 2 with hPdef
  set C : ℝ := ∑ j in Finset.range dim, u j * v j with hCdef
  have hBcast : ((b : ℚ) : ℝ) = B := by
    rw [hbdef, hBdef]
    unfold sqDist
    push_cast
    rfl
  have hPcast : ((sqDist dim piv p : ℚ) : ℝ) = P := by
    rw [hPdef]
    unfold sqDist
    push_cast
    rfl
  have hqp : ((sqDist dim q p : ℚ) : ℝ) = B + P + 2 * C :=
    sqDist_decompose dim q piv p
  have hB0 : (0 : ℝ) ≤ B := Finset.sum_nonneg fun _ _ => sq_nonneg _
  have hP0 : (0 : ℝ) ≤ P := Finset.sum_nonneg fun _ _ => sq_nonneg _
  -- Cauchy-Schwarz: C^2 ≤ B * P, hence -C ≤ sqrt B * sqrt P
  have hcs : C ^ 2 ≤ B * P := by
    rw [hBdef, hPdef, hCdef]
    exact Finset.sum_mul_sq_le_sq_mul_sq _ _ _
  have habs : |C| ≤ Real.sqrt (B * P) := by
    rw [← Real.sqrt_sq_eq_abs]
    exact Real.sqrt_le_sqrt hcs
  have hcross : -(Real.sqrt B * Real.sqrt P) ≤ C := by
    have h1 : -C ≤ |C| := neg_le_abs C
    have h2 : Real.sqrt (B * P) = Real.sqrt B * Real.sqrt P := Real.sqrt_mul hB0 P
    nlinarith [h1.trans habs]
  -- from the test: sqrt B > sqrt rsq + sqrt w
  have hvalR : ((rsq : ℚ) : ℝ) + w < B := by
    rw [← hBcast]
    have hlt : rsq + w < b := by linarith [hval]
    exact_mod_cast hlt
  have hval2R : (2 * Real.sqrt ((rsq : ℝ) * (w : ℝ))) ^ 2 < (B - rsq - w) ^ 2 := by
    have hrw0 : (0 : ℝ) ≤ (rsq : ℝ) * (w : ℝ) := by
      have : (0:ℝ) ≤ (rsq : ℝ) := by exact_mod_cast hr0
      have hw2 : (0:ℝ) ≤ (w : ℝ) := by exact_mod_cast hw
      positivity
    rw [mul_pow, Real.sq_sqrt hrw0]
    have : ((b : ℚ) : ℝ) - rsq - w = B - rsq - w := by rw [hBcast]
    have hc : (0:ℝ) < (B - rsq - w) * (B - rsq - w) - 4 * rsq * w := by
      rw [← this]
      exact_mod_cast hval2
    nlinarith [hc]
  have hvalpos : (0 : ℝ) < B - (rsq : ℝ) - (w : ℝ) := by
    rw [← hBcast]
    exact_mod_cast hval
  have hgt : 2 * Real.sqrt ((rsq : ℝ) * (w : ℝ)) < B - rsq - w :=
    lt_of_pow_lt_pow_left₀ 2 (le_of_lt hvalpos) hval2R
  have hsq : ((Real.sqrt rsq + Real.sqrt w) ^ 2 : ℝ) < B := by
    have hrr : (0:ℝ) ≤ (rsq : ℝ) := by exact_mod_cast hr0
    have hww : (0:ℝ) ≤ (w : ℝ) := by exact_mod_cast hw
    have e1 : (Real.sqrt rsq + Real.sqrt w) ^ 2
        = rsq + w + 2 * Real.sqrt ((rsq : ℝ) * (w : ℝ)) := by
      rw [add_sq, Real.sq_sqrt hrr, Real.sq_sqrt hww, Real.sqrt_mul hrr]
      ring
    rw [e1]
    linarith [hgt]
  have hsqrtB : Real.sqrt rsq + Real.sqrt w < Real.sqrt B := by
    have h1 : Real.sqrt ((Real.sqrt rsq + Real.sqrt w) ^ 2) < Real.sqrt B :=
      Real.sqrt_lt_sqrt (sq_nonneg _) hsq
    rwa [Real.sqrt_sq (by positivity)] at h1
  -- sqrt P ≤ sqrt rsq
  have hPr : Real.sqrt P ≤ Real.sqrt rsq := by
    refine Real.sqrt_le_sqrt ?_
    rw [← hPcast]
    exact_mod_cast hrp
  -- conclude
  have hkey : Real.sqrt w < Real.sqrt B - Real.sqrt P := by
    have := Real.sqrt_nonneg (w : ℝ)
    linarith [hsqrtB, hPr]
  have hfin : (w : ℝ) < ((sqDist dim q p : ℚ) : ℝ) := by
    have hs0 : (0 : ℝ) ≤ Real.sqrt w := Real.sqrt_nonneg _
    have h2 : (Real.sqrt w) ^ 2 < (Real.sqrt B - Real.sqrt P) ^ 2 := by
      have hpos : (0:ℝ) ≤ Real.sqrt B - Real.sqrt P := le_of_lt (lt_of_le_of_lt hs0 hkey)
      exact pow_lt_pow_left₀ hkey hs0 (by norm_num)
    have hww : (0:ℝ) ≤ (w : ℝ) := by exact_mod_cast hw
    rw [Real.sq_sqrt hww] at h2
    have hexp : (Real.sqrt B - Real.sqrt P) ^ 2 = B + P - 2 * (Real.sqrt B * Real.sqrt P) := by
      rw [sub_sq, Real.sq_sqrt hB0, Real.sq_sqrt hP0]
      ring
    rw [hqp]
    rw [hexp] at h2
    linarith [hcross]
  exact_mod_cast hfin
/-! ### Exact descent (`findExactNN`) -/

/-- Placeholder node for an out-of-range child access; the source never
indexes `childs` out of range on the runs modelled here. -/
def defaultNode : KMeansNode := KMeansNode.mk (fun _ => 0) 0 0 0 [] [] 0

/-- One insertion step of `getCenterOrdering` (source lines 982-997): the
pair is placed before the first already-placed entry whose distance is not
strictly smaller. -/
def orderInsert (d : ℚ) (i : ℕ) : List (ℚ × ℕ) → List (ℚ × ℕ)
  | [] => [(d, i)]
  | (d2, i2) :: rest =>
    if d2 < d then (d2, i2) :: orderInsert d i rest
    else (d, i) :: (d2, i2) :: rest

/-- Model of `getCenterOrdering`: child positions sorted by ascending
distance between the query and the child pivot (insertion sort; the
strict comparison places a later child before an earlier one on ties). -/
def centerOrdering (dim : ℕ) (q : Vec) (cs : List KMeansNode) : List ℕ :=
  (cs.enum.foldl
    (fun acc pair => orderInsert (sqDist dim q pair.2.pivot) pair.1 acc) []).map
      (fun p => p.2)

theorem orderInsert_perm (d : ℚ) (i : ℕ) :
    ∀ l : List (ℚ × ℕ), (orderInsert d i l).Perm ((d, i) :: l)
  | [] => List.Perm.refl _
  | (d2, i2) :: rest => by
    by_cases h : d2 < d
    · simp only [orderInsert, if_pos h]
      exact ((orderInsert_perm d i rest).cons (d2, i2)).trans (List.Perm.swap _ _ _)
    · simp only [orderInsert, if_neg h]
      exact List.Perm.refl _

theorem centerOrdering_aux_perm (dim : ℕ) (q : Vec) :
    ∀ (l : List (ℕ × KMeansNode)) (acc : List (ℚ × ℕ)),
      (l.foldl (fun acc pair =>
          orderInsert (sqDist dim q pair.2.pivot) pair.1 acc) acc).Perm
        (l.map (fun pair => (sqDist dim q pair.2.pivot, pair.1)) ++ acc)
  | [], acc => by simp
  | pair :: rest, acc => by
    simp only [List.foldl_cons, List.map_cons, List.cons_append]
    refine (centerOrdering_aux_perm dim q rest _).trans ?_
    refine (List.Perm.append_left _ (orderInsert_perm _ _ acc)).trans ?_
    exact List.perm_middle

/-- The ordering visits every child exactly once. -/
theorem centerOrdering_perm (dim : ℕ) (q : Vec) (cs : List KMeansNode) :
    (centerOrdering dim q cs).Perm (List.range cs.length) := by
  unfold centerOrdering
  have h := centerOrdering_aux_perm dim q cs.enum []
  have h2 := h.map (fun p : ℚ × ℕ => p.2)
  refine h2.trans ?_
  rw [List.append_nil, List.map_map]
  have he : (cs.enum.map ((fun p : ℚ × ℕ => p.2) ∘
      fun pair => (sqDist dim q pair.2.pivot, pair.1))) = List.range cs.length := by
    simp [Function.comp_def]
  rw [he]

/-- The (distance, id) pairs of all points of a subtree, as the leaf scans
submit them: `distance_(dataset_[index], vec)` with the stored id. -/
def nodePairs (ds : Dataset) (dim : ℕ) (q : Vec) (t : KMeansNode) : List (ℚ × ℕ) :=
  t.subtreeIndices.map (fun i => (sqDist dim (dsGet ds i) q, i))

/-- The (distance, id) pairs a linear scan over dataset rows `0..n` submits. -/
def linearPairs (ds : Dataset) (dim : ℕ) (q : Vec) (n : ℕ) : List (ℚ × ℕ) :=
  (List.range n).map (fun i => (sqDist dim (dsGet ds i) q, i))

/-- A linear scan: submit every dataset point to a fresh collector. -/
def linearScan (ds : Dataset) (dim : ℕ) (q : Vec) (n k : ℕ) : Knn :=
  (Knn.empty k).addAll (linearPairs ds dim q n)

/-- Exact search `findExactNN` (source lines 939-974).  The first component
is the collector (the C++ result object); the second accumulates every
(distance, id) pair submitted through `addPoint`, the observation the
submitted-set claims are about.  Recursion is driven by an explicit depth
fuel; the wrapper `findExactQuery` passes the tree height plus one, which
the source recursion never exceeds, so the fuel-exhausted branch is
unreachable there. -/
def findExactNN (ds : Dataset) (dim : ℕ) (q : Vec) :
    ℕ → KMeansNode → Knn × List (ℚ × ℕ) → Knn × List (ℚ × ℕ)
  | 0, _, st => st
  | fuel + 1, node, st =>
    if pruneTest (sqDist dim q node.pivot) node.radius st.1.worstDist then st
    else if node.childs.isEmpty then
      let pairs := node.indices.map (fun i => (sqDist dim (dsGet ds i) q, i))
      (st.1.addAll pairs, st.2 ++ pairs)
    else
      (centerOrdering dim q node.childs).foldl
        (fun st2 i => findExactNN ds dim q fuel (node.childs.getD i defaultNode) st2)
        st

/-- Exact query entry point: a fresh collector of capacity `k` submitted to
`findExactNN` at the root. -/
def findExactQuery (ds : Dataset) (dim : ℕ) (q : Vec) (t : KMeansNode) (k : ℕ) :
    Knn × List (ℚ × ℕ) :=
  findExactNN ds dim q (t.height + 1) t (Knn.empty k, [])
/-! ### Helper facts about the tree measures -/

theorem heightL_lt {c : KMeansNode} :
    ∀ {cs : List KMeansNode}, c ∈ cs → c.height < KMeansNode.heightL cs := by
  intro cs
  induction cs with
  | nil => intro h; cases h
  | cons c2 cs ih =>
    intro h
    rcases List.mem_cons.mp h with rfl | h2
    · show c.height < max (c.height + 1) (KMeansNode.heightL cs)
      omega
    · have := ih h2
      show c.height < max (c2.height + 1) (KMeansNode.heightL cs)
      omega

theorem height_child_lt {t c : KMeansNode} (h : c ∈ t.childs) : c.height < t.height := by
  cases t with
  | mk p r v s cs idxs l =>
    show c.height < KMeansNode.heightL cs
    exact heightL_lt h

theorem radiusOkL_mem {ds : Dataset} {dim : ℕ} :
    ∀ {cs : List KMeansNode}, KMeansNode.radiusOkL ds dim cs = true →
      ∀ c ∈ cs, KMeansNode.radiusOk ds dim c = true := by
  intro cs
  induction cs with
  | nil => intro _ c h; cases h
  | cons c2 cs ih =>
    intro h c hc
    have h2 : KMeansNode.radiusOk ds dim c2 = true ∧
        KMeansNode.radiusOkL ds dim cs = true := by
      have : (KMeansNode.radiusOk ds dim c2 && KMeansNode.radiusOkL ds dim cs) = true := h
      simpa [Bool.and_eq_true] using this
    rcases List.mem_cons.mp hc with rfl | hc2
    · exact h2.1
    · exact ih h2.2 c hc2

theorem radiusOk_bound {ds : Dataset} {dim : ℕ} {t : KMeansNode}
    (h : KMeansNode.radiusOk ds dim t = true) :
    ∀ i ∈ t.subtreeIndices, sqDist dim t.pivot (dsGet ds i) ≤ t.radius := by
  cases t with
  | mk p r v s cs idxs l =>
    intro i hi
    have hconj : (((KMeansNode.mk p r v s cs idxs l).subtreeIndices.all fun i =>
        decide (sqDist dim p (dsGet ds i) ≤ r)) &&
        KMeansNode.radiusOkL ds dim cs) = true := h
    simp only [Bool.and_eq_true, List.all_eq_true, decide_eq_true_eq] at hconj
    simpa using hconj.1 i hi

theorem radiusOk_childs {ds : Dataset} {dim : ℕ} {t : KMeansNode}
    (h : KMeansNode.radiusOk ds dim t = true) :
    ∀ c ∈ t.childs, KMeansNode.radiusOk ds dim c = true := by
  cases t with
  | mk p r v s cs idxs l =>
    have hconj : (((KMeansNode.mk p r v s cs idxs l).subtreeIndices.all fun i =>
        decide (sqDist dim p (dsGet ds i) ≤ r)) &&
        KMeansNode.radiusOkL ds dim cs) = true := h
    simp only [Bool.and_eq_true, List.all_eq_true, decide_eq_true_eq] at hconj
    exact radiusOkL_mem hconj.2

theorem subtreeIndicesL_eq :
    ∀ cs : List KMeansNode,
      KMeansNode.subtreeIndicesL cs = (cs.map KMeansNode.subtreeIndices).flatten
  | [] => rfl
  | c :: cs => by
    show c.subtreeIndices ++ KMeansNode.subtreeIndicesL cs = _
    rw [subtreeIndicesL_eq cs]
    simp

theorem map_range_getD {α β : Type} (g : α → β) (d : α) :
    ∀ cs : List α,
      (List.range cs.length).map (fun i => g (cs.getD i d)) = cs.map g
  | [] => rfl
  | c :: cs => by
    rw [List.length_cons, List.range_succ_eq_map, List.map_cons, List.map_map]
    simp only [List.getD_cons_zero, Function.comp_def, List.getD_cons_succ]
    rw [map_range_getD g d cs]
    rfl
theorem nodePairs_leaf (ds : Dataset) (dim : ℕ) (q : Vec) (p r v s idxs l) :
    nodePairs ds dim q (KMeansNode.mk p r v s [] idxs l)
      = idxs.map (fun i => (sqDist dim (dsGet ds i) q, i)) := rfl

theorem nodePairs_internal (ds : Dataset) (dim : ℕ) (q : Vec) (p r v s c cs idxs l) :
    nodePairs ds dim q (KMeansNode.mk p r v s (c :: cs) idxs l)
      = ((c :: cs).map (nodePairs ds dim q)).flatten := by
  unfold nodePairs
  show (KMeansNode.subtreeIndicesL (c :: cs)).map _ = _
  rw [subtreeIndicesL_eq]
  rw [List.map_flatten, List.map_map]
  rfl

theorem radiusOk_defaultNode (ds : Dataset) (dim : ℕ) :
    KMeansNode.radiusOk ds dim defaultNode = true := rfl

@[simp] theorem nodePairs_defaultNode (ds : Dataset) (dim : ℕ) (q : Vec) :
    nodePairs ds dim q defaultNode = [] := rfl

@[simp] theorem height_defaultNode : defaultNode.height = 0 := rfl

/-- Main exact-search lemma: on a radius-sound tree, a descent through
`findExactNN` leaves the collector in the canonical state for its previous
submission history extended by every point of the subtree: pruned subtrees
contribute points strictly beyond the worst distance, which cannot change
a full collector. -/
theorem findExactNN_isState (ds : Dataset) (dim : ℕ) (q : Vec) (k : ℕ) :
    ∀ (fuel : ℕ) (t : KMeansNode) (rs : Knn) (tr S : List (ℚ × ℕ)),
      t.height < fuel → KMeansNode.radiusOk ds dim t = true → rs.IsState k S →
      (findExactNN ds dim q fuel t (rs, tr)).1.IsState k (S ++ nodePairs ds dim q t) := by
  intro fuel
  induction fuel with
  | zero =>
    intro t rs tr S hh
    omega
  | succ fuel ih =>
    intro t rs tr S hh hrok hstate
    rw [findExactNN]
    cases hprune : pruneTest (sqDist dim q t.pivot) t.radius rs.worstDist with
    | true =>
      simp only [if_true]
      rcases hwcase : rs.worstDist with _ | w
      · rw [hwcase] at hprune
        simp [pruneTest] at hprune
      · rw [hwcase] at hprune
        obtain ⟨hklen, hle⟩ := Knn.worst_spec hstate hwcase
        refine ⟨hstate.1, ?_⟩
        have hall : ∀ x ∈ nodePairs ds dim q t, ∀ y ∈ topK k S, y.1 < x.1 := by
          intro x hx y hy
          obtain ⟨i, hi, rfl⟩ := List.mem_map.mp hx
          have hadm : w < sqDist dim q (dsGet ds i) :=
            pruneTest_admissible (radiusOk_bound hrok i hi) hprune
          have hycomp : y.1 ≤ w := hle y hy
          calc y.1 ≤ w := hycomp
          _ < sqDist dim q (dsGet ds i) := hadm
          _ = sqDist dim (dsGet ds i) q := sqDist_comm dim q (dsGet ds i)
        rw [hstate.2, (topK_append_of_lt (nodePairs ds dim q t) hklen hall).symm]
    | false =>
      simp only [Bool.false_eq_true, if_false]
      cases t with
      | mk p r v s cs idxs l =>
        cases cs with
        | nil =>
          simp only [KMeansNode.childs_mk, List.isEmpty_nil, if_true]
          have := Knn.isState_addAll hstate
            (idxs.map (fun i => (sqDist dim (dsGet ds i) q, i)))
          simpa [nodePairs_leaf] using this
        | cons c cs2 =>
          simp only [KMeansNode.childs_mk, List.isEmpty_cons, Bool.false_eq_true, if_false]
          have hfuel1 : 1 ≤ fuel := by
            have : (KMeansNode.mk p r v s (c :: cs2) idxs l).height =
                KMeansNode.heightL (c :: cs2) := rfl
            have h2 : c.height < KMeansNode.heightL (c :: cs2) := heightL_lt (by simp)
            omega
          have hchildprops : ∀ i : ℕ,
              ((c :: cs2).getD i defaultNode).height < fuel ∧
              KMeansNode.radiusOk ds dim ((c :: cs2).getD i defaultNode) = true := by
            intro i
            by_cases hlt : i < (c :: cs2).length
            · have hmem : (c :: cs2).getD i defaultNode ∈ (c :: cs2) := by
                rw [List.getD_eq_getElem _ _ hlt]
                exact List.getElem_mem hlt
              constructor
              · have h2 : ((c :: cs2).getD i defaultNode).height <
                    KMeansNode.heightL (c :: cs2) := heightL_lt hmem
                have h3 : (KMeansNode.mk p r v s (c :: cs2) idxs l).height =
                    KMeansNode.heightL (c :: cs2) := rfl
                omega
              · exact radiusOk_childs hrok _ hmem
            · rw [List.getD_eq_default _ _ (by omega)]
              exact ⟨by simpa using hfuel1, radiusOk_defaultNode ds dim⟩
          have hfold : ∀ (ord : List ℕ) (rs2 : Knn) (tr2 S2 : List (ℚ × ℕ)),
              rs2.IsState k S2 →
              ((ord.foldl (fun st2 i =>
                  findExactNN ds dim q fuel ((c :: cs2).getD i defaultNode) st2)
                  (rs2, tr2))).1.IsState k
                (S2 ++ (ord.map (fun i =>
                  nodePairs ds dim q ((c :: cs2).getD i defaultNode))).flatten) := by
            intro ord
            induction ord with
            | nil =>
              intro rs2 tr2 S2 h2
              simpa using h2
            | cons i ord ih2 =>
              intro rs2 tr2 S2 h2
              simp only [List.foldl_cons, List.map_cons, List.flatten_cons]
              have hstep := ih ((c :: cs2).getD i defaultNode) rs2 tr2 S2
                (hchildprops i).1 (hchildprops i).2 h2
              have hrest := ih2
                (findExactNN ds dim q fuel ((c :: cs2).getD i defaultNode) (rs2, tr2)).1
                (findExactNN ds dim q fuel ((c :: cs2).getD i defaultNode) (rs2, tr2)).2
                (S2 ++ nodePairs ds dim q ((c :: cs2).getD i defaultNode)) hstep
              simpa [List.append_assoc] using hrest
          have hres := hfold (centerOrdering dim q (c :: cs2)) rs tr S hstate
          refine ⟨hres.1, ?_⟩
          rw [hres.2]
          -- the visited multiset is a permutation of the subtree pairs
          have hperm : ((centerOrdering dim q (c :: cs2)).map (fun i =>
              nodePairs ds dim q ((c :: cs2).getD i defaultNode))).flatten.Perm
              (nodePairs ds dim q (KMeansNode.mk p r v s (c :: cs2) idxs l)) := by
            have h1 := (centerOrdering_perm dim q (c :: cs2)).map
              (fun i => nodePairs ds dim q ((c :: cs2).getD i defaultNode))
            have h2 := h1.flatten
            rw [map_range_getD (nodePairs ds dim q) defaultNode (c :: cs2)] at h2
            rw [nodePairs_internal]
            exact h2
          exact topK_perm k (List.Perm.append_left S hperm)
/-- The exact query collects exactly the linear-scan result whenever the
tree is radius-sound and stores the dataset rows `0..n` (in any order). -/
theorem findExactQuery_eq_linearScan (ds : Dataset) (dim : ℕ) (q : Vec)
    (t : KMeansNode) (k n : ℕ)
    (hrok : KMeansNode.radiusOk ds dim t = true)
    (hperm : t.subtreeIndices.Perm (List.range n)) :
    (findExactQuery ds dim q t k).1.items = (linearScan ds dim q n k).items := by
  have h1 := findExactNN_isState ds dim q k (t.height + 1) t (Knn.empty k) [] []
    (by omega) hrok (Knn.isState_empty k)
  have h2 := Knn.isState_addAll (Knn.isState_empty k) (linearPairs ds dim q n)
  rw [findExactQuery, h1.2, (show linearScan ds dim q n k =
    (Knn.empty k).addAll (linearPairs ds dim q n) from rfl), h2.2]
  simp only [List.nil_append]
  refine topK_perm k ?_
  exact hperm.map (fun i => (sqDist dim (dsGet ds i) q, i))
/-! ### Best-bin-first search (`findNN` and the `findNeighbors` loop) -/

/-- A pending branch of the best-bin-first search (`BranchStruct` of the
source). -/
structure BranchSt : Type where
  node : KMeansNode
  key : ℚ

/-- Modelled from the spec: `heap.h` is not part of the repository
snapshot.  Spec 4.H: a min-heap over (node, key) pairs with `insert` and
`popMin`.  The model is a list; `insert` prepends and `popMin` removes an
entry holding the minimal key. -/
abbrev BranchHeap : Type := List BranchSt

/-- Heap insertion (modelled from the spec, see `BranchHeap`). -/
def heapInsert (h : BranchHeap) (b : BranchSt) : BranchHeap := b :: h

/-- Heap minimum extraction (modelled from the spec, see `BranchHeap`):
returns a minimal-key branch and the remaining heap, or `none` when empty. -/
def heapPopMin : BranchHeap → Option (BranchSt × BranchHeap)
  | [] => none
  | b :: rest =>
    match heapPopMin rest with
    | none => some (b, [])
    | some (m, rest2) =>
      if b.key ≤ m.key then some (b, rest) else some (m, b :: rest2)

theorem heapPopMin_mem :
    ∀ {h : BranchHeap} {b : BranchSt} {h2 : BranchHeap},
      heapPopMin h = some (b, h2) → b ∈ h ∧ ∀ x ∈ h2, x ∈ h
  | [], b, h2 => by
    intro hc
    simp [heapPopMin] at hc
  | a :: rest, b, h2 => by
    intro hc
    rw [heapPopMin] at hc
    rcases hrec : heapPopMin rest with _ | pair
    · rw [hrec] at hc
      simp only [Option.some.injEq, Prod.mk.injEq] at hc
      exact ⟨by simp [hc.1], by simp [← hc.2]⟩
    · rw [hrec] at hc
      obtain ⟨m, rest2⟩ := pair
      dsimp only at hc
      have hrec2 := heapPopMin_mem hrec
      by_cases hle : a.key ≤ m.key
      · rw [if_pos hle] at hc
        simp only [Option.some.injEq, Prod.mk.injEq] at hc
        refine ⟨by simp [hc.1], ?_⟩
        intro x hx
        rw [← hc.2] at hx
        simp [hx]
      · rw [if_neg hle] at hc
        simp only [Option.some.injEq, Prod.mk.injEq] at hc
        constructor
        · rw [← hc.1]
          simp [hrec2.1]
        · intro x hx
          rw [← hc.2] at hx
          rcases List.mem_cons.mp hx with rfl | hx2
          · simp
          · simp [hrec2.2 x hx2]

/-- State threaded through `findNN`: the `checks` counter, the result
collector and the branch heap. -/
structure SearchState : Type where
  checks : ℕ
  rs : Knn
  heap : BranchHeap

/-- First position holding the minimal distance, found by the strict
comparison scan of `exploreNodeBranches` (source lines 907-917). -/
def bestChildIdx : List ℚ → ℕ
  | [] => 0
  | d :: rest =>
    (rest.enum.foldl
      (fun acc p => if p.2 < acc.2 then (p.1 + 1, p.2) else acc) (0, d)).1

/-- Heap pushes of `exploreNodeBranches` (source lines 920-930): every
child but the closest is enqueued, in child order, with key
`distance - cb_index * variance`. -/
def pushBranches (cb : ℚ) (cs : List KMeansNode) (dists : List ℚ) (best : ℕ)
    (h : BranchHeap) : BranchHeap :=
  (cs.zip dists).enum.foldl
    (fun hp p =>
      if p.1 = best then hp
      else heapInsert hp ⟨p.2.1, p.2.2 - cb * p.2.1.variance⟩) h

theorem pushBranches_mem (cb : ℚ) (cs : List KMeansNode) (dists : List ℚ)
    (best : ℕ) (h : BranchHeap) :
    ∀ br ∈ pushBranches cb cs dists best h, br ∈ h ∨ br.node ∈ cs := by
  unfold pushBranches
  have hgen : ∀ (l : List (ℕ × (KMeansNode × ℚ))) (acc : BranchHeap),
      (∀ p ∈ l, p.2.1 ∈ cs) → (∀ br ∈ acc, br ∈ h ∨ br.node ∈ cs) →
      ∀ br ∈ l.foldl (fun hp p =>
          if p.1 = best then hp
          else heapInsert hp ⟨p.2.1, p.2.2 - cb * p.2.1.variance⟩) acc,
        br ∈ h ∨ br.node ∈ cs := by
    intro l
    induction l with
    | nil =>
      intro acc _ hacc br hbr
      exact hacc br hbr
    | cons p l ih =>
      intro acc hl hacc br hbr
      rw [List.foldl_cons] at hbr
      by_cases hp : p.1 = best
      · rw [if_pos hp] at hbr
        exact ih acc (fun x hx => hl x (by simp [hx])) hacc br hbr
      · rw [if_neg hp] at hbr
        refine ih _ (fun x hx => hl x (by simp [hx])) ?_ br hbr
        intro b2 hb2
        rcases List.mem_cons.mp hb2 with rfl | hb3
        · exact Or.inr (hl p (by simp))
        · exact hacc b2 hb3
  refine hgen _ h ?_ (fun br hbr => Or.inl hbr)
  intro p hp
  have h2 : (cs.zip dists)[p.1]? = some p.2 := List.mem_enum_iff_getElem?.mp hp
  have h3 : p.2 ∈ cs.zip dists := List.getElem?_mem h2
  exact (List.of_mem_zip h3).1

/-- One best-bin-first descent, `findNN` (source lines 863-897): prune,
scan the leaf (skipping it only when over budget with a full collector),
or push all non-closest children and recurse into the closest child.
Recursion is driven by a depth fuel; callers pass the node height plus
one, which the source recursion never exceeds. -/
def findNN (ds : Dataset) (dim : ℕ) (q : Vec) (cb : ℚ) (maxChecks : ℕ) :
    ℕ → KMeansNode → SearchState → SearchState
  | 0, _, st => st
  | fuel + 1, node, st =>
    if pruneTest (sqDist dim q node.pivot) node.radius st.rs.worstDist then st
    else if node.childs.isEmpty then
      if maxChecks ≤ st.checks ∧ st.rs.full = true then st
      else
        ⟨st.checks + node.size,
         st.rs.addAll (node.indices.map fun i => (sqDist dim (dsGet ds i) q, i)),
         st.heap⟩
    else
      let dists := node.childs.map fun c => sqDist dim q c.pivot
      let best := bestChildIdx dists
      findNN ds dim q cb maxChecks fuel (node.childs.getD best defaultNode)
        ⟨st.checks, st.rs, pushBranches cb node.childs dists best st.heap⟩

/-- The `while (heap->popMin(branch) && (checks < maxChecks ||
!result.full()))` loop of `findNeighbors` (source lines 478-482), with an
iteration fuel; the wrapper passes the node count of the tree, which the
loop cannot exceed. -/
def searchLoop (ds : Dataset) (dim : ℕ) (q : Vec) (cb : ℚ) (maxChecks : ℕ) :
    ℕ → SearchState → SearchState
  | 0, st => st
  | fuel + 1, st =>
    match heapPopMin st.heap with
    | none => st
    | some (br, heap2) =>
      if st.checks < maxChecks ∨ ¬ st.rs.full = true then
        searchLoop ds dim q cb maxChecks fuel
          (findNN ds dim q cb maxChecks (br.node.height + 1) br.node
            ⟨st.checks, st.rs, heap2⟩)
      else st

/-- Query dispatch of `findNeighbors` (source lines 462-487) on a present
tree: `checks = none` models the `FLANN_CHECKS_UNLIMITED` sentinel and
runs the exact descent; a finite value runs the best-bin-first search.
Returns the collector and the final `checks` counter (0 in exact mode,
where the source does not count). -/
def findNeighborsTree (ds : Dataset) (dim : ℕ) (q : Vec) (cb : ℚ)
    (checks : Option ℕ) (t : KMeansNode) (k : ℕ) : Knn × ℕ :=
  match checks with
  | none => ((findExactQuery ds dim q t k).1, 0)
  | some maxChecks =>
    let st0 := findNN ds dim q cb maxChecks (t.height + 1) t ⟨0, Knn.empty k, []⟩
    let stf := searchLoop ds dim q cb maxChecks (t.weight + 1) st0
    (stf.rs, stf.checks)

/-! ### The `checks` budget invariant -/

theorem maxLeafSizeL_mem {c : KMeansNode} :
    ∀ {cs : List KMeansNode}, c ∈ cs →
      c.maxLeafSize ≤ KMeansNode.maxLeafSizeL cs := by
  intro cs
  induction cs with
  | nil => intro h; cases h
  | cons c2 cs ih =>
    intro h
    rcases List.mem_cons.mp h with rfl | h2
    · show c.maxLeafSize ≤ max c.maxLeafSize (KMeansNode.maxLeafSizeL cs)
      omega
    · have := ih h2
      show c.maxLeafSize ≤ max c2.maxLeafSize (KMeansNode.maxLeafSizeL cs)
      omega

theorem maxLeafSize_child_le {t c : KMeansNode} (h : c ∈ t.childs) :
    c.maxLeafSize ≤ t.maxLeafSize := by
  cases t with
  | mk p r v s cs idxs l =>
    simp only [KMeansNode.childs_mk] at h
    cases cs with
    | nil => cases h
    | cons c2 cs2 =>
      show c.maxLeafSize ≤ KMeansNode.maxLeafSizeL (c2 :: cs2)
      exact maxLeafSizeL_mem h

theorem leavesOkL_mem {c : KMeansNode} :
    ∀ {cs : List KMeansNode}, KMeansNode.leavesOkL cs = true → c ∈ cs →
      c.leavesOk = true := by
  intro cs
  induction cs with
  | nil => intro _ h; cases h
  | cons c2 cs ih =>
    intro hok h
    have hok2 : c2.leavesOk = true ∧ KMeansNode.leavesOkL cs = true := by
      have : (c2.leavesOk && KMeansNode.leavesOkL cs) = true := hok
      simpa [Bool.and_eq_true] using this
    rcases List.mem_cons.mp h with rfl | h2
    · exact hok2.1
    · exact ih hok2.2 h2

theorem leavesOk_child {t c : KMeansNode} (hok : t.leavesOk = true)
    (h : c ∈ t.childs) : c.leavesOk = true := by
  cases t with
  | mk p r v s cs idxs l =>
    simp only [KMeansNode.childs_mk] at h
    cases cs with
    | nil => cases h
    | cons c2 cs2 =>
      exact leavesOkL_mem hok h

@[simp] theorem maxLeafSize_defaultNode : defaultNode.maxLeafSize = 0 := rfl

@[simp] theorem leavesOk_defaultNode : defaultNode.leavesOk = true := rfl
/-- Invariant of the budgeted search: collector capacity is `k`; the
collector holds `min checks k` pairs (every scanned point is submitted and
the collector keeps the best `k`); the `checks` counter respects the
overrun bound; and every pending heap branch is a subtree whose leaves
hold at most `L` points, with consistent leaf sizes. -/
def SearchInv (k maxChecks L : ℕ) (st : SearchState) : Prop :=
  st.rs.capacity = k ∧
  st.rs.items.length = min st.checks k ∧
  st.checks ≤ max maxChecks k - 1 + L ∧
  ∀ br ∈ st.heap, br.node.maxLeafSize ≤ L ∧ br.node.leavesOk = true

theorem findNN_inv (ds : Dataset) (dim : ℕ) (q : Vec) (cb : ℚ)
    (maxChecks k L : ℕ) :
    ∀ (fuel : ℕ) (node : KMeansNode) (st : SearchState),
      node.maxLeafSize ≤ L → node.leavesOk = true →
      SearchInv k maxChecks L st →
      SearchInv k maxChecks L (findNN ds dim q cb maxChecks fuel node st) := by
  intro fuel
  induction fuel with
  | zero =>
    intro node st _ _ hinv
    exact hinv
  | succ fuel ih =>
    intro node st hL hok hinv
    obtain ⟨hcap, hlen, hbound, hheap⟩ := hinv
    rw [findNN]
    cases hprune : pruneTest (sqDist dim q node.pivot) node.radius st.rs.worstDist with
    | true =>
      simp only [if_true]
      exact ⟨hcap, hlen, hbound, hheap⟩
    | false =>
      simp only [Bool.false_eq_true, if_false]
      cases node with
      | mk p r v s cs idxs l =>
        cases cs with
        | nil =>
          simp only [KMeansNode.childs_mk, List.isEmpty_nil, if_true]
          by_cases hguard : maxChecks ≤ st.checks ∧ st.rs.full = true
          · rw [if_pos hguard]
            exact ⟨hcap, hlen, hbound, hheap⟩
          · rw [if_neg hguard]
            have hs_eq : s = idxs.length := by
              have : (s == idxs.length) = true := hok
              simpa using this
            have hsL : s ≤ L := by
              have : (KMeansNode.mk p r v s [] idxs l).maxLeafSize = s := rfl
              omega
            have hunder : st.checks < max maxChecks k := by
              rcases Decidable.not_and_iff_or_not.mp hguard with h1 | h1
              · omega
              · have hnk : ¬ k ≤ st.rs.items.length := by
                  intro hc
                  refine h1 ?_
                  have hcc : st.rs.capacity ≤ st.rs.items.length := by
                    rw [hcap]
                    exact hc
                  simpa [Knn.full] using hcc
                rw [hlen] at hnk
                omega
            refine ⟨by simpa using hcap, ?_, ?_, by simpa using hheap⟩
            · show (st.rs.addAll _).items.length = min (st.checks + s) k
              rw [Knn.length_addAll _ _ (by rw [hlen]; omega)]
              rw [hlen, hcap]
              simp only [KMeansNode.indices_mk, List.length_map]
              omega
            · show st.checks + s ≤ max maxChecks k - 1 + L
              omega
        | cons c cs2 =>
          simp only [KMeansNode.childs_mk, List.isEmpty_cons, Bool.false_eq_true,
            if_false]
          have hchild_ok : ∀ i : ℕ,
              ((c :: cs2).getD i defaultNode).maxLeafSize ≤ L ∧
              ((c :: cs2).getD i defaultNode).leavesOk = true := by
            intro i
            by_cases hlt : i < (c :: cs2).length
            · have hmem : (c :: cs2).getD i defaultNode ∈ (c :: cs2) := by
                rw [List.getD_eq_getElem _ _ hlt]
                exact List.getElem_mem hlt
              constructor
              · exact le_trans
                  (maxLeafSize_child_le (t := KMeansNode.mk p r v s (c :: cs2) idxs l)
                    (by simpa using hmem)) hL
              · exact leavesOk_child (t := KMeansNode.mk p r v s (c :: cs2) idxs l)
                  hok (by simpa using hmem)
            · rw [List.getD_eq_default _ _ (by omega)]
              simp
          refine ih _ _ (hchild_ok _).1 (hchild_ok _).2 ⟨hcap, hlen, hbound, ?_⟩
          intro br hbr
          rcases pushBranches_mem cb (c :: cs2) _ (bestChildIdx _) st.heap br hbr with
            h1 | h1
          · exact hheap br h1
          · constructor
            · exact le_trans
                (maxLeafSize_child_le (t := KMeansNode.mk p r v s (c :: cs2) idxs l)
                  (by simpa using h1)) hL
            · exact leavesOk_child (t := KMeansNode.mk p r v s (c :: cs2) idxs l)
                hok (by simpa using h1)

theorem searchLoop_inv (ds : Dataset) (dim : ℕ) (q : Vec) (cb : ℚ)
    (maxChecks k L : ℕ) :
    ∀ (fuel : ℕ) (st : SearchState),
      SearchInv k maxChecks L st →
      SearchInv k maxChecks L (searchLoop ds dim q cb maxChecks fuel st) := by
  intro fuel
  induction fuel with
  | zero =>
    intro st hinv
    exact hinv
  | succ fuel ih =>
    intro st hinv
    rw [searchLoop]
    rcases hpop : heapPopMin st.heap with _ | pair
    · exact hinv
    · obtain ⟨br, heap2⟩ := pair
      dsimp only
      obtain ⟨hcap, hlen, hbound, hheap⟩ := hinv
      by_cases hguard : st.checks < maxChecks ∨ ¬ st.rs.full = true
      · rw [if_pos hguard]
        have hmem := heapPopMin_mem hpop
        have hbr := hheap br hmem.1
        refine ih _ (findNN_inv ds dim q cb maxChecks k L _ _ _ hbr.1 hbr.2 ?_)
        exact ⟨hcap, hlen, hbound, fun b2 hb2 => hheap b2 (hmem.2 b2 hb2)⟩
      · rw [if_neg hguard]
        exact ⟨hcap, hlen, hbound, hheap⟩

/-- The `checks` counter at the end of a budgeted query: it may overrun
`maxChecks`, but never by more than one leaf (minus one), and never beyond
the capacity-driven fill phase. -/
theorem findNeighbors_checks_le (ds : Dataset) (dim : ℕ) (q : Vec) (cb : ℚ)
    (t : KMeansNode) (k maxChecks : ℕ) (hok : t.leavesOk = true) :
    (findNeighborsTree ds dim q cb (some maxChecks) t k).2 ≤
      max maxChecks k - 1 + t.maxLeafSize := by
  have hinit : SearchInv k maxChecks t.maxLeafSize ⟨0, Knn.empty k, []⟩ := by
    refine ⟨rfl, by simp, ?_, ?_⟩
    · show (0 : ℕ) ≤ max maxChecks k - 1 + t.maxLeafSize
      omega
    · intro br hbr
      cases hbr
  have h1 := findNN_inv ds dim q cb maxChecks k t.maxLeafSize (t.height + 1) t
    ⟨0, Knn.empty k, []⟩ (le_refl _) hok hinit
  have h2 := searchLoop_inv ds dim q cb maxChecks k t.maxLeafSize (t.weight + 1)
    _ h1
  exact h2.2.2.1
/-! ### Node statistics (`computeNodeStatistics`) -/

/-- Statistics of a point set (`computeNodeStatistics`, source lines
635-667): the pivot is the coordinate-wise mean, the radius the maximum
(squared) distance from the pivot to a member, the variance the mean
(squared) distance from the pivot to the members.  The source divides the
coordinate sums and the distance sum by `size` unguarded; on an empty set
those are divisions by zero (see `computeNodeStatisticsChecked`); the ℚ
convention `x / 0 = 0` keeps this function total. -/
def computeNodeStatistics (ds : Dataset) (dim : ℕ) (idxs : List ℕ) :
    Vec × ℚ × ℚ :=
  let sz : ℚ := idxs.length
  let mean : Vec := fun j => (idxs.map fun i => dsGet ds i j).sum / sz
  let dists := idxs.map fun i => sqDist dim mean (dsGet ds i)
  (mean, dists.foldl (fun r d => if r < d then d else r) 0, dists.sum / sz)

/-- The divisions of `computeNodeStatistics` all use `size` as the
denominator; this wrapper reports `none` exactly when that denominator is
zero, i.e. when the point set is empty. -/
def computeNodeStatisticsChecked (ds : Dataset) (dim : ℕ) (idxs : List ℕ) :
    Option (Vec × ℚ × ℚ) :=
  if idxs.length = 0 then none
  else some (computeNodeStatistics ds dim idxs)

/-! ### The random source and the three seeding strategies -/

/-- Modelled from the spec: `random.h` is not part of the repository
snapshot.  Spec 4.H: the Rng supplies `randInt(n)` uniform in `[0, n)`,
`randDouble(x)` uniform in `[0, x)` and a unique-draw variant yielding a
permutation.  The model is a deterministic oracle indexed by a draw
counter, threaded through every drawing operation. -/
structure Rng : Type where
  intAt : ℕ → ℕ → ℕ
  ratAt : ℕ → ℚ → ℚ
  permAt : ℕ → ℕ → List ℕ

/-- A concrete oracle: every integer and real draw is 0 and every
unique-draw permutation is the identity. -/
def idRng : Rng :=
  ⟨fun _ _ => 0, fun _ _ => 0, fun _ n => List.range n⟩

/-- Duplicate-rejection threshold of `chooseCentersRandom`: `1e-16`. -/
def dupThreshold : ℚ := 1 / 10 ^ 16

/-- Candidate walk of `chooseCentersRandom` (source lines 109-137): draw
positions from the unique-random permutation; a candidate whose distance
to an already chosen center is below `1e-16` is rejected and the next
position is drawn; stop at `k` centers or when the permutation is
exhausted (`rnd < 0` in the source). -/
def chooseRandomGo (ds : Dataset) (dim : ℕ) (idxs : List ℕ) (k : ℕ) :
    List ℕ → List ℕ → List ℕ
  | [], acc => acc
  | rnd :: rest, acc =>
    if k ≤ acc.length then acc
    else
      let cand := idxs.getD rnd 0
      if acc.any fun c =>
          decide (sqDist dim (dsGet ds cand) (dsGet ds c) < dupThreshold) then
        chooseRandomGo ds dim idxs k rest acc
      else chooseRandomGo ds dim idxs k rest (acc ++ [cand])

/-- `chooseCentersRandom`: one unique-random permutation drawn, then the
candidate walk. -/
def chooseCentersRandom (ds : Dataset) (dim : ℕ) (idxs : List ℕ) (k : ℕ)
    (rng : Rng) (ctr : ℕ) : List ℕ × ℕ :=
  (chooseRandomGo ds dim idxs k (rng.permAt ctr idxs.length) [], ctr + 1)

/-- Minimum distance from candidate id `x` to the chosen center ids
(inner loop of `chooseCentersGonzales`, source lines 164-171). -/
def minDistToCenters (ds : Dataset) (dim : ℕ) (centers : List ℕ) (x : ℕ) : ℚ :=
  match centers with
  | [] => 0
  | c0 :: rest =>
    rest.foldl
      (fun d c =>
        let t := sqDist dim (dsGet ds c) (dsGet ds x)
        if t < d then t else d)
      (sqDist dim (dsGet ds c0) (dsGet ds x))

/-- One Gonzales pick (source lines 162-176): the candidate maximising the
minimum distance to the chosen centers, ties to the first candidate;
`none` when no candidate improves on 0 (`best_index == -1`). -/
def gonzalesPick (ds : Dataset) (dim : ℕ) (idxs : List ℕ)
    (centers : List ℕ) : Option ℕ :=
  (idxs.foldl
    (fun acc j =>
      let d := minDistToCenters ds dim centers j
      if acc.2 < d then (some j, d) else acc)
    ((none : Option ℕ), 0)).1

/-- Remaining Gonzales picks (source lines 160-183): stop early when no
candidate has positive minimum distance. -/
def gonzalesGo (ds : Dataset) (dim : ℕ) (idxs : List ℕ) :
    ℕ → List ℕ → List ℕ
  | 0, acc => acc
  | m + 1, acc =>
    match gonzalesPick ds dim idxs acc with
    | none => acc
    | some j => gonzalesGo ds dim idxs m (acc ++ [j])

/-- `chooseCentersGonzales`: a uniform first pick, then farthest-point
picks. -/
def chooseCentersGonzales (ds : Dataset) (dim : ℕ) (idxs : List ℕ) (k : ℕ)
    (rng : Rng) (ctr : ℕ) : List ℕ × ℕ :=
  let first := idxs.getD (rng.intAt ctr idxs.length) 0
  (gonzalesGo ds dim idxs (k - 1) [first], ctr + 1)

/-- The roulette walk of `chooseCentersKMeanspp` (source lines 233-236):
advance while the running value exceeds the current entry, over the first
`n - 1` entries. -/
def kppWalk : List ℚ → ℚ → ℕ
  | [], _ => 0
  | d :: rest, r => if r ≤ d then 0 else 1 + kppWalk rest (r - d)

/-- The iterated center choice of `chooseCentersKMeanspp` (source lines
222-253), with `numLocalTries = 1`: one roulette draw per new center, then
the potential and the closest-distance table are refreshed against the
chosen center. -/
def kppGo (ds : Dataset) (dim : ℕ) (idxs : List ℕ) (rng : Rng) :
    ℕ → List ℕ → List ℚ → ℚ → ℕ → List ℕ × ℕ
  | 0, acc, _, _, ctr => (acc, ctr)
  | m + 1, acc, closest, pot, ctr =>
    let r := rng.ratAt ctr pot
    let index := kppWalk (closest.take (idxs.length - 1)) r
    let chosen := idxs.getD index 0
    let updated := (idxs.zip closest).map fun p =>
      min (sqDist dim (dsGet ds p.1) (dsGet ds chosen)) p.2
    kppGo ds dim idxs rng m (acc ++ [chosen]) updated updated.sum (ctr + 1)

/-- `chooseCentersKMeanspp`: a uniform first pick, then `k - 1` roulette
picks; always returns `k` centers. -/
def chooseCentersKMeanspp (ds : Dataset) (dim : ℕ) (idxs : List ℕ) (k : ℕ)
    (rng : Rng) (ctr : ℕ) : List ℕ × ℕ :=
  let first := idxs.getD (rng.intAt ctr idxs.length) 0
  let closest0 := idxs.map fun i => sqDist dim (dsGet ds i) (dsGet ds first)
  kppGo ds dim idxs rng (k - 1) [first] closest0 closest0.sum (ctr + 1)

/-- The three seeding strategies (`flann_centers_init_t`). -/
inductive CentersInit : Type where
  | random
  | gonzales
  | kmeanspp
deriving DecidableEq

/-- Seeder dispatch (the `chooseCenters` member function pointer,
source lines 290-301). -/
def chooseCenters (ci : CentersInit) (ds : Dataset) (dim : ℕ)
    (idxs : List ℕ) (k : ℕ) (rng : Rng) (ctr : ℕ) : List ℕ × ℕ :=
  match ci with
  | .random => chooseCentersRandom ds dim idxs k rng ctr
  | .gonzales => chooseCentersGonzales ds dim idxs k rng ctr
  | .kmeanspp => chooseCentersKMeanspp ds dim idxs k rng ctr

/-! ### The clusterer (`computeClustering`) -/

/-- Nearest current center of a point: scan from center 0 with strict
improvement (assignment pass, source lines 720-735, and reassignment,
lines 763-772).  Returns (cluster, squared distance). -/
def nearestCenter (dim : ℕ) (centers : List Vec) (x : Vec) : ℕ × ℚ :=
  match centers with
  | [] => (0, 0)
  | c0 :: rest =>
    rest.enum.foldl
      (fun acc p =>
        let d := sqDist dim x p.2
        if d < acc.2 then (p.1 + 1, d) else acc)
      (0, sqDist dim x c0)

/-- Assignment bookkeeping of the clusterer: owner per point (in point
order), per-cluster counters and per-cluster radii. -/
structure ClusterAssign : Type where
  belongs : List ℕ
  counts : List ℕ
  radiuses : List ℚ

/-- The initial assignment pass (source lines 718-735). -/
def initAssign (ds : Dataset) (dim : ℕ) (centers : List Vec) (bf : ℕ)
    (pts : List ℕ) : ClusterAssign :=
  pts.foldl
    (fun st i =>
      let best := nearestCenter dim centers (dsGet ds i)
      { belongs := st.belongs ++ [best.1],
        counts := st.counts.set best.1 (st.counts.getD best.1 0 + 1),
        radiuses :=
          if st.radiuses.getD best.1 0 < best.2 then
            st.radiuses.set best.1 best.2
          else st.radiuses })
    ⟨[], List.replicate bf 0, List.replicate bf 0⟩

/-- Center recomputation (source lines 743-760): each center becomes the
coordinate-wise mean of its assigned points, divided by the cluster
counter.  The source performs this in double precision, which the ℚ model
absorbs; for a momentarily empty cluster the source divides zero sums by
a zero count (giving NaN entries whose comparisons are all false), while ℚ
yields the zero vector; the recovery pass that decides the claims below is
insensitive to these center values. -/
def recomputeCenters (ds : Dataset) (bf : ℕ) (pts : List ℕ)
    (belongs : List ℕ) (counts : List ℕ) : List Vec :=
  (List.range bf).map fun c => fun j =>
    (((pts.zip belongs).filter fun p => p.2 = c).map fun p =>
      dsGet ds p.1 j).sum / (counts.getD c 0 : ℚ)

/-- The reassignment pass (source lines 762-783): each point moves to its
nearest current center (strict improvement only), the radius of the new
owner absorbs the observed distance, counters track the moves, and any
move clears the convergence flag. -/
def reassignPass (ds : Dataset) (dim : ℕ) (centers : List Vec)
    (pts : List ℕ) (belongsOld : List ℕ) (counts0 : List ℕ)
    (radiuses0 : List ℚ) : ClusterAssign × Bool :=
  (pts.zip belongsOld).foldl
    (fun st p =>
      let best := nearestCenter dim centers (dsGet ds p.1)
      let rad2 :=
        if st.1.radiuses.getD best.1 0 < best.2 then
          st.1.radiuses.set best.1 best.2
        else st.1.radiuses
      if best.1 ≠ p.2 then
        (⟨st.1.belongs ++ [best.1],
          (st.1.counts.set p.2 (st.1.counts.getD p.2 0 - 1)).set best.1
            ((st.1.counts.set p.2 (st.1.counts.getD p.2 0 - 1)).getD best.1 0 + 1),
          rad2⟩, false)
      else (⟨st.1.belongs ++ [best.1], st.1.counts, rad2⟩, st.2))
    (⟨⟨[], counts0, radiuses0⟩, true⟩)

/-- Cyclic search of the empty-cluster recovery (source lines 789-792):
the first cluster after `i` (cyclically) holding more than one point.
`none` corresponds to the source spinning forever; it cannot arise while
the counters sum to at least `bf`. -/
def cyclicFindGT1 (counts : List ℕ) (bf i : ℕ) : Option ℕ :=
  ((List.range bf).map fun t => (i + 1 + t) % bf).find? fun j =>
    1 < counts.getD j 0

/-- Member transfer of the recovery (source lines 794-801): the first
point owned by `j` moves to cluster `i`. -/
def moveOneMember (belongs : List ℕ) (j i : ℕ) : List ℕ :=
  match belongs.findIdx? fun b => b = j with
  | some k => belongs.set k i
  | none => belongs

/-- The empty-cluster recovery pass (source lines 785-804): every cluster
that converged to zero points steals one member from the next cyclically
following cluster holding more than one, clearing the convergence flag. -/
def recoveryPass (bf : ℕ) (belongs counts : List ℕ) (conv : Bool) :
    List ℕ × List ℕ × Bool :=
  (List.range bf).foldl
    (fun st i =>
      if st.2.1.getD i 0 = 0 then
        match cyclicFindGT1 st.2.1 bf i with
        | some j =>
          (moveOneMember st.1 j i,
           (st.2.1.set j (st.2.1.getD j 0 - 1)).set i
             ((st.2.1.set j (st.2.1.getD j 0 - 1)).getD i 0 + 1),
           false)
        | none => st
      else st)
    (belongs, counts, conv)

/-- State of the k-means refinement loop. -/
structure RefineState : Type where
  centers : List Vec
  belongs : List ℕ
  counts : List ℕ
  radiuses : List ℚ
  converged : Bool
  iteration : ℕ

/-- One refinement iteration (loop body, source lines 739-806): set the
convergence flag, recompute centers, zero the radii, reassign, then run
the empty-cluster recovery. -/
def refineIter (ds : Dataset) (dim : ℕ) (bf : ℕ) (pts : List ℕ)
    (st : RefineState) : RefineState :=
  let centers2 := recomputeCenters ds bf pts st.belongs st.counts
  let pass := reassignPass ds dim centers2 pts st.belongs st.counts
    (List.replicate bf 0)
  let rec2 := recoveryPass bf pass.1.belongs pass.1.counts pass.2
  ⟨centers2, rec2.1, rec2.2.1, pass.1.radiuses, rec2.2.2, st.iteration + 1⟩

/-- The refinement loop `while (!converged && iteration < iterations_)`
(source line 739).  The fuel argument only bounds the recursion; with
`fuel = iters` and `iteration = 0` it never cuts the loop short, because
each iteration increments `iteration`. -/
def refineLoop (ds : Dataset) (dim : ℕ) (bf iters : ℕ) (pts : List ℕ) :
    ℕ → RefineState → RefineState
  | 0, st => st
  | fuel + 1, st =>
    if st.converged = false ∧ st.iteration < iters then
      refineLoop ds dim bf iters pts fuel (refineIter ds dim bf pts st)
    else st

/-- Per-child construction fold of `computeClustering` (source lines
819-843): the recursion `f` is the clustering call on the child slice;
`none` propagates a failed (non-terminating) recursion. -/
def buildChildren (f : ℕ → Vec × ℚ × ℚ → List ℕ → Option (KMeansNode × ℕ)) :
    List ((Vec × ℚ × ℚ) × List ℕ) → ℕ → Option (List KMeansNode × ℕ)
  | [], ctr => some ([], ctr)
  | spec :: rest, ctr =>
    match f ctr spec.1 spec.2 with
    | none => none
    | some (child, ctr2) =>
      match buildChildren f rest ctr2 with
      | none => none
      | some (childs, ctr3) => some (child :: childs, ctr3)

/-- The recursive hierarchical clustering `computeClustering` (source
lines 681-846).  The caller supplies the node statistics (pivot, radius,
variance), exactly as the source caller fills those fields before the
call; the function sets size, level and either the sorted index list (a
terminal node: fewer points than the branching factor, or a seeder that
returned fewer than `bf` centers) or the `bf` recursively clustered
children.  The fuel bounds the recursion depth; `none` models the
source recursing without progress on degenerate data. -/
def computeClustering (ds : Dataset) (dim : ℕ) (bf iters : ℕ)
    (ci : CentersInit) (rng : Rng) :
    ℕ → ℕ → Vec × ℚ × ℚ → List ℕ → ℕ → Option (KMeansNode × ℕ)
  | 0, _, _, _, _ => none
  | fuel + 1, ctr, stats, pts, level =>
    if pts.length < bf then
      some (KMeansNode.mk stats.1 stats.2.1 stats.2.2 pts.length []
        (pts.insertionSort (· ≤ ·)) level, ctr)
    else
      let seeded := chooseCenters ci ds dim pts bf rng ctr
      if seeded.1.length < bf then
        some (KMeansNode.mk stats.1 stats.2.1 stats.2.2 pts.length []
          (pts.insertionSort (· ≤ ·)) level, seeded.2)
      else
        let dcenters0 := seeded.1.map (dsGet ds)
        let asg0 := initAssign ds dim dcenters0 bf pts
        let stf := refineLoop ds dim bf iters pts iters
          ⟨dcenters0, asg0.belongs, asg0.counts, asg0.radiuses, false, 0⟩
        let specs := (List.range bf).map fun c =>
          let members := ((pts.zip stf.belongs).filter fun p => p.2 = c).map
            fun p => p.1
          let center := stf.centers.getD c (fun _ => 0)
          ((center, stf.radiuses.getD c 0,
            (members.map fun i => sqDist dim center (dsGet ds i)).sum /
              (stf.counts.getD c 0 : ℚ)), members)
        match buildChildren
            (fun c2 stats2 pts2 =>
              computeClustering ds dim bf iters ci rng fuel c2 stats2 pts2
                (level + 1))
            specs seeded.2 with
        | none => none
        | some (childs, ctr3) =>
          some (KMeansNode.mk stats.1 stats.2.1 stats.2.2 pts.length childs
            [] level, ctr3)

/-- `buildIndex` (source lines 369-385): reject a branching factor below
2 (the source throws), set up the identity index permutation, compute the
root statistics over the whole dataset and cluster recursively. -/
def buildIndex (ds : Dataset) (dim : ℕ) (branching : ℤ) (iters : ℕ)
    (ci : CentersInit) (rng : Rng) (ctr : ℕ) : Option (KMeansNode × ℕ) :=
  if branching < 2 then none
  else
    computeClustering ds dim branching.toNat iters ci rng (ds.length + 1) ctr
      (computeNodeStatistics ds dim (List.range ds.length))
      (List.range ds.length) 0
/-! ### The index object -/

/-- The configuration dictionary entries the constructor reads (an
`IndexParams` is a string-keyed map; only these keys are relevant).  A
`none` entry is an absent key, resolved to the documented default by
`get_param`. -/
structure IndexParamsModel : Type where
  branching : Option ℤ
  iterations : Option ℤ
  centersInit : Option CentersInit
  cbIndex : Option ℚ

/-- The dictionary `KMeansIndexParams` builds with its own defaults
(source lines 56-71): branching 32, iterations 11, centers RANDOM and a
`cb_index` entry of 0.2. -/
def KMeansIndexParamsModel : IndexParamsModel :=
  ⟨some 32, some 11, some CentersInit.random, some (1 / 5)⟩

/-- Resolution of the `iterations` option (source lines 284-287):
`get_param(params, "iterations", 11)`, then any negative value is
remapped to `INT_MAX = 2^31 - 1`. -/
def resolveIterations : Option ℤ → ℕ
  | none => 11
  | some i => if i < 0 then 2 ^ 31 - 1 else i.toNat

/-- The index state: dataset, configuration, the build-time snapshot
`size_at_build_`, the tree root (null before `buildIndex`), and the
threaded random oracle. -/
structure KMIndex : Type where
  dataset : Dataset
  dim : ℕ
  branching : ℤ
  iterations : ℕ
  centersInit : CentersInit
  cbIndex : ℚ
  sizeAtBuild : ℕ
  root : Option KMeansNode
  rng : Rng
  ctr : ℕ

/-- The index constructor (source lines 274-312): `branching`,
`iterations` and `centers_init` are read from the dictionary with their
defaults and the negative-iterations remap; `cb_index_` is assigned the
constant `0.4f` - the constructor never reads the `cb_index` entry of the
dictionary.  `root_` starts null; `size_at_build_` is uninitialised in the
source and modelled as 0. -/
def mkIndex (ds : Dataset) (dim : ℕ) (params : IndexParamsModel)
    (rng : Rng) : KMIndex :=
  { dataset := ds
    dim := dim
    branching := params.branching.getD 32
    iterations := resolveIterations params.iterations
    centersInit := params.centersInit.getD CentersInit.random
    cbIndex := 2 / 5
    sizeAtBuild := 0
    root := none
    rng := rng
    ctr := 0 }

/-- `set_cb_index` (source lines 352-355). -/
def set_cb_index (st : KMIndex) (v : ℚ) : KMIndex := { st with cbIndex := v }

/-- `buildIndex` at the index level: on success the root is replaced and
`size_at_build_` snapshots the current size (source line 384). -/
def KMIndex.build (st : KMIndex) : Option KMIndex :=
  match buildIndex st.dataset st.dim st.branching st.iterations
      st.centersInit st.rng st.ctr with
  | none => none
  | some (root, ctr2) =>
    some { st with root := some root, ctr := ctr2,
                   sizeAtBuild := st.dataset.length }

/-- `findNeighbors` at the index level (source lines 462-487): the root
pointer is dereferenced with no null check, so a query on an unbuilt index
(null `root_`) does not return normally - modelled as `none`. -/
def KMIndex.findNeighbors (st : KMIndex) (q : Vec) (checks : Option ℕ)
    (k : ℕ) : Option (Knn × ℕ) :=
  match st.root with
  | none => none
  | some t => some (findNeighborsTree st.dataset st.dim q st.cbIndex checks t k)

/-- Online insertion `addPointToTree` (source lines 1071-1103): the radius
absorbs the distance to the (old) pivot, the variance is updated by the
documented online approximation and the size incremented; a leaf appends
the id, recomputes its statistics from the new member set (overwriting the
radius just updated) and re-clusters in place when it reaches the
branching factor; an internal node recurses into the closest child.  Fuel
as in the searches; `none` also covers a re-clustering that fails to
terminate. -/
def addPointToTree (ds : Dataset) (dim : ℕ) (bf iters : ℕ)
    (ci : CentersInit) (rng : Rng) :
    ℕ → KMeansNode → ℕ → ℚ → ℕ → Option (KMeansNode × ℕ)
  | 0, _, _, _, _ => none
  | fuel + 1, node, index, distToPivot, ctr =>
    let radius2 := if node.radius < distToPivot then distToPivot else node.radius
    let variance2 :=
      ((node.size : ℚ) * node.variance + distToPivot) / ((node.size : ℚ) + 1)
    if node.childs.isEmpty then
      let idxs2 := node.indices ++ [index]
      let stats := computeNodeStatistics ds dim idxs2
      if bf ≤ idxs2.length then
        computeClustering ds dim bf iters ci rng (idxs2.length + 1) ctr stats
          idxs2 node.level
      else
        some (KMeansNode.mk stats.1 stats.2.1 stats.2.2 (node.size + 1) []
          idxs2 node.level, ctr)
    else
      let dists := node.childs.map fun c =>
        sqDist dim c.pivot (dsGet ds index)
      let best := bestChildIdx dists
      match addPointToTree ds dim bf iters ci rng fuel
          (node.childs.getD best defaultNode) index (dists.getD best 0) ctr with
      | none => none
      | some (child2, ctr2) =>
        some (KMeansNode.mk node.pivot radius2 variance2 (node.size + 1)
          (node.childs.set best child2) node.indices node.level, ctr2)

/-- The online-insertion fold of `addPoints` (else branch, source lines
412-417): each new point is pushed into the tree with its distance to the
current root pivot. -/
def addPointsLoop (ds : Dataset) (dim : ℕ) (bf iters : ℕ)
    (ci : CentersInit) (rng : Rng) :
    List ℕ → KMeansNode → ℕ → Option (KMeansNode × ℕ)
  | [], root, ctr => some (root, ctr)
  | idx :: rest, root, ctr =>
    match addPointToTree ds dim bf iters ci rng (root.height + 1) root idx
        (sqDist dim root.pivot (dsGet ds idx)) ctr with
    | none => none
    | some (root2, ctr2) =>
      addPointsLoop ds dim bf iters ci rng rest root2 ctr2

/-- The rebuild decision of `addPoints` (source line 408):
`rebuild_threshold > 1 && size_at_build_ * rebuild_threshold < size_`,
with `size_` the dataset size after appending the new points. -/
def addPointsRebuilds (sizeAtBuild newSize : ℕ) (threshold : ℚ) : Prop :=
  1 < threshold ∧ (sizeAtBuild : ℚ) * threshold < (newSize : ℚ)

instance (sizeAtBuild newSize : ℕ) (threshold : ℚ) :
    Decidable (addPointsRebuilds sizeAtBuild newSize threshold) := by
  unfold addPointsRebuilds
  infer_instance

/-- Body of `addPoints` once the root is known non-null: either the tree
is rebuilt from scratch over the extended dataset, or each new point is
inserted online. -/
def KMIndex.addPointsGo (st : KMIndex) (pts : List Vec) (threshold : ℚ)
    (root : KMeansNode) : Option KMIndex :=
  if addPointsRebuilds st.sizeAtBuild (st.dataset ++ pts).length threshold then
    KMIndex.build { st with dataset := st.dataset ++ pts }
  else
    match addPointsLoop (st.dataset ++ pts) st.dim st.branching.toNat
        st.iterations st.centersInit st.rng
        (List.range pts.length |>.map fun i => st.dataset.length + i)
        root st.ctr with
    | none => none
    | some (root2, ctr2) =>
      some { st with dataset := st.dataset ++ pts, root := some root2,
                     ctr := ctr2 }

/-- `addPoints` (source lines 387-418): the new rows are appended to the
dataset; then either the tree is freed and rebuilt from scratch (the
rebuild decision above) or each new point is inserted online.  Both
branches dereference `root_` (`freeNodes(root_)`, resp.
`root_->pivot`), so a call on an unbuilt index is `none`. -/
def KMIndex.addPoints (st : KMIndex) (pts : List Vec) (threshold : ℚ) :
    Option KMIndex :=
  match st.root with
  | none => none
  | some root => st.addPointsGo pts threshold root

theorem KMIndex.addPoints_some {st : KMIndex} {root : KMeansNode}
    (hroot : st.root = some root) (pts : List Vec) (threshold : ℚ) :
    st.addPoints pts threshold = st.addPointsGo pts threshold root := by
  rw [KMIndex.addPoints, hroot]

/-- Node addressing by child-position path, to compare a tree before and
after an insertion. -/
def nodeAt : List ℕ → KMeansNode → Option KMeansNode
  | [], t => some t
  | i :: p, t =>
    if i < t.childs.length then nodeAt p (t.childs.getD i defaultNode)
    else none
/-! ### Generic facts feeding the claim theorems -/

theorem Knn.worstDist_empty (k : ℕ) : (Knn.empty k).worstDist = none := by
  unfold Knn.worstDist Knn.empty
  split
  · rfl
  · rfl

/-- Both query modes return no neighbours on a tree holding no points. -/
theorem findNeighborsTree_empty_tree (ds : Dataset) (dim : ℕ) (q : Vec)
    (cb : ℚ) (checks : Option ℕ) (k : ℕ) (piv : Vec) (r v : ℚ) (s l : ℕ) :
    (findNeighborsTree ds dim q cb checks (KMeansNode.mk piv r v s [] [] l)
      k).1.items = [] := by
  cases checks with
  | none =>
    show (findExactQuery ds dim q (KMeansNode.mk piv r v s [] [] l) k).1.items = []
    rw [findExactQuery]
    show (findExactNN ds dim q (KMeansNode.heightL [] + 1) _ _).1.items = []
    rw [findExactNN]
    rw [Knn.worstDist_empty]
    simp [pruneTest, Knn.empty]
  | some mc =>
    show (searchLoop ds dim q cb mc _
      (findNN ds dim q cb mc (KMeansNode.heightL [] + 1) _ ⟨0, Knn.empty k, []⟩)).rs.items = []
    have h1 : findNN ds dim q cb mc (KMeansNode.heightL [] + 1)
        (KMeansNode.mk piv r v s [] [] l) ⟨0, Knn.empty k, []⟩ =
        if mc ≤ 0 ∧ (Knn.empty k).full = true then ⟨0, Knn.empty k, []⟩
        else ⟨0 + s, (Knn.empty k).addAll [], []⟩ := by
      rw [findNN]
      rw [Knn.worstDist_empty]
      simp [pruneTest]
    rw [h1]
    by_cases hg : mc ≤ 0 ∧ (Knn.empty k).full = true
    · rw [if_pos hg]
      rw [show (KMeansNode.mk piv r v s [] [] l).weight + 1 = 2 from rfl]
      rw [searchLoop]
      simp [heapPopMin, Knn.empty]
    · rw [if_neg hg]
      rw [show (KMeansNode.mk piv r v s [] [] l).weight + 1 = 2 from rfl]
      rw [searchLoop]
      simp [heapPopMin, Knn.addAll, Knn.empty]

/-- The refinement loop never pushes `iteration` beyond the cap. -/
theorem refineLoop_iteration_le (ds : Dataset) (dim : ℕ) (bf iters : ℕ)
    (pts : List ℕ) :
    ∀ (fuel : ℕ) (st : RefineState), st.iteration ≤ iters →
      (refineLoop ds dim bf iters pts fuel st).iteration ≤ iters := by
  intro fuel
  induction fuel with
  | zero =>
    intro st h
    exact h
  | succ fuel ih =>
    intro st h
    rw [refineLoop]
    by_cases hc : st.converged = false ∧ st.iteration < iters
    · rw [if_pos hc]
      refine ih _ ?_
      show st.iteration + 1 ≤ iters
      omega
    · rw [if_neg hc]
      exact h

/-- The refinement loop exits only through convergence or by exhausting
exactly the iteration cap. -/
theorem refineLoop_exit (ds : Dataset) (dim : ℕ) (bf iters : ℕ)
    (pts : List ℕ) :
    ∀ (fuel : ℕ) (st : RefineState),
      st.iteration ≤ iters → iters ≤ st.iteration + fuel →
      (refineLoop ds dim bf iters pts fuel st).converged = true ∨
        (refineLoop ds dim bf iters pts fuel st).iteration = iters := by
  intro fuel
  induction fuel with
  | zero =>
    intro st h1 h2
    rw [refineLoop]
    cases hc : st.converged with
    | true => exact Or.inl rfl
    | false => exact Or.inr (by omega)
  | succ fuel ih =>
    intro st h1 h2
    rw [refineLoop]
    by_cases hc : st.converged = false ∧ st.iteration < iters
    · rw [if_pos hc]
      refine ih _ ?_ ?_
      · show st.iteration + 1 ≤ iters
        omega
      · show iters ≤ st.iteration + 1 + fuel
        omega
    · rw [if_neg hc]
      rcases Decidable.not_and_iff_or_not.mp hc with h3 | h3
      · exact Or.inl (by
          cases hcv : st.converged with
          | true => rfl
          | false => exact absurd hcv h3)
      · exact Or.inr (by omega)
/-! ### Concrete instances used by witnesses and counterexamples -/

/-- Constant vector. -/
def cVec (x : ℚ) : Vec := fun _ => x

/-- Three coincident points: k-means++ seeds two identical centers on
them, and the refinement loop then cycles (reassignment empties cluster 1,
recovery refills it) without ever converging. -/
def dsDup3 : Dataset := [cVec 0, cVec 0, cVec 0]

/-- The state the cycling refinement run on `dsDup3` returns to after
every iteration (centers vary, the assignment does not). -/
def dup3State (cs : List Vec) (it : ℕ) : RefineState :=
  ⟨cs, [1, 0, 0], [2, 1], [0, 0], false, it⟩

theorem dsDup3_get (i j : ℕ) : dsGet dsDup3 i j = 0 := by
  match i with
  | 0 => rfl
  | 1 => rfl
  | 2 => rfl
  | n + 3 => rfl

theorem nearest_two_zeros (c0 c1 x : Vec) (h0 : c0 0 = 0) (h1 : c1 0 = 0)
    (hx : x 0 = 0) : nearestCenter 1 [c0, c1] x = (0, 0) := by
  simp [nearestCenter, List.enum, sqDist, Finset.sum_range_one, h0, h1, hx]

theorem dup3_step (cs : List Vec) (it : ℕ) :
    refineIter dsDup3 1 2 [0, 1, 2] (dup3State cs it) =
      dup3State (recomputeCenters dsDup3 2 [0, 1, 2] [1, 0, 0] [2, 1]) (it + 1) := by
  have hcent : ∃ c0 c1,
      recomputeCenters dsDup3 2 [0, 1, 2] [1, 0, 0] [2, 1] = [c0, c1] ∧
      c0 0 = 0 ∧ c1 0 = 0 := by
    refine ⟨_, _, rfl, ?_, ?_⟩
    · norm_num [recomputeCenters, dsDup3, dsGet, cVec]
    · norm_num [recomputeCenters, dsDup3, dsGet, cVec]
  obtain ⟨c0, c1, hc2, h00, h10⟩ := hcent
  have hn : ∀ kk : ℕ, nearestCenter 1 [c0, c1] (dsGet dsDup3 kk) = (0, 0) :=
    fun kk => nearest_two_zeros c0 c1 _ h00 h10 (dsDup3_get kk 0)
  simp only [refineIter, dup3State]
  rw [hc2]
  have hpass : reassignPass dsDup3 1 [c0, c1] [0, 1, 2] [1, 0, 0] [2, 1]
      (List.replicate 2 0) = (⟨[0, 0, 0], [3, 0], [0, 0]⟩, false) := by
    simp only [reassignPass, List.zip, List.zipWith, List.foldl, hn]
    norm_num [List.replicate, List.set]
  rw [hpass]
  have hrec : recoveryPass 2 [0, 0, 0] [3, 0] false = ([1, 0, 0], [2, 1], false) := by
    norm_num [recoveryPass, List.range, List.foldl, cyclicFindGT1, moveOneMember,
      List.find?, List.findIdx?, List.set]
  rw [hrec]

theorem dup3_loop (fuel : ℕ) :
    ∀ (cs : List Vec) (it : ℕ),
      (refineLoop dsDup3 1 2 11 [0, 1, 2] fuel (dup3State cs it)).converged
        = false := by
  induction fuel with
  | zero =>
    intro cs it
    rfl
  | succ fuel ih =>
    intro cs it
    rw [refineLoop]
    by_cases hc : (dup3State cs it).converged = false ∧ (dup3State cs it).iteration < 11
    · rw [if_pos hc, dup3_step]
      exact ih _ _
    · rw [if_neg hc]
      rfl
theorem dup3_step0 (cs : List Vec) (it : ℕ) :
    refineIter dsDup3 1 2 [0, 1, 2] ⟨cs, [0, 0, 0], [3, 0], [0, 0], false, it⟩ =
      dup3State (recomputeCenters dsDup3 2 [0, 1, 2] [0, 0, 0] [3, 0]) (it + 1) := by
  have hcent : ∃ c0 c1,
      recomputeCenters dsDup3 2 [0, 1, 2] [0, 0, 0] [3, 0] = [c0, c1] ∧
      c0 0 = 0 ∧ c1 0 = 0 := by
    refine ⟨_, _, rfl, ?_, ?_⟩
    · norm_num [recomputeCenters, dsDup3, dsGet, cVec]
    · norm_num [recomputeCenters, dsDup3, dsGet, cVec]
  obtain ⟨c0, c1, hc2, h00, h10⟩ := hcent
  have hn : ∀ kk : ℕ, nearestCenter 1 [c0, c1] (dsGet dsDup3 kk) = (0, 0) :=
    fun kk => nearest_two_zeros c0 c1 _ h00 h10 (dsDup3_get kk 0)
  simp only [refineIter, dup3State]
  rw [hc2]
  have hpass : reassignPass dsDup3 1 [c0, c1] [0, 1, 2] [0, 0, 0] [3, 0]
      (List.replicate 2 0) = (⟨[0, 0, 0], [3, 0], [0, 0]⟩, true) := by
    simp only [reassignPass, List.zip, List.zipWith, List.foldl, hn]
    norm_num [List.replicate, List.set]
  rw [hpass]
  have hrec : recoveryPass 2 [0, 0, 0] [3, 0] true = ([1, 0, 0], [2, 1], false) := by
    norm_num [recoveryPass, List.range, List.foldl, cyclicFindGT1, moveOneMember,
      List.find?, List.findIdx?, List.set]
  rw [hrec]

/-- The center ids the k-means++ seeder returns inside the clustering step
on `dsDup3` (branching 2): both draws land on point 0, so the seeder
reports the full complement of 2 (coincident) centers and the node is
subdivided. -/
def dup3Seeded : List ℕ :=
  (chooseCenters CentersInit.kmeanspp dsDup3 1 [0, 1, 2] 2 idRng 0).1

/-- The refinement start state `computeClustering` builds from that
seeding (its `dcenters` buffer and initial assignment pass). -/
def dup3Init : RefineState :=
  ⟨dup3Seeded.map (dsGet dsDup3),
   (initAssign dsDup3 1 (dup3Seeded.map (dsGet dsDup3)) 2 [0, 1, 2]).belongs,
   (initAssign dsDup3 1 (dup3Seeded.map (dsGet dsDup3)) 2 [0, 1, 2]).counts,
   (initAssign dsDup3 1 (dup3Seeded.map (dsGet dsDup3)) 2 [0, 1, 2]).radiuses,
   false, 0⟩

/-- The refinement loop run `computeClustering` performs on `dsDup3` when
the `iterations` option is absent. -/
def dup3Run : RefineState :=
  refineLoop dsDup3 1 2 (resolveIterations none) [0, 1, 2]
    (resolveIterations none) dup3Init

theorem dup3Seeded_eval : dup3Seeded = [0, 0] := by
  norm_num [dup3Seeded, chooseCenters, chooseCentersKMeanspp, kppGo, kppWalk,
    idRng, dsDup3, cVec, dsGet, sqDist]

theorem dup3Init_eval :
    dup3Init = ⟨dup3Seeded.map (dsGet dsDup3), [0, 0, 0], [3, 0], [0, 0],
      false, 0⟩ := by
  have h1 : initAssign dsDup3 1 (dup3Seeded.map (dsGet dsDup3)) 2 [0, 1, 2] =
      ⟨[0, 0, 0], [3, 0], [0, 0]⟩ := by
    rw [dup3Seeded_eval]
    norm_num [initAssign, nearestCenter, List.enum, dsDup3, cVec, dsGet, sqDist,
      List.replicate, List.set, List.foldl]
  rw [dup3Init, h1]

/-- C7: counterexample.  With the `iterations` option absent the
constructor resolves the cap to 11 (not to an unbounded count); on the
clustering step over three coincident points with k-means++ seeding the
refinement loop never converges (reassignment re-empties cluster 1 and the
recovery refills it, every iteration), so it is stopped by the finite cap
with the assignment not converged - refuting that an absent `iterations`
value makes refinement run until convergence. -/
theorem C7_counterexample :
    resolveIterations none = 11 ∧
    dup3Seeded.length = 2 ∧
    dup3Run.converged = false ∧
    dup3Run.iteration = 11 := by
  refine ⟨rfl, by rw [dup3Seeded_eval]; rfl, ?_, ?_⟩
  · show (refineLoop dsDup3 1 2 (resolveIterations none) [0, 1, 2]
      (resolveIterations none) dup3Init).converged = false
    rw [dup3Init_eval]
    show (refineLoop dsDup3 1 2 11 [0, 1, 2] 11 _).converged = false
    rw [refineLoop]
    rw [if_pos ⟨rfl, by norm_num⟩]
    rw [dup3_step0]
    exact dup3_loop 10 _ _
  · have hexit := refineLoop_exit dsDup3 1 2 11 [0, 1, 2] 11 dup3Init
      (by rw [dup3Init_eval]; norm_num) (by rw [dup3Init_eval])
    have hconv : dup3Run.converged = false := by
      show (refineLoop dsDup3 1 2 (resolveIterations none) [0, 1, 2]
        (resolveIterations none) dup3Init).converged = false
      rw [dup3Init_eval]
      show (refineLoop dsDup3 1 2 11 [0, 1, 2] 11 _).converged = false
      rw [refineLoop]
      rw [if_pos ⟨rfl, by norm_num⟩]
      rw [dup3_step0]
      exact dup3_loop 10 _ _
    show dup3Run.iteration = 11
    rcases hexit with h | h
    · rw [show dup3Run.converged = (refineLoop dsDup3 1 2 11 [0, 1, 2] 11
        dup3Init).converged from rfl] at hconv
      rw [h] at hconv
      cases hconv
    · exact h
/-! ### Claim C7 -/

/-- C7 (amended): the `iterations` option is not "unbounded when negative
or absent": an absent value resolves to the default cap 11 and a negative
value to `INT_MAX = 2^31 - 1`; the refinement loop stops at convergence or
at that finite cap, whichever comes first. -/
theorem C7_iterations_amended :
    resolveIterations none = 11 ∧
    (∀ i : ℤ, i < 0 → resolveIterations (some i) = 2 ^ 31 - 1) ∧
    (∀ (ds : Dataset) (dim bf iters : ℕ) (pts : List ℕ) (st : RefineState),
      st.iteration = 0 →
      (refineLoop ds dim bf iters pts iters st).iteration ≤ iters ∧
      ((refineLoop ds dim bf iters pts iters st).converged = true ∨
        (refineLoop ds dim bf iters pts iters st).iteration = iters)) := by
  refine ⟨rfl, ?_, ?_⟩
  · intro i hi
    simp [resolveIterations, if_pos hi]
  · intro ds dim bf iters pts st h0
    exact ⟨refineLoop_iteration_le ds dim bf iters pts iters st (by omega),
      refineLoop_exit ds dim bf iters pts iters st (by omega) (by omega)⟩

/-- Witness for C7 (amended) at concrete inputs. -/
theorem C7_iterations_amended_witness :
    resolveIterations none = 11 ∧
    resolveIterations (some (-1)) = 2 ^ 31 - 1 ∧
    ((refineLoop [] 0 0 5 [] 5 ⟨[], [], [], [], true, 0⟩).iteration ≤ 5 ∧
      ((refineLoop [] 0 0 5 [] 5 ⟨[], [], [], [], true, 0⟩).converged = true ∨
        (refineLoop [] 0 0 5 [] 5 ⟨[], [], [], [], true, 0⟩).iteration = 5)) :=
  ⟨C7_iterations_amended.1,
   C7_iterations_amended.2.1 (-1) (by norm_num),
   C7_iterations_amended.2.2 [] 0 0 5 [] ⟨[], [], [], [], true, 0⟩ rfl⟩

/-! ### Claim C9 -/

/-- C9: counterexample.  Constructing the index with the `cb_index` option
set to 0.9 still yields a cluster-boundary weight of 0.4: the constructor
assigns the constant and never reads the option (and the defaulted
dictionary `KMeansIndexParams` stores 0.2, not 0.4). -/
theorem C9_counterexample :
    (mkIndex [] 1 ⟨none, none, none, some (9 / 10)⟩ idRng).cbIndex = 2 / 5 ∧
    ¬ ((2 : ℚ) / 5 = 9 / 10) ∧
    KMeansIndexParamsModel.cbIndex = some (1 / 5) := by
  refine ⟨rfl, by norm_num, rfl⟩

/-- C9 (amended): the constructor ignores the `cb_index` option and always
initialises the cluster-boundary weight to 0.4; the weight can be changed
at runtime through `set_cb_index`, and queries read it from the index
state. -/
theorem C9_cb_index_amended :
    (∀ (ds : Dataset) (dim : ℕ) (params : IndexParamsModel) (rng : Rng),
      (mkIndex ds dim params rng).cbIndex = 2 / 5) ∧
    (∀ (st : KMIndex) (v : ℚ), (set_cb_index st v).cbIndex = v) ∧
    (∀ (st : KMIndex) (v : ℚ) (q : Vec) (checks : Option ℕ) (k : ℕ)
        (t : KMeansNode), st.root = some t →
      (set_cb_index st v).findNeighbors q checks k =
        some (findNeighborsTree st.dataset st.dim q v checks t k)) := by
  refine ⟨fun ds dim params rng => rfl, fun st v => rfl, ?_⟩
  intro st v q checks k t hroot
  show KMIndex.findNeighbors (set_cb_index st v) q checks k = _
  rw [KMIndex.findNeighbors]
  rw [show (set_cb_index st v).root = st.root from rfl, hroot]
  rfl

/-- Witness for C9 (amended) at concrete inputs. -/
theorem C9_cb_index_amended_witness :
    (mkIndex [] 1 ⟨none, none, none, some (9 / 10)⟩ idRng).cbIndex = 2 / 5 ∧
    (set_cb_index (mkIndex [] 1 ⟨none, none, none, none⟩ idRng) 3).cbIndex = 3 ∧
    (set_cb_index
        { mkIndex [cVec 0] 1 ⟨none, none, none, none⟩ idRng with
          root := some defaultNode } 3).findNeighbors (cVec 0) (some 1) 1 =
      some (findNeighborsTree [cVec 0] 1 (cVec 0) 3 (some 1) defaultNode 1) :=
  ⟨C9_cb_index_amended.1 [] 1 ⟨none, none, none, some (9 / 10)⟩ idRng,
   C9_cb_index_amended.2.1 (mkIndex [] 1 ⟨none, none, none, none⟩ idRng) 3,
   C9_cb_index_amended.2.2 _ 3 (cVec 0) (some 1) 1 defaultNode rfl⟩

/-! ### Claim C10 -/

/-- C10 (confirmed): `buildIndex` hands `computeNodeStatistics` the full
index range `0..N`; the statistics divide the coordinate sums and the
distance sum by the member count, a division by zero exactly when `N = 0`,
and well-defined (checked variant returns the unchecked value) for every
nonempty dataset. -/
theorem C10_build_statistics_division :
    (∀ (ds : Dataset) (dim : ℕ), ds.length = 0 →
      computeNodeStatisticsChecked ds dim (List.range ds.length) = none) ∧
    (∀ (ds : Dataset) (dim : ℕ), 0 < ds.length →
      computeNodeStatisticsChecked ds dim (List.range ds.length) =
        some (computeNodeStatistics ds dim (List.range ds.length))) ∧
    (∀ (ds : Dataset) (dim : ℕ) (branching : ℤ) (iters : ℕ)
        (ci : CentersInit) (rng : Rng) (ctr : ℕ), ¬ branching < 2 →
      buildIndex ds dim branching iters ci rng ctr =
        computeClustering ds dim branching.toNat iters ci rng (ds.length + 1)
          ctr (computeNodeStatistics ds dim (List.range ds.length))
          (List.range ds.length) 0) := by
  refine ⟨?_, ?_, ?_⟩
  · intro ds dim h
    simp [computeNodeStatisticsChecked, h]
  · intro ds dim h
    rw [computeNodeStatisticsChecked,
      if_neg (by simp only [List.length_range]; omega)]
  · intro ds dim branching iters ci rng ctr h
    rw [buildIndex, if_neg h]

/-- Witness for C10 at concrete inputs. -/
theorem C10_build_statistics_division_witness :
    computeNodeStatisticsChecked [] 1 (List.range (List.length ([] : Dataset)))
      = none ∧
    computeNodeStatisticsChecked [cVec 0] 1
        (List.range (List.length [cVec 0])) =
      some (computeNodeStatistics [cVec 0] 1 (List.range (List.length [cVec 0]))) ∧
    buildIndex [cVec 0] 1 3 11 CentersInit.random idRng 0 =
      computeClustering [cVec 0] 1 (3 : ℤ).toNat 11 CentersInit.random idRng
        (List.length [cVec 0] + 1) 0
        (computeNodeStatistics [cVec 0] 1 (List.range (List.length [cVec 0])))
        (List.range (List.length [cVec 0])) 0 :=
  ⟨C10_build_statistics_division.1 [] 1 rfl,
   C10_build_statistics_division.2.1 [cVec 0] 1 (by norm_num),
   C10_build_statistics_division.2.2 [cVec 0] 1 3 11 CentersInit.random idRng 0
     (by norm_num)⟩

/-! ### Claim C4 -/

/-- C4: counterexample.  A query on a freshly constructed index whose tree
was never built dereferences the null `root_` pointer: the call does not
return normally (`none`), refuting that such a query returns normally with
no neighbours. -/
theorem C4_counterexample :
    (mkIndex [cVec 0] 1 ⟨none, none, none, none⟩ idRng).findNeighbors
      (cVec 0) (some 5) 1 = none := rfl

/-- C4 (amended): on a built index (non-null root) every query returns
normally, and a tree holding no points yields no neighbours in either
query mode; only the unbuilt-index case fails (see the counterexample). -/
theorem C4_queries_amended :
    (∀ (st : KMIndex) (q : Vec) (checks : Option ℕ) (k : ℕ)
        (t : KMeansNode), st.root = some t →
      (st.findNeighbors q checks k).isSome = true) ∧
    (∀ (ds : Dataset) (dim : ℕ) (q : Vec) (cb : ℚ) (checks : Option ℕ)
        (k : ℕ) (piv : Vec) (r v : ℚ) (s l : ℕ),
      (findNeighborsTree ds dim q cb checks
        (KMeansNode.mk piv r v s [] [] l) k).1.items = []) := by
  refine ⟨?_, findNeighborsTree_empty_tree⟩
  intro st q checks k t hroot
  rw [KMIndex.findNeighbors, hroot]
  rfl

/-- Witness for C4 (amended) at concrete inputs. -/
theorem C4_queries_amended_witness :
    (({ mkIndex [cVec 0] 1 ⟨none, none, none, none⟩ idRng with
        root := some defaultNode } : KMIndex).findNeighbors (cVec 0)
        (some 5) 1).isSome = true ∧
    (findNeighborsTree [cVec 0] 1 (cVec 0) (2 / 5) none
      (KMeansNode.mk (cVec 0) 0 0 0 [] [] 0) 1).1.items = [] :=
  ⟨C4_queries_amended.1 _ (cVec 0) (some 5) 1 defaultNode rfl,
   C4_queries_amended.2 [cVec 0] 1 (cVec 0) (2 / 5) none 1 (cVec 0) 0 0 0 0⟩
/-! ### Claim C1 -/

/-- Two 1-dimensional points, 0 and 2. -/
def dsPair : Dataset := [cVec 0, cVec 2]

/-- The tree `buildIndex` produces on `dsPair` with branching 3: a single
root leaf (2 points < branching), pivot at the centroid 1, radius and
variance 1. -/
def leafPair : KMeansNode := KMeansNode.mk (cVec 1) 1 1 2 [] [0, 1] 0

/-- The built index over `dsPair`. -/
def idxPair : KMIndex :=
  { dataset := dsPair, dim := 1, branching := 3, iterations := 11
    centersInit := CentersInit.random, cbIndex := 2 / 5, sizeAtBuild := 2
    root := some leafPair, rng := idRng, ctr := 0 }

/-- `idxPair` is reachable: it is what construction followed by build
yields on `dsPair`. -/
theorem idxPair_reachable :
    (mkIndex dsPair 1 ⟨some 3, none, none, none⟩ idRng).build = some idxPair := by
  show KMIndex.build _ = _
  rw [KMIndex.build]
  have hb : buildIndex dsPair 1 3 11 CentersInit.random idRng 0 =
      some (leafPair, 0) := by
    rw [buildIndex, if_neg (by norm_num)]
    show computeClustering dsPair 1 3 11 CentersInit.random idRng 3 0 _ _ 0 = _
    rw [computeClustering]
    rw [if_pos (by norm_num [dsPair, List.length_range])]
    have hstat : computeNodeStatistics dsPair 1 (List.range dsPair.length) =
        (cVec 1, 1, 1) := by
      have hrange : List.range dsPair.length = [0, 1] := rfl
      rw [hrange]
      refine Prod.ext ?_ (Prod.ext ?_ ?_)
      · funext j
        show ((([0, 1] : List ℕ).map fun i => dsGet dsPair i j).sum /
          (([0, 1] : List ℕ).length : ℚ)) = cVec 1 j
        norm_num [dsPair, dsGet, cVec]
      · norm_num [computeNodeStatistics, dsPair, dsGet, cVec, sqDist,
          Finset.sum_range_one]
      · norm_num [computeNodeStatistics, dsPair, dsGet, cVec, sqDist,
          Finset.sum_range_one]
    rw [hstat]
    rfl
  show (match buildIndex dsPair 1 3 11 CentersInit.random idRng 0 with
    | none => none
    | some (root, ctr2) =>
      some { dataset := dsPair, dim := 1, branching := 3, iterations := 11,
             centersInit := CentersInit.random, cbIndex := 2 / 5,
             sizeAtBuild := dsPair.length, root := some root, rng := idRng,
             ctr := ctr2 }) = some idxPair
  rw [hb]
  rfl

/-- C1: counterexample.  On the built single-leaf index over two points, a
budgeted query with `maxChecks = 1` returns with `checks = 2`: the leaf
scan is admitted (the budget is not yet exhausted) and then the whole leaf
size is added, overshooting the budget. -/
theorem C1_counterexample :
    (idxPair.findNeighbors (cVec 0) (some 1) 1).map Prod.snd = some 2 ∧
    ¬ (2 ≤ 1) := by
  constructor
  · show (some (findNeighborsTree dsPair 1 (cVec 0) (2 / 5) (some 1) leafPair
      1)).map Prod.snd = some 2
    have h : (findNeighborsTree dsPair 1 (cVec 0) (2 / 5) (some 1) leafPair
        1).2 = 2 := by
      show (searchLoop dsPair 1 (cVec 0) (2 / 5) 1 (leafPair.weight + 1)
        (findNN dsPair 1 (cVec 0) (2 / 5) 1 (leafPair.height + 1) leafPair
          ⟨0, Knn.empty 1, []⟩)).checks = 2
      have h1 : findNN dsPair 1 (cVec 0) (2 / 5) 1 (leafPair.height + 1)
          leafPair ⟨0, Knn.empty 1, []⟩ =
          ⟨2, (Knn.empty 1).addAll [(sqDist 1 (dsGet dsPair 0) (cVec 0), 0),
            (sqDist 1 (dsGet dsPair 1) (cVec 0), 1)], []⟩ := by
        show findNN dsPair 1 (cVec 0) (2 / 5) 1 (0 + 1) leafPair
          ⟨0, Knn.empty 1, []⟩ = _
        rw [findNN]
        rw [show (⟨0, Knn.empty 1, []⟩ : SearchState).rs = Knn.empty 1 from rfl,
          Knn.worstDist_empty]
        rw [show pruneTest (sqDist 1 (cVec 0) leafPair.pivot) leafPair.radius
          none = false from rfl]
        simp only [Bool.false_eq_true, if_false]
        rw [show leafPair.childs = [] from rfl]
        simp only [List.isEmpty_nil, if_true]
        rw [if_neg (by norm_num [Knn.full, Knn.empty])]
        rfl
      rw [h1]
      rw [show leafPair.weight + 1 = 2 from rfl]
      rw [searchLoop]
      rfl
    show some (findNeighborsTree dsPair 1 (cVec 0) (2 / 5) (some 1) leafPair
      1).2 = some 2
    rw [h]
  · omega

/-- C1 (amended): on a well-formed built tree the final `checks` counter
never exceeds `max(maxChecks, k) - 1` plus the largest leaf size: the
budget can be overrun, by at most one leaf beyond the later of the budget
point and the capacity-fill point. -/
theorem C1_checks_budget_amended :
    ∀ (st : KMIndex) (q : Vec) (k maxChecks : ℕ) (t : KMeansNode),
      st.root = some t → t.leavesOk = true →
      ∀ res, st.findNeighbors q (some maxChecks) k = some res →
        res.2 ≤ max maxChecks k - 1 + t.maxLeafSize := by
  intro st q k maxChecks t hroot hok res hres
  rw [KMIndex.findNeighbors, hroot] at hres
  have h2 : res = findNeighborsTree st.dataset st.dim q st.cbIndex
      (some maxChecks) t k := by
    injection hres with h3
    exact h3.symm
  rw [h2]
  exact findNeighbors_checks_le st.dataset st.dim q st.cbIndex t k maxChecks hok

/-- Witness for C1 (amended) at the concrete two-point index. -/
theorem C1_checks_budget_amended_witness :
    idxPair.root = some leafPair ∧ leafPair.leavesOk = true ∧
    (findNeighborsTree dsPair 1 (cVec 0) (2 / 5) (some 1) leafPair 1).2 ≤
      max 1 1 - 1 + leafPair.maxLeafSize :=
  ⟨rfl, rfl,
   C1_checks_budget_amended idxPair (cVec 0) 1 1 leafPair rfl rfl
     (findNeighborsTree dsPair 1 (cVec 0) (2 / 5) (some 1) leafPair 1) rfl⟩
/-! ### Claim C2 -/

/-- A single 1-dimensional point. -/
def dsOne : Dataset := [cVec 0]

/-- The tree `buildIndex` produces on `dsOne` (branching 3): one root
leaf. -/
def leafOne : KMeansNode := KMeansNode.mk (cVec 0) 0 0 1 [] [0] 0

/-- The built index over `dsOne` (`size_at_build_ = 1`). -/
def idxOne : KMIndex :=
  { dataset := dsOne, dim := 1, branching := 3, iterations := 11
    centersInit := CentersInit.random, cbIndex := 2 / 5, sizeAtBuild := 1
    root := some leafOne, rng := idRng, ctr := 0 }

/-- `idxOne` is reachable by construction followed by build. -/
theorem idxOne_reachable :
    (mkIndex dsOne 1 ⟨some 3, none, none, none⟩ idRng).build = some idxOne := by
  show KMIndex.build _ = _
  rw [KMIndex.build]
  have hb : buildIndex dsOne 1 3 11 CentersInit.random idRng 0 =
      some (leafOne, 0) := by
    rw [buildIndex, if_neg (by norm_num)]
    show computeClustering dsOne 1 3 11 CentersInit.random idRng 2 0 _ _ 0 = _
    rw [computeClustering]
    rw [if_pos (by norm_num [dsOne, List.length_range])]
    have hstat : computeNodeStatistics dsOne 1 (List.range dsOne.length) =
        (cVec 0, 0, 0) := by
      have hrange : List.range dsOne.length = [0] := rfl
      rw [hrange]
      refine Prod.ext ?_ (Prod.ext ?_ ?_)
      · funext j
        show ((([0] : List ℕ).map fun i => dsGet dsOne i j).sum /
          (([0] : List ℕ).length : ℚ)) = cVec 0 j
        norm_num [dsOne, dsGet, cVec]
      · norm_num [computeNodeStatistics, dsOne, dsGet, cVec, sqDist,
          Finset.sum_range_one]
      · norm_num [computeNodeStatistics, dsOne, dsGet, cVec, sqDist,
          Finset.sum_range_one]
    rw [hstat]
    rfl
  show (match buildIndex dsOne 1 3 11 CentersInit.random idRng 0 with
    | none => none
    | some (root, ctr2) =>
      some { dataset := dsOne, dim := 1, branching := 3, iterations := 11,
             centersInit := CentersInit.random, cbIndex := 2 / 5,
             sizeAtBuild := dsOne.length, root := some root, rng := idRng,
             ctr := ctr2 }) = some idxOne
  rw [hb]
  rfl

/-- The leaf `addPointToTree` grows `leafOne` into when point 1 (another
copy of the origin) is appended. -/
def leafOneGrown : KMeansNode :=
  KMeansNode.mk (computeNodeStatistics (dsOne ++ [cVec 0]) 1 [0, 1]).1
    (computeNodeStatistics (dsOne ++ [cVec 0]) 1 [0, 1]).2.1
    (computeNodeStatistics (dsOne ++ [cVec 0]) 1 [0, 1]).2.2
    2 [] [0, 1] 0

theorem idxOne_addPoint_eval :
    idxOne.addPoints [cVec 0] 2 =
      some { idxOne with dataset := dsOne ++ [cVec 0],
                         root := some leafOneGrown, ctr := 0 } := by
  rw [KMIndex.addPoints_some (show idxOne.root = some leafOne from rfl)]
  rw [KMIndex.addPointsGo]
  rw [if_neg (by
    intro h
    have h2 := h.2
    norm_num [idxOne, dsOne] at h2)]
  have hstep : addPointToTree (dsOne ++ [cVec 0]) 1 3 11 CentersInit.random
      idRng (leafOne.height + 1) leafOne 1
      (sqDist 1 leafOne.pivot (dsGet (dsOne ++ [cVec 0]) 1)) 0 =
      some (leafOneGrown, 0) := by
    show addPointToTree (dsOne ++ [cVec 0]) 1 3 11 CentersInit.random
      idRng (0 + 1) leafOne 1 _ 0 = _
    rw [addPointToTree]
    rw [show leafOne.childs = [] from rfl]
    simp only [List.isEmpty_nil, if_true]
    rw [show leafOne.indices = [0] from rfl]
    rw [if_neg (by norm_num)]
    rfl
  have hloop : addPointsLoop (idxOne.dataset ++ [cVec 0]) idxOne.dim
      idxOne.branching.toNat idxOne.iterations idxOne.centersInit idxOne.rng
      (List.range (List.length [cVec 0]) |>.map fun i =>
        idxOne.dataset.length + i) leafOne idxOne.ctr =
      some (leafOneGrown, 0) := by
    show addPointsLoop (dsOne ++ [cVec 0]) 1 3 11 CentersInit.random idRng
      [1] leafOne 0 = _
    rw [addPointsLoop, hstep]
    rfl
  rw [hloop]
  rfl

/-- C2: counterexample.  Growing the built one-point index to two points
with `rebuild_threshold = 2` satisfies the claim's trigger condition
(threshold > 1 and N / N_at_build = 2 ≥ 2), yet the code's strict test
`size_at_build_ * threshold < size_` is false, no rebuild happens (the
point is inserted online and `size_at_build_` stays 1, where a rebuild
would have set it to 2). -/
theorem C2_counterexample :
    ¬ addPointsRebuilds 1 2 2 ∧
    ((1 : ℚ) < 2 ∧ ((2 : ℚ) / 1) ≥ 2) ∧
    (idxOne.addPoints [cVec 0] 2).map (fun st => st.sizeAtBuild) = some 1 := by
  refine ⟨?_, ⟨by norm_num, by norm_num⟩, ?_⟩
  · intro h
    have h2 := h.2
    norm_num at h2
  · rw [idxOne_addPoint_eval]
    rfl

/-- C2 (amended): the rebuild decision of `addPoints` is the strict test
`threshold > 1 and N_at_build * threshold < N` (equivalently, for
`N_at_build > 0`, the growth ratio strictly exceeds the threshold, so
exact equality does not rebuild); when it holds the tree is rebuilt from
scratch over the extended dataset, and otherwise every new point is
inserted online through `addPointToTree`. -/
theorem C2_addPoints_rebuild_amended :
    (∀ (a n : ℕ) (th : ℚ), 0 < a →
      (addPointsRebuilds a n th ↔ (1 < th ∧ th < (n : ℚ) / (a : ℚ)))) ∧
    (∀ (st : KMIndex) (pts : List Vec) (th : ℚ) (root : KMeansNode),
      st.root = some root →
      addPointsRebuilds st.sizeAtBuild (st.dataset ++ pts).length th →
      st.addPoints pts th =
        KMIndex.build { st with dataset := st.dataset ++ pts }) ∧
    (∀ (st : KMIndex) (pts : List Vec) (th : ℚ) (root : KMeansNode),
      st.root = some root →
      ¬ addPointsRebuilds st.sizeAtBuild (st.dataset ++ pts).length th →
      st.addPoints pts th =
        (match addPointsLoop (st.dataset ++ pts) st.dim st.branching.toNat
            st.iterations st.centersInit st.rng
            (List.range pts.length |>.map fun i => st.dataset.length + i)
            root st.ctr with
        | none => none
        | some (root2, ctr2) =>
          some { st with dataset := st.dataset ++ pts, root := some root2,
                         ctr := ctr2 })) := by
  refine ⟨?_, ?_, ?_⟩
  · intro a n th ha
    unfold addPointsRebuilds
    have haq : (0 : ℚ) < (a : ℚ) := by exact_mod_cast ha
    constructor
    · rintro ⟨h1, h2⟩
      exact ⟨h1, (lt_div_iff₀ haq).mpr (by linarith [h2])⟩
    · rintro ⟨h1, h2⟩
      refine ⟨h1, ?_⟩
      have h3 := (lt_div_iff₀ haq).mp h2
      linarith [h3]
  · intro st pts th root hroot hreb
    rw [KMIndex.addPoints_some hroot, KMIndex.addPointsGo, if_pos hreb]
  · intro st pts th root hroot hreb
    rw [KMIndex.addPoints_some hroot, KMIndex.addPointsGo, if_neg hreb]

/-- Witness for C2 (amended) at the concrete one-point index. -/
theorem C2_addPoints_rebuild_amended_witness :
    (addPointsRebuilds 1 3 2 ↔ (1 < (2 : ℚ) ∧ (2 : ℚ) < (3 : ℚ) / 1)) ∧
    (idxOne.addPoints [cVec 0, cVec 0] 2 =
      KMIndex.build { idxOne with dataset := idxOne.dataset ++ [cVec 0, cVec 0] }) ∧
    (idxOne.addPoints [cVec 0] 2 =
      (match addPointsLoop (idxOne.dataset ++ [cVec 0]) idxOne.dim
          idxOne.branching.toNat idxOne.iterations idxOne.centersInit
          idxOne.rng
          (List.range (List.length [cVec 0]) |>.map fun i =>
            idxOne.dataset.length + i) leafOne idxOne.ctr with
      | none => none
      | some (root2, ctr2) =>
        some { idxOne with dataset := idxOne.dataset ++ [cVec 0],
                           root := some root2, ctr := ctr2 })) := by
  refine ⟨C2_addPoints_rebuild_amended.1 1 3 2 (by norm_num), ?_, ?_⟩
  · refine C2_addPoints_rebuild_amended.2.1 idxOne [cVec 0, cVec 0] 2 leafOne
      rfl ?_
    constructor
    · norm_num
    · show ((idxOne.sizeAtBuild : ℕ) : ℚ) * 2 <
        (((idxOne.dataset ++ [cVec 0, cVec 0]).length : ℕ) : ℚ)
      norm_num [idxOne, dsOne]
  · refine C2_addPoints_rebuild_amended.2.2 idxOne [cVec 0] 2 leafOne rfl ?_
    intro h
    have h2 := h.2
    norm_num [idxOne, dsOne] at h2

/-! ### Claim C3 -/

/-- Every (distance, id) pair `findExactNN` submits comes from the visited
subtree: the trace grows only by leaf scans, and a leaf's pairs are its
`nodePairs`. -/
theorem findExactNN_trace_subset (ds : Dataset) (dim : ℕ) (q : Vec) :
    ∀ (fuel : ℕ) (t : KMeansNode) (st : Knn × List (ℚ × ℕ)) (p : ℚ × ℕ),
      p ∈ (findExactNN ds dim q fuel t st).2 →
      p ∈ st.2 ∨ p ∈ nodePairs ds dim q t := by
  intro fuel
  induction fuel with
  | zero => intro t st p hp; exact Or.inl hp
  | succ fuel ih =>
    intro t st p hp
    rw [findExactNN] at hp
    by_cases hprune : pruneTest (sqDist dim q t.pivot) t.radius
        st.1.worstDist = true
    · rw [if_pos hprune] at hp
      exact Or.inl hp
    · rw [if_neg hprune] at hp
      cases t with
      | mk pv r v s cs idxs l =>
        cases cs with
        | nil =>
          simp only [KMeansNode.childs_mk, List.isEmpty_nil, if_true] at hp
          rcases List.mem_append.mp hp with h2 | h2
          · exact Or.inl h2
          · exact Or.inr (by rw [nodePairs_leaf]; exact h2)
        | cons c cs2 =>
          simp only [KMeansNode.childs_mk, List.isEmpty_cons,
            Bool.false_eq_true, if_false] at hp
          have hfold : ∀ (ord : List ℕ) (st2 : Knn × List (ℚ × ℕ)),
              p ∈ (ord.foldl (fun st3 i =>
                  findExactNN ds dim q fuel ((c :: cs2).getD i defaultNode)
                    st3) st2).2 →
              p ∈ st2.2 ∨ ∃ i ∈ ord,
                p ∈ nodePairs ds dim q ((c :: cs2).getD i defaultNode) := by
            intro ord
            induction ord with
            | nil => intro st2 h2; exact Or.inl h2
            | cons i ord ih2 =>
              intro st2 h2
              rw [List.foldl_cons] at h2
              rcases ih2 _ h2 with h3 | ⟨j, hj, h4⟩
              · rcases ih _ _ _ h3 with h5 | h5
                · exact Or.inl h5
                · exact Or.inr ⟨i, List.mem_cons_self i ord, h5⟩
              · exact Or.inr ⟨j, List.mem_cons_of_mem i hj, h4⟩
          rcases hfold (centerOrdering dim q (c :: cs2)) st hp with h2 | h2
          · exact Or.inl h2
          · obtain ⟨i, hi, h3⟩ := h2
            have hilt : i < (c :: cs2).length := by
              have := (centerOrdering_perm dim q (c :: cs2)).mem_iff.mp hi
              exact List.mem_range.mp this
            refine Or.inr ?_
            rw [nodePairs_internal]
            refine List.mem_flatten.mpr
              ⟨nodePairs ds dim q ((c :: cs2).getD i defaultNode), ?_, h3⟩
            refine List.mem_map.mpr ⟨(c :: cs2).getD i defaultNode, ?_, rfl⟩
            rw [List.getD_eq_getElem _ _ hilt]
            exact List.getElem_mem hilt

/-- A two-point dataset whose tree has one leaf per point: the far leaf is
pruned when the query sits on the near point. -/
def dsFar : Dataset := [cVec 0, cVec 100]

/-- Leaf holding the point at the origin. -/
def leafNear : KMeansNode := KMeansNode.mk (cVec 0) 0 0 1 [] [0] 1

/-- Leaf holding the point at 100. -/
def leafFar : KMeansNode := KMeansNode.mk (cVec 100) 0 0 1 [] [1] 1

/-- Radius-sound two-leaf tree over `dsFar` with pivot 50. -/
def treeFar : KMeansNode :=
  KMeansNode.mk (cVec 50) 2500 2500 2 [leafNear, leafFar] [] 0

theorem treeFar_radiusOk : KMeansNode.radiusOk dsFar 1 treeFar = true := by
  norm_num [treeFar, leafNear, leafFar, KMeansNode.radiusOk,
    KMeansNode.radiusOkL, KMeansNode.subtreeIndices, KMeansNode.subtreeIndicesL,
    dsFar, dsGet, cVec, sqDist, Finset.sum_range_one]

theorem dFar0 : sqDist 1 (cVec 0) leafNear.pivot = 0 := by
  norm_num [sqDist, cVec, leafNear, Finset.sum_range_one]

theorem dFar1 : sqDist 1 (cVec 0) leafFar.pivot = 10000 := by
  norm_num [sqDist, cVec, leafFar, Finset.sum_range_one]

theorem ddFar0 : sqDist 1 (dsGet dsFar 0) (cVec 0) = 0 := by
  norm_num [sqDist, cVec, dsFar, dsGet, Finset.sum_range_one]

theorem ddFar1 : sqDist 1 (dsGet dsFar 1) (cVec 0) = 10000 := by
  norm_num [sqDist, cVec, dsFar, dsGet, Finset.sum_range_one]

theorem treeFar_ordering :
    centerOrdering 1 (cVec 0) [leafNear, leafFar] = [0, 1] := by
  rw [centerOrdering]
  show ((orderInsert (sqDist 1 (cVec 0) leafFar.pivot) 1
    (orderInsert (sqDist 1 (cVec 0) leafNear.pivot) 0 [])).map
      fun p => p.2) = [0, 1]
  rw [dFar0, dFar1]
  rw [show orderInsert (0 : ℚ) 0 [] = [(0, 0)] from rfl]
  rw [orderInsert, if_pos (by norm_num)]
  rfl

theorem treeFar_query_eval :
    findExactQuery dsFar 1 (cVec 0) treeFar 1 =
      (⟨1, [(0, 0)]⟩, [(0, 0)]) := by
  show findExactNN dsFar 1 (cVec 0) (treeFar.height + 1) treeFar
    (Knn.empty 1, []) = _
  rw [show treeFar.height + 1 = 1 + 1 from rfl]
  rw [findExactNN]
  rw [show ((Knn.empty 1, ([] : List (ℚ × ℕ))).1).worstDist = none from
    Knn.worstDist_empty 1]
  rw [show pruneTest (sqDist 1 (cVec 0) treeFar.pivot) treeFar.radius none =
    false from rfl]
  simp only [Bool.false_eq_true, if_false]
  rw [show treeFar.childs = [leafNear, leafFar] from rfl]
  simp only [List.isEmpty_cons, Bool.false_eq_true, if_false]
  rw [treeFar_ordering]
  rw [List.foldl_cons, List.foldl_cons, List.foldl_nil]
  have hA : findExactNN dsFar 1 (cVec 0) 1
      ([leafNear, leafFar].getD 0 defaultNode) (Knn.empty 1, []) =
      ((⟨1, [(0, 0)]⟩ : Knn), [(0, 0)]) := by
    show findExactNN dsFar 1 (cVec 0) (0 + 1) leafNear (Knn.empty 1, []) = _
    rw [findExactNN]
    rw [show ((Knn.empty 1, ([] : List (ℚ × ℕ))).1).worstDist = none from
      Knn.worstDist_empty 1]
    rw [show pruneTest (sqDist 1 (cVec 0) leafNear.pivot) leafNear.radius
      none = false from rfl]
    simp only [Bool.false_eq_true, if_false]
    rw [show leafNear.childs = [] from rfl]
    simp only [List.isEmpty_nil, if_true]
    rw [show leafNear.indices = [0] from rfl]
    simp only [List.map_cons, List.map_nil]
    rw [ddFar0]
    rfl
  rw [hA]
  show findExactNN dsFar 1 (cVec 0) (0 + 1) leafFar
    ((⟨1, [(0, 0)]⟩ : Knn), [(0, 0)]) = _
  rw [findExactNN]
  rw [show (((⟨1, [(0, 0)]⟩ : Knn), [((0 : ℚ), 0)]).1).worstDist =
    some 0 from rfl]
  rw [if_pos (by
    rw [dFar1, show leafFar.radius = 0 from rfl]
    norm_num [pruneTest])]

/-- C3: counterexample.  On the radius-sound tree `treeFar` holding rows
0 and 1, the query at the origin with k = 1 prunes the far leaf: the pair
(10000, 1) is submitted by the linear scan but never submitted by the
exact descent, so the two searches do not submit the same point set (the
final result sets nevertheless agree). -/
theorem C3_counterexample :
    KMeansNode.radiusOk dsFar 1 treeFar = true ∧
    treeFar.subtreeIndices = List.range 2 ∧
    (10000, 1) ∈ linearPairs dsFar 1 (cVec 0) 2 ∧
    (10000, 1) ∉ (findExactQuery dsFar 1 (cVec 0) treeFar 1).2 := by
  refine ⟨treeFar_radiusOk, rfl, ?_, ?_⟩
  · rw [linearPairs]
    refine List.mem_map.mpr ⟨1, by norm_num, ?_⟩
    rw [ddFar1]
  · rw [treeFar_query_eval]
    intro h
    rcases List.mem_singleton.mp h with h2
    have := congrArg Prod.snd h2
    simp at this

/-- C3 (amended): on a radius-sound tree whose subtree holds exactly the
dataset rows `0..n`, the exact search's final result set coincides with
the linear scan's for every capacity; every pair the exact search submits
is one the linear scan submits; and the pruning test only fires on points
strictly farther than the current worst distance (it never discards an
improving point).  The submitted sets may still differ: pruned subtrees
submit nothing (see the counterexample). -/
theorem C3_exact_descent_amended :
    ∀ (ds : Dataset) (dim : ℕ) (q : Vec) (t : KMeansNode) (k n : ℕ),
      KMeansNode.radiusOk ds dim t = true →
      t.subtreeIndices.Perm (List.range n) →
      ((findExactQuery ds dim q t k).1.items =
        (linearScan ds dim q n k).items ∧
       (∀ p ∈ (findExactQuery ds dim q t k).2, p ∈ linearPairs ds dim q n) ∧
       (∀ (piv x : Vec) (rsq w : ℚ), sqDist dim piv x ≤ rsq →
          pruneTest (sqDist dim q piv) rsq (some w) = true →
          w < sqDist dim q x)) := by
  intro ds dim q t k n hrok hperm
  refine ⟨findExactQuery_eq_linearScan ds dim q t k n hrok hperm, ?_, ?_⟩
  · intro p hp
    rcases findExactNN_trace_subset ds dim q (t.height + 1) t
      (Knn.empty k, []) p hp with h | h
    · cases h
    · rw [nodePairs] at h
      rw [linearPairs]
      exact (hperm.map (fun i => (sqDist dim (dsGet ds i) q, i))).mem_iff.mp h
  · intro piv x rsq w h1 h2
    exact pruneTest_admissible h1 h2

/-- Witness for C3 (amended) at the concrete pruned two-leaf tree. -/
theorem C3_exact_descent_amended_witness :
    KMeansNode.radiusOk dsFar 1 treeFar = true ∧
    (KMeansNode.subtreeIndices treeFar).Perm (List.range 2) ∧
    (findExactQuery dsFar 1 (cVec 0) treeFar 1).1.items =
      (linearScan dsFar 1 (cVec 0) 2 1).items := by
  have hperm : (KMeansNode.subtreeIndices treeFar).Perm (List.range 2) := by
    rw [show KMeansNode.subtreeIndices treeFar = List.range 2 from rfl]
  exact ⟨treeFar_radiusOk, hperm,
    (C3_exact_descent_amended dsFar 1 (cVec 0) treeFar 1 2 treeFar_radiusOk
      hperm).1⟩

/-! ### Claim C5 -/

theorem getD_set_self {α : Type} {l : List α} {i : ℕ} (h : i < l.length)
    (a d : α) : (l.set i a).getD i d = a := by
  rw [List.getD_eq_getElem _ _ (by simpa using h)]
  exact List.getElem_set_self _

theorem getD_set_ne {α : Type} {l : List α} {i j : ℕ} (h : i ≠ j)
    (a d : α) : (l.set i a).getD j d = l.getD j d := by
  rw [List.getD_eq_getElem?_getD, List.getElem?_set_ne h,
    ← List.getD_eq_getElem?_getD]

/-- Online insertion weakly grows the radius of every internal node of the
original tree: the descent path takes `max(radius, dist)` and the other
nodes are untouched.  (Leaves are excluded: their statistics are
recomputed from scratch, see the C5 counterexample.) -/
theorem addPointToTree_radius_mono (ds : Dataset) (dim : ℕ) (bf iters : ℕ)
    (ci : CentersInit) (rng : Rng) :
    ∀ (fuel : ℕ) (t : KMeansNode) (idx : ℕ) (d : ℚ) (ctr : ℕ)
      (t2 : KMeansNode) (ctr2 : ℕ),
      addPointToTree ds dim bf iters ci rng fuel t idx d ctr =
        some (t2, ctr2) →
      ∀ (p : List ℕ) (nd : KMeansNode), nodeAt p t = some nd →
        nd.childs ≠ [] →
        ∃ nd2, nodeAt p t2 = some nd2 ∧ nd.radius ≤ nd2.radius ∧
          nd2.childs ≠ [] := by
  intro fuel
  induction fuel with
  | zero =>
    intro t idx d ctr t2 ctr2 h
    simp [addPointToTree] at h
  | succ fuel ih =>
    intro t idx d ctr t2 ctr2 h p nd hpath hnd
    rw [addPointToTree] at h
    dsimp only at h
    by_cases hleaf : t.childs.isEmpty = true
    · have hchilds : t.childs = [] := List.isEmpty_iff.mp hleaf
      cases p with
      | nil =>
        rw [nodeAt] at hpath
        injection hpath with h2
        exact absurd hchilds (h2 ▸ hnd)
      | cons i rest =>
        rw [nodeAt, hchilds] at hpath
        simp at hpath
    · rw [if_neg hleaf] at h
      rcases hrec : addPointToTree ds dim bf iters ci rng fuel
          (t.childs.getD (bestChildIdx (t.childs.map fun c =>
            sqDist dim c.pivot (dsGet ds idx))) defaultNode) idx
          ((t.childs.map fun c => sqDist dim c.pivot (dsGet ds idx)).getD
            (bestChildIdx (t.childs.map fun c =>
              sqDist dim c.pivot (dsGet ds idx))) 0) ctr
        with _ | ⟨child2, ctr3⟩
      · rw [hrec] at h
        cases h
      · rw [hrec] at h
        dsimp only at h
        have ht2 : KMeansNode.mk t.pivot
            (if t.radius < d then d else t.radius)
            (((t.size : ℚ) * t.variance + d) / ((t.size : ℚ) + 1))
            (t.size + 1)
            (t.childs.set (bestChildIdx (t.childs.map fun c =>
              sqDist dim c.pivot (dsGet ds idx))) child2)
            t.indices t.level = t2 := by
          injection h with h2
          exact congrArg Prod.fst h2
        have hne : t.childs ≠ [] := fun hc => hleaf (List.isEmpty_iff.mpr hc)
        cases p with
        | nil =>
          rw [nodeAt] at hpath
          injection hpath with h2
          subst h2
          refine ⟨t2, rfl, ?_, ?_⟩
          · rw [← ht2]
            simp only [KMeansNode.radius_mk]
            split
            · exact le_of_lt (by assumption)
            · exact le_refl _
          · rw [← ht2]
            simp only [KMeansNode.childs_mk]
            intro hc
            have hlen := congrArg List.length hc
            rw [List.length_set] at hlen
            exact hne (List.length_eq_zero.mp hlen)
        | cons i rest =>
          rw [nodeAt] at hpath
          by_cases hi : i < t.childs.length
          · rw [if_pos hi] at hpath
            rw [← ht2, nodeAt]
            simp only [KMeansNode.childs_mk]
            rw [if_pos (by rw [List.length_set]; exact hi)]
            by_cases hib : i = bestChildIdx (t.childs.map fun c =>
                sqDist dim c.pivot (dsGet ds idx))
            · subst hib
              rw [getD_set_self hi]
              exact ih _ _ _ _ _ _ hrec rest nd hpath hnd
            · rw [getD_set_ne (fun hc => hib hc.symm)]
              exact ⟨nd, hpath, le_refl _, hnd⟩
          · rw [if_neg hi] at hpath
            cases hpath

/-- The insertion fold of `addPoints` preserves the internal-node radius
monotonicity across all inserted points. -/
theorem addPointsLoop_radius_mono (ds : Dataset) (dim : ℕ) (bf iters : ℕ)
    (ci : CentersInit) (rng : Rng) :
    ∀ (idxs : List ℕ) (root : KMeansNode) (ctr : ℕ) (root2 : KMeansNode)
      (ctr2 : ℕ),
      addPointsLoop ds dim bf iters ci rng idxs root ctr =
        some (root2, ctr2) →
      ∀ (p : List ℕ) (nd : KMeansNode), nodeAt p root = some nd →
        nd.childs ≠ [] →
        ∃ nd2, nodeAt p root2 = some nd2 ∧ nd.radius ≤ nd2.radius ∧
          nd2.childs ≠ []
  | [], root, ctr, root2, ctr2 => by
    intro h p nd hpath hnd
    rw [addPointsLoop] at h
    injection h with h2
    have hroot : root = root2 := congrArg Prod.fst h2
    subst hroot
    exact ⟨nd, hpath, le_refl _, hnd⟩
  | idx :: rest, root, ctr, root2, ctr2 => by
    intro h p nd hpath hnd
    rw [addPointsLoop] at h
    rcases hrec : addPointToTree ds dim bf iters ci rng (root.height + 1) root
        idx (sqDist dim root.pivot (dsGet ds idx)) ctr with _ | ⟨root1, ctr1⟩
    · rw [hrec] at h
      cases h
    · rw [hrec] at h
      dsimp only at h
      obtain ⟨nd1, h1, hr1, hc1⟩ := addPointToTree_radius_mono ds dim bf iters
        ci rng (root.height + 1) root idx _ ctr root1 ctr1 hrec p nd hpath hnd
      obtain ⟨nd2, h2, hr2, hc2⟩ := addPointsLoop_radius_mono ds dim bf iters
        ci rng rest root1 ctr1 root2 ctr2 h p nd1 h1 hc1
      exact ⟨nd2, h2, le_trans hr1 hr2, hc2⟩

/-- Three collinear points whose built root is a single leaf. -/
def dsTri : Dataset := [cVec 0, cVec 10, cVec 10]

/-- The root leaf `buildIndex` produces on `dsTri` (branching 32): pivot
20/3, radius 400/9, variance 200/9. -/
def leafTri : KMeansNode :=
  KMeansNode.mk (cVec (20 / 3)) (400 / 9) (200 / 9) 3 [] [0, 1, 2] 0

/-- The built index over `dsTri`. -/
def idxTri : KMIndex :=
  { dataset := dsTri, dim := 1, branching := 32, iterations := 11
    centersInit := CentersInit.random, cbIndex := 2 / 5, sizeAtBuild := 3
    root := some leafTri, rng := idRng, ctr := 0 }

theorem statsTri :
    computeNodeStatistics dsTri 1 [0, 1, 2] = (cVec (20 / 3), 400 / 9, 200 / 9) := by
  refine Prod.ext ?_ (Prod.ext ?_ ?_)
  · funext j
    show ((([0, 1, 2] : List ℕ).map fun i => dsGet dsTri i j).sum /
      ((([0, 1, 2] : List ℕ).length : ℕ) : ℚ)) = cVec (20 / 3) j
    norm_num [dsTri, dsGet, cVec]
  · norm_num [computeNodeStatistics, dsTri, dsGet, cVec, sqDist,
      Finset.sum_range_one]
  · norm_num [computeNodeStatistics, dsTri, dsGet, cVec, sqDist,
      Finset.sum_range_one]

/-- `idxTri` is reachable by construction followed by build. -/
theorem idxTri_reachable :
    (mkIndex dsTri 1 ⟨some 32, none, none, none⟩ idRng).build = some idxTri := by
  show KMIndex.build _ = _
  rw [KMIndex.build]
  have hb : buildIndex dsTri 1 32 11 CentersInit.random idRng 0 =
      some (leafTri, 0) := by
    rw [buildIndex, if_neg (by norm_num)]
    show computeClustering dsTri 1 32 11 CentersInit.random idRng 4 0 _ _ 0 = _
    rw [computeClustering]
    rw [if_pos (by norm_num [dsTri, List.length_range])]
    have hrange : List.range dsTri.length = [0, 1, 2] := rfl
    rw [hrange, statsTri]
    rfl
  show (match buildIndex dsTri 1 32 11 CentersInit.random idRng 0 with
    | none => none
    | some (root, ctr2) =>
      some { dataset := dsTri, dim := 1, branching := 32, iterations := 11,
             centersInit := CentersInit.random, cbIndex := 2 / 5,
             sizeAtBuild := dsTri.length, root := some root, rng := idRng,
             ctr := ctr2 }) = some idxTri
  rw [hb]
  rfl

/-- The leaf after the online insertion of a fourth point at the origin:
its recomputed radius 25 is SMALLER than the 400/9 of `leafTri`. -/
def leafTri4 : KMeansNode :=
  KMeansNode.mk (cVec 5) 25 25 4 [] [0, 1, 2, 3] 0

theorem statsTri4 :
    computeNodeStatistics (dsTri ++ [cVec 0]) 1 [0, 1, 2, 3] =
      (cVec 5, 25, 25) := by
  refine Prod.ext ?_ (Prod.ext ?_ ?_)
  · funext j
    show ((([0, 1, 2, 3] : List ℕ).map fun i =>
      dsGet (dsTri ++ [cVec 0]) i j).sum /
      ((([0, 1, 2, 3] : List ℕ).length : ℕ) : ℚ)) = cVec 5 j
    norm_num [dsTri, dsGet, cVec]
  · norm_num [computeNodeStatistics, dsTri, dsGet, cVec, sqDist,
      Finset.sum_range_one]
  · norm_num [computeNodeStatistics, dsTri, dsGet, cVec, sqDist,
      Finset.sum_range_one]

theorem idxTri_addPoint_eval :
    idxTri.addPoints [cVec 0] 2 =
      some { idxTri with dataset := dsTri ++ [cVec 0],
                         root := some leafTri4, ctr := 0 } := by
  rw [KMIndex.addPoints_some (show idxTri.root = some leafTri from rfl)]
  rw [KMIndex.addPointsGo]
  rw [if_neg (by
    intro h
    have h2 := h.2
    norm_num [idxTri, dsTri] at h2)]
  have hstep : addPointToTree (dsTri ++ [cVec 0]) 1 32 11 CentersInit.random
      idRng (leafTri.height + 1) leafTri 3
      (sqDist 1 leafTri.pivot (dsGet (dsTri ++ [cVec 0]) 3)) 0 =
      some (leafTri4, 0) := by
    show addPointToTree (dsTri ++ [cVec 0]) 1 32 11 CentersInit.random
      idRng (0 + 1) leafTri 3 _ 0 = _
    rw [addPointToTree]
    rw [show leafTri.childs = [] from rfl]
    simp only [List.isEmpty_nil, if_true]
    rw [show leafTri.indices = [0, 1, 2] from rfl]
    rw [if_neg (by norm_num)]
    rw [show ([0, 1, 2] : List ℕ) ++ [3] = [0, 1, 2, 3] from rfl]
    rw [statsTri4]
    rfl
  have hloop : addPointsLoop (idxTri.dataset ++ [cVec 0]) idxTri.dim
      idxTri.branching.toNat idxTri.iterations idxTri.centersInit idxTri.rng
      (List.range (List.length [cVec 0]) |>.map fun i =>
        idxTri.dataset.length + i) leafTri idxTri.ctr =
      some (leafTri4, 0) := by
    show addPointsLoop (dsTri ++ [cVec 0]) 1 32 11 CentersInit.random idRng
      [3] leafTri 0 = _
    rw [addPointsLoop, hstep]
    rfl
  rw [hloop]
  rfl

/-- C5: counterexample.  On the built one-leaf index over `dsTri`, adding
a fourth point online (no rebuild: the threshold test fails) recomputes
the leaf statistics, and the root leaf radius DROPS from 400/9 to 25 -
the radius of an existing node is not monotone under addPoints. -/
theorem C5_counterexample :
    (mkIndex dsTri 1 ⟨some 32, none, none, none⟩ idRng).build = some idxTri ∧
    ¬ addPointsRebuilds idxTri.sizeAtBuild
      (idxTri.dataset ++ [cVec 0]).length 2 ∧
    (idxTri.addPoints [cVec 0] 2).map (fun s => s.root) =
      some (some leafTri4) ∧
    leafTri4.radius < leafTri.radius := by
  refine ⟨idxTri_reachable, ?_, ?_, ?_⟩
  · intro h
    have h2 := h.2
    norm_num [idxTri, dsTri] at h2
  · rw [idxTri_addPoint_eval]
    rfl
  · show (25 : ℚ) < 400 / 9
    norm_num

/-- C5 (amended): after an `addPoints` call that does not rebuild, every
internal node addressable in the old tree is still addressable at the
same path and its radius has not decreased; leaves are excluded (their
statistics are recomputed, see the counterexample). -/
theorem C5_radius_monotone_amended :
    ∀ (st : KMIndex) (pts : List Vec) (th : ℚ) (root : KMeansNode)
      (st2 : KMIndex) (root2 : KMeansNode),
      st.root = some root →
      ¬ addPointsRebuilds st.sizeAtBuild (st.dataset ++ pts).length th →
      st.addPoints pts th = some st2 → st2.root = some root2 →
      ∀ (p : List ℕ) (nd : KMeansNode), nodeAt p root = some nd →
        nd.childs ≠ [] →
        ∃ nd2, nodeAt p root2 = some nd2 ∧ nd.radius ≤ nd2.radius := by
  intro st pts th root st2 root2 hroot hreb hadd hroot2 p nd hpath hnd
  rw [KMIndex.addPoints_some hroot, KMIndex.addPointsGo, if_neg hreb] at hadd
  rcases hloop : addPointsLoop (st.dataset ++ pts) st.dim st.branching.toNat
      st.iterations st.centersInit st.rng
      (List.range pts.length |>.map fun i => st.dataset.length + i)
      root st.ctr with _ | ⟨rootn, ctrn⟩
  · rw [hloop] at hadd
    cases hadd
  · rw [hloop] at hadd
    dsimp only at hadd
    injection hadd with h2
    have hrn : some rootn = some root2 := by
      rw [← h2] at hroot2
      exact hroot2
    injection hrn with hrn2
    obtain ⟨nd2, ha, hr, _⟩ := addPointsLoop_radius_mono (st.dataset ++ pts)
      st.dim st.branching.toNat st.iterations st.centersInit st.rng
      (List.range pts.length |>.map fun i => st.dataset.length + i)
      root st.ctr rootn ctrn hloop p nd hpath hnd
    exact ⟨nd2, hrn2 ▸ ha, hr⟩

/-- Index with the two-leaf internal root `treeFar` (its radius is sound
over `dsFar`, see `treeFar_radiusOk`). -/
def idxFar : KMIndex :=
  { dataset := dsFar, dim := 1, branching := 3, iterations := 11
    centersInit := CentersInit.random, cbIndex := 2 / 5, sizeAtBuild := 2
    root := some treeFar, rng := idRng, ctr := 0 }

/-- The near leaf grown by inserting the point at 50. -/
def leafNear2 : KMeansNode := KMeansNode.mk (cVec 25) 625 625 2 [] [0, 2] 1

/-- The root after the online insertion: radius kept at 2500. -/
def rootFar2 : KMeansNode :=
  KMeansNode.mk (cVec 50) 2500 (5000 / 3) 3 [leafNear2, leafFar] [] 0

/-- The index after the insertion. -/
def idxFar2 : KMIndex :=
  { idxFar with dataset := dsFar ++ [cVec 50], root := some rootFar2,
                ctr := 0 }

theorem statsNear2 :
    computeNodeStatistics (dsFar ++ [cVec 50]) 1 [0, 2] =
      (cVec 25, 625, 625) := by
  refine Prod.ext ?_ (Prod.ext ?_ ?_)
  · funext j
    show ((([0, 2] : List ℕ).map fun i =>
      dsGet (dsFar ++ [cVec 50]) i j).sum /
      ((([0, 2] : List ℕ).length : ℕ) : ℚ)) = cVec 25 j
    norm_num [dsFar, dsGet, cVec]
  · norm_num [computeNodeStatistics, dsFar, dsGet, cVec, sqDist,
      Finset.sum_range_one]
  · norm_num [computeNodeStatistics, dsFar, dsGet, cVec, sqDist,
      Finset.sum_range_one]

theorem sq50_root : sqDist 1 treeFar.pivot (dsGet (dsFar ++ [cVec 50]) 2) = 0 := by
  norm_num [treeFar, dsFar, dsGet, cVec, sqDist, Finset.sum_range_one]

theorem bestChildIdx_tie : bestChildIdx [(2500 : ℚ), 2500] = 0 := by
  rw [bestChildIdx]
  show (([((0 : ℕ), (2500 : ℚ))]).foldl
    (fun acc p => if p.2 < acc.2 then (p.1 + 1, p.2) else acc)
    (0, 2500)).1 = 0
  rw [List.foldl_cons, List.foldl_nil]
  show (if (2500 : ℚ) < 2500 then ((0 : ℕ) + 1, (2500 : ℚ)) else (0, 2500)).1 = 0
  rw [if_neg (by norm_num)]

theorem idxFar_addPoint_eval :
    idxFar.addPoints [cVec 50] 2 = some idxFar2 := by
  rw [KMIndex.addPoints_some (show idxFar.root = some treeFar from rfl)]
  rw [KMIndex.addPointsGo]
  rw [if_neg (by
    intro h
    have h2 := h.2
    norm_num [idxFar, dsFar] at h2)]
  have hdists : [leafNear, leafFar].map (fun c =>
      sqDist 1 c.pivot (dsGet (dsFar ++ [cVec 50]) 2)) = [2500, 2500] := by
    simp only [List.map_cons, List.map_nil]
    norm_num [leafNear, leafFar, dsFar, dsGet, cVec, sqDist,
      Finset.sum_range_one]
  have hrec2 : addPointToTree (dsFar ++ [cVec 50]) 1 3 11 CentersInit.random
      idRng 1 leafNear 2 2500 0 = some (leafNear2, 0) := by
    show addPointToTree (dsFar ++ [cVec 50]) 1 3 11 CentersInit.random
      idRng (0 + 1) leafNear 2 2500 0 = _
    rw [addPointToTree]
    rw [show leafNear.childs = [] from rfl]
    simp only [List.isEmpty_nil, if_true]
    rw [show leafNear.indices = [0] from rfl]
    rw [if_neg (by norm_num)]
    rw [show ([0] : List ℕ) ++ [2] = [0, 2] from rfl]
    rw [statsNear2]
    rfl
  have hstep : addPointToTree (dsFar ++ [cVec 50]) 1 3 11 CentersInit.random
      idRng (1 + 1) treeFar 2 0 0 = some (rootFar2, 0) := by
    rw [addPointToTree]
    rw [show treeFar.childs = [leafNear, leafFar] from rfl]
    simp only [List.isEmpty_cons, Bool.false_eq_true, if_false]
    rw [hdists, bestChildIdx_tie]
    rw [show ([leafNear, leafFar].getD 0 defaultNode) = leafNear from rfl]
    rw [show (([(2500 : ℚ), 2500]).getD 0 0) = 2500 from rfl]
    rw [hrec2]
    show some (KMeansNode.mk treeFar.pivot
      (if treeFar.radius < 0 then 0 else treeFar.radius)
      (((treeFar.size : ℚ) * treeFar.variance + 0) / ((treeFar.size : ℚ) + 1))
      (treeFar.size + 1) ([leafNear, leafFar].set 0 leafNear2)
      treeFar.indices treeFar.level, 0) = some (rootFar2, 0)
    rw [if_neg (by norm_num [treeFar])]
    show some (KMeansNode.mk (cVec 50) 2500 (((2 : ℚ) * 2500 + 0) / (2 + 1)) 3
      [leafNear2, leafFar] [] 0, 0) = _
    norm_num [rootFar2]
  have hloop : addPointsLoop (idxFar.dataset ++ [cVec 50]) idxFar.dim
      idxFar.branching.toNat idxFar.iterations idxFar.centersInit idxFar.rng
      (List.range (List.length [cVec 50]) |>.map fun i =>
        idxFar.dataset.length + i) treeFar idxFar.ctr =
      some (rootFar2, 0) := by
    show addPointsLoop (dsFar ++ [cVec 50]) 1 3 11 CentersInit.random idRng
      [2] treeFar 0 = _
    rw [addPointsLoop]
    rw [show treeFar.height + 1 = 1 + 1 from rfl]
    rw [sq50_root, hstep]
    rfl
  rw [hloop]
  rfl

/-- Witness for C5 (amended) at the concrete two-leaf index: the internal
root keeps radius 2500 after the insertion. -/
theorem C5_radius_monotone_amended_witness :
    idxFar.root = some treeFar ∧
    ¬ addPointsRebuilds idxFar.sizeAtBuild
      (idxFar.dataset ++ [cVec 50]).length 2 ∧
    idxFar.addPoints [cVec 50] 2 = some idxFar2 ∧
    idxFar2.root = some rootFar2 ∧
    nodeAt [] treeFar = some treeFar ∧ treeFar.childs ≠ [] ∧
    ∃ nd2, nodeAt [] rootFar2 = some nd2 ∧ treeFar.radius ≤ nd2.radius := by
  have hreb : ¬ addPointsRebuilds idxFar.sizeAtBuild
      (idxFar.dataset ++ [cVec 50]).length 2 := by
    intro h
    have h2 := h.2
    norm_num [idxFar, dsFar] at h2
  have hch : treeFar.childs ≠ [] := by
    rw [show treeFar.childs = [leafNear, leafFar] from rfl]
    intro h
    cases h
  exact ⟨rfl, hreb, idxFar_addPoint_eval, rfl, rfl, hch,
    C5_radius_monotone_amended idxFar [cVec 50] 2 treeFar idxFar2 rootFar2
      rfl hreb idxFar_addPoint_eval rfl [] treeFar rfl hch⟩

/-! ### Claim C8 -/

/-- Boolean ascending sortedness of an index list (`indices` of a
terminal node are stored sorted by `std::sort`). -/
def sortedLe : List ℕ → Bool
  | [] => true
  | [_] => true
  | a :: b :: rest => decide (a ≤ b) && sortedLe (b :: rest)

theorem sortedLe_of_sorted :
    ∀ {l : List ℕ}, List.Sorted (· ≤ ·) l → sortedLe l = true
  | [], _ => rfl
  | [_], _ => rfl
  | a :: b :: rest, h => by
    rw [List.sorted_cons] at h
    rw [sortedLe, Bool.and_eq_true, decide_eq_true_eq]
    exact ⟨h.1 b (by simp), sortedLe_of_sorted h.2⟩

/-- Sum of the `size` fields of a child list. -/
def sizeSumL : List KMeansNode → ℕ
  | [] => 0
  | c :: cs => c.size + sizeSumL cs

mutual

/-- Post-build structural invariant: an internal node has exactly `bf`
children and its size is the sum of its children's sizes; a terminal node
has `size = |indices|` with the indices sorted ascending. -/
def builtOk (bf : ℕ) : KMeansNode → Bool
  | KMeansNode.mk _ _ _ sz [] idxs _ => (sz == idxs.length) && sortedLe idxs
  | KMeansNode.mk _ _ _ sz (c :: cs) _ _ =>
      ((c :: cs).length == bf) && (sz == sizeSumL (c :: cs)) &&
      builtOkL bf (c :: cs)

def builtOkL (bf : ℕ) : List KMeansNode → Bool
  | [] => true
  | c :: cs => builtOk bf c && builtOkL bf cs

end

theorem builtOk_leaf (bf : ℕ) (stats : Vec × ℚ × ℚ) (pts : List ℕ)
    (level : ℕ) :
    builtOk bf (KMeansNode.mk stats.1 stats.2.1 stats.2.2 pts.length []
      (pts.insertionSort (· ≤ ·)) level) = true := by
  rw [builtOk, Bool.and_eq_true, beq_iff_eq]
  exact ⟨((List.perm_insertionSort _ pts).length_eq).symm,
    sortedLe_of_sorted (List.sorted_insertionSort _ pts)⟩

/-- Generic invariant preservation along a left fold. -/
theorem foldl_inv {α β : Type} (C : β → Prop) (f : β → α → β) :
    ∀ (l : List α) (b : β), C b → (∀ b2 a, a ∈ l → C b2 → C (f b2 a)) →
      C (l.foldl f b)
  | [], b, hb, _ => hb
  | a :: l, b, hb, hs =>
    foldl_inv C f l (f b a) (hs b a (List.mem_cons_self a l) hb)
      (fun b2 a2 ha2 hb2 => hs b2 a2 (List.mem_cons_of_mem a ha2) hb2)

/-- The per-cluster filters of the child construction partition the
assignment list: their lengths sum to the number of points. -/
theorem filter_partition_sum :
    ∀ (l : List (ℕ × ℕ)) (bf : ℕ), (∀ p ∈ l, p.2 < bf) →
      (∑ c in Finset.range bf, (l.filter fun p => p.2 = c).length) = l.length
  | [], bf, _ => by simp
  | p :: l, bf, h => by
    have hrec := filter_partition_sum l bf
      (fun q hq => h q (List.mem_cons_of_mem p hq))
    have hstep : ∀ c, ((p :: l).filter fun q => q.2 = c).length =
        (l.filter fun q => q.2 = c).length + (if p.2 = c then 1 else 0) := by
      intro c
      by_cases hc : p.2 = c
      · rw [List.filter_cons_of_pos (by simpa using hc), if_pos hc]
        simp [Nat.add_comm]
      · rw [List.filter_cons_of_neg (by simpa using hc), if_neg hc]
        omega
    calc (∑ c in Finset.range bf, ((p :: l).filter fun q => q.2 = c).length)
        = ∑ c in Finset.range bf, ((l.filter fun q => q.2 = c).length +
            (if p.2 = c then 1 else 0)) :=
          Finset.sum_congr rfl (fun c _ => hstep c)
      _ = (∑ c in Finset.range bf, (l.filter fun q => q.2 = c).length) +
            ∑ c in Finset.range bf, (if p.2 = c then 1 else 0) :=
          Finset.sum_add_distrib
      _ = l.length + 1 := by
          rw [hrec, Finset.sum_ite_eq,
            if_pos (Finset.mem_range.mpr (h p (List.mem_cons_self p l)))]
      _ = (p :: l).length := by simp

/-- `nearestCenter` returns an in-range cluster id on a nonempty center
list. -/
theorem nearestCenter_lt (dim : ℕ) (x : Vec) :
    ∀ (centers : List Vec), centers ≠ [] →
      (nearestCenter dim centers x).1 < centers.length := by
  intro centers hne
  cases centers with
  | nil => exact absurd rfl hne
  | cons c0 rest =>
    rw [nearestCenter]
    refine foldl_inv (fun acc => acc.1 < (c0 :: rest).length) _ rest.enum
      (0, sqDist dim x c0) (by simp) ?_
    intro acc p hp hacc
    dsimp only
    split
    · have h2 : rest[p.1]? = some p.2 := List.mem_enum_iff_getElem?.mp hp
      have h3 : p.1 < rest.length := by
        rcases List.getElem?_eq_some.mp h2 with ⟨h3, _⟩
        exact h3
      show p.1 + 1 < (c0 :: rest).length
      rw [List.length_cons]
      omega
    · exact hacc

/-- The fold step of `initAssign` (named for the invariant proofs; equal
to the lambda of the source fold by `initAssign_eq`). -/
def initStep (ds : Dataset) (dim : ℕ) (centers : List Vec)
    (st : ClusterAssign) (i : ℕ) : ClusterAssign :=
  let best := nearestCenter dim centers (dsGet ds i)
  { belongs := st.belongs ++ [best.1],
    counts := st.counts.set best.1 (st.counts.getD best.1 0 + 1),
    radiuses :=
      if st.radiuses.getD best.1 0 < best.2 then
        st.radiuses.set best.1 best.2
      else st.radiuses }

theorem initAssign_eq (ds : Dataset) (dim : ℕ) (centers : List Vec)
    (bf : ℕ) (pts : List ℕ) :
    initAssign ds dim centers bf pts =
      pts.foldl (initStep ds dim centers)
        ⟨[], List.replicate bf 0, List.replicate bf 0⟩ := rfl

theorem initFold_inv (ds : Dataset) (dim : ℕ) (centers : List Vec)
    (bf : ℕ) (hc : centers ≠ []) (hlen : centers.length = bf) :
    ∀ (pts : List ℕ) (st : ClusterAssign),
      (∀ b ∈ st.belongs, b < bf) → st.counts.length = bf →
      (pts.foldl (initStep ds dim centers) st).belongs.length =
          st.belongs.length + pts.length ∧
      (∀ b ∈ (pts.foldl (initStep ds dim centers) st).belongs, b < bf) ∧
      (pts.foldl (initStep ds dim centers) st).counts.length = bf
  | [], st, hb, hcnt => ⟨by simp, hb, hcnt⟩
  | i :: pts, st, hb, hcnt => by
    rw [List.foldl_cons]
    have hstep_b : ∀ b ∈ (initStep ds dim centers st i).belongs, b < bf := by
      intro b hbmem
      rw [initStep] at hbmem
      dsimp only at hbmem
      rcases List.mem_append.mp hbmem with h2 | h2
      · exact hb b h2
      · rcases List.mem_singleton.mp h2 with rfl
        exact hlen ▸ nearestCenter_lt dim (dsGet ds i) centers hc
    have hstep_c : (initStep ds dim centers st i).counts.length = bf := by
      rw [initStep]
      dsimp only
      rw [List.length_set]
      exact hcnt
    have hrec := initFold_inv ds dim centers bf hc hlen pts
      (initStep ds dim centers st i) hstep_b hstep_c
    refine ⟨?_, hrec.2.1, hrec.2.2⟩
    rw [hrec.1]
    rw [show (initStep ds dim centers st i).belongs =
      st.belongs ++ [(nearestCenter dim centers (dsGet ds i)).1] from rfl]
    rw [List.length_append]
    simp
    omega

/-- The fold step of `reassignPass` (equal to the source lambda by
`reassignPass_eq`). -/
def reassignStep (ds : Dataset) (dim : ℕ) (centers : List Vec)
    (st : ClusterAssign × Bool) (p : ℕ × ℕ) : ClusterAssign × Bool :=
  let best := nearestCenter dim centers (dsGet ds p.1)
  let rad2 :=
    if st.1.radiuses.getD best.1 0 < best.2 then
      st.1.radiuses.set best.1 best.2
    else st.1.radiuses
  if best.1 ≠ p.2 then
    (⟨st.1.belongs ++ [best.1],
      (st.1.counts.set p.2 (st.1.counts.getD p.2 0 - 1)).set best.1
        ((st.1.counts.set p.2 (st.1.counts.getD p.2 0 - 1)).getD best.1 0 + 1),
      rad2⟩, false)
  else (⟨st.1.belongs ++ [best.1], st.1.counts, rad2⟩, st.2)

theorem reassignPass_eq (ds : Dataset) (dim : ℕ) (centers : List Vec)
    (pts : List ℕ) (belongsOld : List ℕ) (counts0 : List ℕ)
    (radiuses0 : List ℚ) :
    reassignPass ds dim centers pts belongsOld counts0 radiuses0 =
      (pts.zip belongsOld).foldl (reassignStep ds dim centers)
        ⟨⟨[], counts0, radiuses0⟩, true⟩ := rfl

theorem reassignFold_inv (ds : Dataset) (dim : ℕ) (centers : List Vec)
    (bf : ℕ) (hc : centers ≠ []) (hlen : centers.length = bf) :
    ∀ (l : List (ℕ × ℕ)) (st : ClusterAssign × Bool),
      (∀ b ∈ st.1.belongs, b < bf) → st.1.counts.length = bf →
      (l.foldl (reassignStep ds dim centers) st).1.belongs.length =
          st.1.belongs.length + l.length ∧
      (∀ b ∈ (l.foldl (reassignStep ds dim centers) st).1.belongs, b < bf) ∧
      (l.foldl (reassignStep ds dim centers) st).1.counts.length = bf
  | [], st, hb, hcnt => ⟨by simp, hb, hcnt⟩
  | p :: l, st, hb, hcnt => by
    rw [List.foldl_cons]
    have hbel : (reassignStep ds dim centers st p).1.belongs =
        st.1.belongs ++ [(nearestCenter dim centers (dsGet ds p.1)).1] := by
      rw [reassignStep]
      split
      · rfl
      · rfl
    have hstep_b : ∀ b ∈ (reassignStep ds dim centers st p).1.belongs,
        b < bf := by
      intro b hbmem
      rw [hbel] at hbmem
      rcases List.mem_append.mp hbmem with h2 | h2
      · exact hb b h2
      · rcases List.mem_singleton.mp h2 with rfl
        exact hlen ▸ nearestCenter_lt dim (dsGet ds p.1) centers hc
    have hstep_c : (reassignStep ds dim centers st p).1.counts.length = bf := by
      rw [reassignStep]
      split
      · show ((st.1.counts.set _ _).set _ _).length = bf
        rw [List.length_set, List.length_set]
        exact hcnt
      · exact hcnt
    have hrec := reassignFold_inv ds dim centers bf hc hlen l
      (reassignStep ds dim centers st p) hstep_b hstep_c
    refine ⟨?_, hrec.2.1, hrec.2.2⟩
    rw [hrec.1, hbel, List.length_append]
    simp
    omega

theorem moveOneMember_length (belongs : List ℕ) (j i : ℕ) :
    (moveOneMember belongs j i).length = belongs.length := by
  rw [moveOneMember]
  split
  · rw [List.length_set]
  · rfl

theorem moveOneMember_mem {belongs : List ℕ} {bf j i : ℕ} (hi : i < bf)
    (h : ∀ b ∈ belongs, b < bf) : ∀ b ∈ moveOneMember belongs j i, b < bf := by
  intro b hb
  rw [moveOneMember] at hb
  split at hb
  · rcases List.mem_or_eq_of_mem_set hb with h2 | rfl
    · exact h b h2
    · exact hi
  · exact h b hb

/-- The fold step of `recoveryPass` (equal to the source lambda by
`recoveryPass_eq`). -/
def recoveryStep (bf : ℕ) (st : List ℕ × List ℕ × Bool) (i : ℕ) :
    List ℕ × List ℕ × Bool :=
  if st.2.1.getD i 0 = 0 then
    match cyclicFindGT1 st.2.1 bf i with
    | some j =>
      (moveOneMember st.1 j i,
       (st.2.1.set j (st.2.1.getD j 0 - 1)).set i
         ((st.2.1.set j (st.2.1.getD j 0 - 1)).getD i 0 + 1),
       false)
    | none => st
  else st

theorem recoveryPass_eq (bf : ℕ) (belongs counts : List ℕ) (conv : Bool) :
    recoveryPass bf belongs counts conv =
      (List.range bf).foldl (recoveryStep bf) (belongs, counts, conv) := rfl

theorem recoveryPass_inv (bf n : ℕ) (belongs counts : List ℕ) (conv : Bool)
    (h1 : belongs.length = n) (h2 : ∀ b ∈ belongs, b < bf)
    (h3 : counts.length = bf) :
    (recoveryPass bf belongs counts conv).1.length = n ∧
    (∀ b ∈ (recoveryPass bf belongs counts conv).1, b < bf) ∧
    (recoveryPass bf belongs counts conv).2.1.length = bf := by
  rw [recoveryPass_eq]
  refine foldl_inv (fun st : List ℕ × List ℕ × Bool =>
    st.1.length = n ∧ (∀ b ∈ st.1, b < bf) ∧ st.2.1.length = bf)
    (recoveryStep bf) (List.range bf) (belongs, counts, conv)
    ⟨h1, h2, h3⟩ ?_
  intro st2 i hi hst
  obtain ⟨l1, l2, l3⟩ := hst
  have hi2 : i < bf := List.mem_range.mp hi
  rw [recoveryStep]
  split
  · split
    · refine ⟨?_, ?_, ?_⟩
      · show (moveOneMember st2.1 _ i).length = n
        rw [moveOneMember_length]
        exact l1
      · exact moveOneMember_mem hi2 l2
      · show ((st2.2.1.set _ _).set i _).length = bf
        rw [List.length_set, List.length_set]
        exact l3
    · exact ⟨l1, l2, l3⟩
  · exact ⟨l1, l2, l3⟩

theorem refineIter_inv (ds : Dataset) (dim : ℕ) (bf : ℕ) (pts : List ℕ)
    (hbf : 0 < bf) (st : RefineState)
    (h1 : st.belongs.length = pts.length)
    (h2 : ∀ b ∈ st.belongs, b < bf)
    (h3 : st.counts.length = bf) :
    (refineIter ds dim bf pts st).belongs.length = pts.length ∧
    (∀ b ∈ (refineIter ds dim bf pts st).belongs, b < bf) ∧
    (refineIter ds dim bf pts st).counts.length = bf := by
  have hc2len : (recomputeCenters ds bf pts st.belongs st.counts).length =
      bf := by
    rw [recomputeCenters, List.length_map, List.length_range]
  have hc2ne : recomputeCenters ds bf pts st.belongs st.counts ≠ [] := by
    intro hnil
    rw [hnil, List.length_nil] at hc2len
    omega
  have hpass := reassignFold_inv ds dim
    (recomputeCenters ds bf pts st.belongs st.counts) bf hc2ne hc2len
    (pts.zip st.belongs) ⟨⟨[], st.counts, List.replicate bf 0⟩, true⟩
    (fun b hb => absurd hb (List.not_mem_nil b)) h3
  rw [← reassignPass_eq] at hpass
  have hplen : (reassignPass ds dim
      (recomputeCenters ds bf pts st.belongs st.counts) pts st.belongs
      st.counts (List.replicate bf 0)).1.belongs.length = pts.length := by
    have h := hpass.1
    rw [List.length_zip, h1] at h
    simpa using h
  have hrec := recoveryPass_inv bf pts.length
    (reassignPass ds dim (recomputeCenters ds bf pts st.belongs st.counts)
      pts st.belongs st.counts (List.replicate bf 0)).1.belongs
    (reassignPass ds dim (recomputeCenters ds bf pts st.belongs st.counts)
      pts st.belongs st.counts (List.replicate bf 0)).1.counts
    (reassignPass ds dim (recomputeCenters ds bf pts st.belongs st.counts)
      pts st.belongs st.counts (List.replicate bf 0)).2
    hplen hpass.2.1 hpass.2.2
  exact ⟨hrec.1, hrec.2.1, hrec.2.2⟩

theorem refineLoop_inv (ds : Dataset) (dim : ℕ) (bf iters : ℕ)
    (pts : List ℕ) (hbf : 0 < bf) :
    ∀ (fuel : ℕ) (st : RefineState),
      st.belongs.length = pts.length → (∀ b ∈ st.belongs, b < bf) →
      st.counts.length = bf →
      (refineLoop ds dim bf iters pts fuel st).belongs.length = pts.length ∧
      (∀ b ∈ (refineLoop ds dim bf iters pts fuel st).belongs, b < bf) ∧
      (refineLoop ds dim bf iters pts fuel st).counts.length = bf
  | 0, st, h1, h2, h3 => ⟨h1, h2, h3⟩
  | fuel + 1, st, h1, h2, h3 => by
    rw [refineLoop]
    by_cases hcond : st.converged = false ∧ st.iteration < iters
    · rw [if_pos hcond]
      have hit := refineIter_inv ds dim bf pts hbf st h1 h2 h3
      exact refineLoop_inv ds dim bf iters pts hbf fuel _ hit.1 hit.2.1
        hit.2.2
    · rw [if_neg hcond]
      exact ⟨h1, h2, h3⟩

theorem chooseRandomGo_len (ds : Dataset) (dim : ℕ) (idxs : List ℕ)
    (k : ℕ) :
    ∀ (rnds acc : List ℕ), acc.length ≤ k →
      (chooseRandomGo ds dim idxs k rnds acc).length ≤ k
  | [], acc, h => h
  | rnd :: rest, acc, h => by
    rw [chooseRandomGo]
    split
    · exact h
    · dsimp only
      split
      · exact chooseRandomGo_len ds dim idxs k rest acc h
      · refine chooseRandomGo_len ds dim idxs k rest _ ?_
        rw [List.length_append]
        simp
        omega

theorem gonzalesGo_len (ds : Dataset) (dim : ℕ) (idxs : List ℕ) :
    ∀ (m : ℕ) (acc : List ℕ),
      (gonzalesGo ds dim idxs m acc).length ≤ acc.length + m
  | 0, acc => le_refl _
  | m + 1, acc => by
    rw [gonzalesGo]
    rcases hp : gonzalesPick ds dim idxs acc with _ | j
    · show acc.length ≤ acc.length + (m + 1)
      omega
    · show (gonzalesGo ds dim idxs m (acc ++ [j])).length ≤
        acc.length + (m + 1)
      have h := gonzalesGo_len ds dim idxs m (acc ++ [j])
      rw [List.length_append] at h
      refine le_trans h ?_
      simp
      omega

theorem kppGo_len (ds : Dataset) (dim : ℕ) (idxs : List ℕ) (rng : Rng) :
    ∀ (m : ℕ) (acc : List ℕ) (closest : List ℚ) (pot : ℚ) (ctr : ℕ),
      (kppGo ds dim idxs rng m acc closest pot ctr).1.length ≤
        acc.length + m
  | 0, acc, _, _, _ => le_refl _
  | m + 1, acc, closest, pot, ctr => by
    rw [kppGo]
    refine le_trans (kppGo_len ds dim idxs rng m _ _ _ _) ?_
    rw [List.length_append]
    simp
    omega

theorem chooseCenters_len (ci : CentersInit) (ds : Dataset) (dim : ℕ)
    (idxs : List ℕ) (k : ℕ) (rng : Rng) (ctr : ℕ) (hk : 1 ≤ k) :
    (chooseCenters ci ds dim idxs k rng ctr).1.length ≤ k := by
  cases ci with
  | random => exact chooseRandomGo_len ds dim idxs k _ [] (by simp)
  | gonzales =>
    have h := gonzalesGo_len ds dim idxs (k - 1)
      [idxs.getD (rng.intAt ctr idxs.length) 0]
    rw [List.length_singleton] at h
    exact le_trans h (by omega)
  | kmeanspp =>
    have h := kppGo_len ds dim idxs rng (k - 1)
      [idxs.getD (rng.intAt ctr idxs.length) 0]
      (idxs.map fun i => sqDist dim (dsGet ds i)
        (dsGet ds (idxs.getD (rng.intAt ctr idxs.length) 0)))
      (idxs.map fun i => sqDist dim (dsGet ds i)
        (dsGet ds (idxs.getD (rng.intAt ctr idxs.length) 0))).sum (ctr + 1)
    rw [List.length_singleton] at h
    exact le_trans h (by omega)

theorem list_range_map_sum (n : ℕ) (f : ℕ → ℕ) :
    ((List.range n).map f).sum = ∑ c in Finset.range n, f c := rfl

theorem buildChildren_spec (bf : ℕ)
    (f : ℕ → Vec × ℚ × ℚ → List ℕ → Option (KMeansNode × ℕ))
    (hf : ∀ (c : ℕ) (stats : Vec × ℚ × ℚ) (pts2 : List ℕ)
      (child : KMeansNode) (c2 : ℕ), f c stats pts2 = some (child, c2) →
      builtOk bf child = true ∧ child.size = pts2.length) :
    ∀ (specs : List ((Vec × ℚ × ℚ) × List ℕ)) (ctr : ℕ)
      (childs : List KMeansNode) (ctr3 : ℕ),
      buildChildren f specs ctr = some (childs, ctr3) →
      childs.length = specs.length ∧ builtOkL bf childs = true ∧
      sizeSumL childs = (specs.map fun sp => sp.2.length).sum
  | [], ctr, childs, ctr3 => by
    intro h
    rw [buildChildren] at h
    injection h with h2
    have hc : ([] : List KMeansNode) = childs := congrArg Prod.fst h2
    subst hc
    exact ⟨rfl, rfl, rfl⟩
  | spec :: rest, ctr, childs, ctr3 => by
    intro h
    rw [buildChildren] at h
    rcases hc : f ctr spec.1 spec.2 with _ | ⟨child, ctr2⟩
    · rw [hc] at h
      cases h
    · rw [hc] at h
      dsimp only at h
      rcases hb : buildChildren f rest ctr2 with _ | ⟨childs2, ctrx⟩
      · rw [hb] at h
        cases h
      · rw [hb] at h
        dsimp only at h
        injection h with h2
        have hcc : child :: childs2 = childs := congrArg Prod.fst h2
        subst hcc
        obtain ⟨hl, hok, hsum⟩ :=
          buildChildren_spec bf f hf rest ctr2 childs2 ctrx hb
        obtain ⟨hok1, hsz1⟩ := hf ctr spec.1 spec.2 child ctr2 hc
        refine ⟨by simp [hl], ?_, ?_⟩
        · rw [builtOkL, Bool.and_eq_true]
          exact ⟨hok1, hok⟩
        · rw [sizeSumL, List.map_cons, List.sum_cons, hsz1, hsum]

/-- The seeded center rows of a subdivision step (named for the C8/C6
proofs; by `computeClustering_subdiv` this is the `dcenters0` of the
source). -/
def clusterCenters0 (ds : Dataset) (dim : ℕ) (bf : ℕ) (ci : CentersInit)
    (rng : Rng) (ctr : ℕ) (pts : List ℕ) : List Vec :=
  (chooseCenters ci ds dim pts bf rng ctr).1.map (dsGet ds)

/-- The refined clustering state of a subdivision step (the `stf` of the
source, by `computeClustering_subdiv`). -/
def clusterState (ds : Dataset) (dim : ℕ) (bf iters : ℕ) (ci : CentersInit)
    (rng : Rng) (ctr : ℕ) (pts : List ℕ) : RefineState :=
  refineLoop ds dim bf iters pts iters
    ⟨clusterCenters0 ds dim bf ci rng ctr pts,
     (initAssign ds dim (clusterCenters0 ds dim bf ci rng ctr pts) bf
       pts).belongs,
     (initAssign ds dim (clusterCenters0 ds dim bf ci rng ctr pts) bf
       pts).counts,
     (initAssign ds dim (clusterCenters0 ds dim bf ci rng ctr pts) bf
       pts).radiuses,
     false, 0⟩

/-- The per-child (statistics, member set) specifications of a subdivision
step (the `specs` of the source, by `computeClustering_subdiv`). -/
def clusterSpecs (ds : Dataset) (dim : ℕ) (bf iters : ℕ) (ci : CentersInit)
    (rng : Rng) (ctr : ℕ) (pts : List ℕ) :
    List ((Vec × ℚ × ℚ) × List ℕ) :=
  (List.range bf).map fun c =>
    (((clusterState ds dim bf iters ci rng ctr pts).centers.getD c
        (fun _ => 0),
      (clusterState ds dim bf iters ci rng ctr pts).radiuses.getD c 0,
      ((((pts.zip (clusterState ds dim bf iters ci rng ctr
            pts).belongs).filter fun p => p.2 = c).map fun p => p.1).map
          fun i => sqDist dim ((clusterState ds dim bf iters ci rng ctr
            pts).centers.getD c (fun _ => 0)) (dsGet ds i)).sum /
        ((clusterState ds dim bf iters ci rng ctr pts).counts.getD c 0 : ℚ)),
     ((pts.zip (clusterState ds dim bf iters ci rng ctr
        pts).belongs).filter fun p => p.2 = c).map fun p => p.1)

/-- Named form of the subdivision branch of `computeClustering`. -/
theorem computeClustering_subdiv (ds : Dataset) (dim : ℕ) (bf iters : ℕ)
    (ci : CentersInit) (rng : Rng) (fuel ctr : ℕ) (stats : Vec × ℚ × ℚ)
    (pts : List ℕ) (level : ℕ)
    (h1 : ¬ pts.length < bf)
    (h2 : ¬ (chooseCenters ci ds dim pts bf rng ctr).1.length < bf) :
    computeClustering ds dim bf iters ci rng (fuel + 1) ctr stats pts level =
      (match buildChildren (fun c2 stats2 pts2 =>
          computeClustering ds dim bf iters ci rng fuel c2 stats2 pts2
            (level + 1))
        (clusterSpecs ds dim bf iters ci rng ctr pts)
        (chooseCenters ci ds dim pts bf rng ctr).2 with
      | none => none
      | some (childs, ctr3) =>
        some (KMeansNode.mk stats.1 stats.2.1 stats.2.2 pts.length childs []
          level, ctr3)) := by
  rw [computeClustering, if_neg h1]
  dsimp only
  rw [if_neg h2]
  rfl

theorem clusterSpecs_sizes (ds : Dataset) (dim : ℕ) (bf iters : ℕ)
    (ci : CentersInit) (rng : Rng) (ctr : ℕ) (pts : List ℕ) :
    ((clusterSpecs ds dim bf iters ci rng ctr pts).map
      fun sp => sp.2.length) =
    (List.range bf).map fun c =>
      ((pts.zip (clusterState ds dim bf iters ci rng ctr
        pts).belongs).filter fun p => p.2 = c).length := by
  rw [clusterSpecs, List.map_map]
  refine List.map_congr_left ?_
  intro c _
  simp [List.length_map]

theorem clusterState_inv (ds : Dataset) (dim : ℕ) (bf iters : ℕ)
    (ci : CentersInit) (rng : Rng) (ctr : ℕ) (pts : List ℕ)
    (hbf : 1 ≤ bf)
    (hlen : (chooseCenters ci ds dim pts bf rng ctr).1.length = bf) :
    (clusterState ds dim bf iters ci rng ctr pts).belongs.length =
      pts.length ∧
    ∀ b ∈ (clusterState ds dim bf iters ci rng ctr pts).belongs, b < bf := by
  have hclen : (clusterCenters0 ds dim bf ci rng ctr pts).length = bf := by
    rw [clusterCenters0, List.length_map]
    exact hlen
  have hcne : clusterCenters0 ds dim bf ci rng ctr pts ≠ [] := by
    intro hnil
    rw [hnil, List.length_nil] at hclen
    omega
  have hasg := initFold_inv ds dim (clusterCenters0 ds dim bf ci rng ctr pts)
    bf hcne hclen pts ⟨[], List.replicate bf 0, List.replicate bf 0⟩
    (fun b hb => absurd hb (List.not_mem_nil b)) (by simp)
  rw [← initAssign_eq] at hasg
  have hloop := refineLoop_inv ds dim bf iters pts (by omega) iters
    ⟨clusterCenters0 ds dim bf ci rng ctr pts,
     (initAssign ds dim (clusterCenters0 ds dim bf ci rng ctr pts) bf
       pts).belongs,
     (initAssign ds dim (clusterCenters0 ds dim bf ci rng ctr pts) bf
       pts).counts,
     (initAssign ds dim (clusterCenters0 ds dim bf ci rng ctr pts) bf
       pts).radiuses,
     false, 0⟩ (by simpa using hasg.1) hasg.2.1 hasg.2.2
  exact ⟨hloop.1, hloop.2.1⟩

/-- After a successful clustering call, the tree satisfies the post-build
structural invariant and the node size is the number of points. -/
theorem computeClustering_builtOk (ds : Dataset) (dim : ℕ) (bf iters : ℕ)
    (ci : CentersInit) (rng : Rng) (hbf : 1 ≤ bf) :
    ∀ (fuel : ℕ) (ctr : ℕ) (stats : Vec × ℚ × ℚ) (pts : List ℕ)
      (level : ℕ) (t : KMeansNode) (ctr2 : ℕ),
      computeClustering ds dim bf iters ci rng fuel ctr stats pts level =
        some (t, ctr2) →
      builtOk bf t = true ∧ t.size = pts.length := by
  intro fuel
  induction fuel with
  | zero =>
    intro ctr stats pts level t ctr2 h
    simp [computeClustering] at h
  | succ fuel ih =>
    intro ctr stats pts level t ctr2 h
    by_cases h1 : pts.length < bf
    · rw [computeClustering, if_pos h1] at h
      injection h with h2
      have ht : KMeansNode.mk stats.1 stats.2.1 stats.2.2 pts.length []
          (pts.insertionSort (· ≤ ·)) level = t := congrArg Prod.fst h2
      subst ht
      exact ⟨builtOk_leaf bf stats pts level, rfl⟩
    · by_cases h2c : (chooseCenters ci ds dim pts bf rng ctr).1.length < bf
      · rw [computeClustering, if_neg h1] at h
        dsimp only at h
        rw [if_pos h2c] at h
        injection h with h2
        have ht : KMeansNode.mk stats.1 stats.2.1 stats.2.2 pts.length []
            (pts.insertionSort (· ≤ ·)) level = t := congrArg Prod.fst h2
        subst ht
        exact ⟨builtOk_leaf bf stats pts level, rfl⟩
      · rw [computeClustering_subdiv ds dim bf iters ci rng fuel ctr stats
          pts level h1 h2c] at h
        rcases hbc : buildChildren (fun c2 stats2 pts2 =>
            computeClustering ds dim bf iters ci rng fuel c2 stats2 pts2
              (level + 1))
            (clusterSpecs ds dim bf iters ci rng ctr pts)
            (chooseCenters ci ds dim pts bf rng ctr).2 with _ | ⟨childs, ctr3⟩
        · rw [hbc] at h
          cases h
        · rw [hbc] at h
          dsimp only at h
          injection h with h2
          have ht : KMeansNode.mk stats.1 stats.2.1 stats.2.2 pts.length
              childs [] level = t := congrArg Prod.fst h2
          subst ht
          refine ⟨?_, rfl⟩
          obtain ⟨hlen, hokL, hsum⟩ := buildChildren_spec bf _
            (fun c stats2 pts2 child c2 hcc =>
              ih c stats2 pts2 (level + 1) child c2 hcc)
            (clusterSpecs ds dim bf iters ci rng ctr pts) _ childs ctr3 hbc
          have hslen : (chooseCenters ci ds dim pts bf rng ctr).1.length =
              bf := le_antisymm
            (chooseCenters_len ci ds dim pts bf rng ctr hbf)
            (not_lt.mp h2c)
          have hst := clusterState_inv ds dim bf iters ci rng ctr pts hbf
            hslen
          have hspecl : (clusterSpecs ds dim bf iters ci rng ctr
              pts).length = bf := by
            rw [clusterSpecs, List.length_map, List.length_range]
          have hsum2 : sizeSumL childs = pts.length := by
            rw [hsum, clusterSpecs_sizes, list_range_map_sum]
            rw [filter_partition_sum
              (pts.zip (clusterState ds dim bf iters ci rng ctr pts).belongs)
              bf (fun p hp => hst.2 p.2 (List.of_mem_zip hp).2)]
            rw [List.length_zip, hst.1, Nat.min_self]
          rw [hspecl] at hlen
          cases childs with
          | nil =>
            rw [List.length_nil] at hlen
            omega
          | cons c cs =>
            rw [builtOk, Bool.and_eq_true, Bool.and_eq_true, beq_iff_eq,
              beq_iff_eq]
            exact ⟨⟨hlen, hsum2.symm⟩, hokL⟩

/-- C8 (amended): after a successful build the tree satisfies the
structural invariant `builtOk`: every internal node has exactly
`branching` children with its size the sum of the children's sizes, and
every terminal node stores `size = |indices|` with sorted indices; the
root size is the dataset size.  (The claim's bound `|indices| < branching`
for terminal nodes fails on seeding degradation, see the
counterexample.) -/
theorem C8_build_invariants_amended :
    ∀ (st st2 : KMIndex) (root : KMeansNode),
      KMIndex.build st = some st2 → st2.root = some root →
      builtOk st.branching.toNat root = true ∧
      root.size = st.dataset.length := by
  intro st st2 root hb hroot
  rw [KMIndex.build] at hb
  rcases hbi : buildIndex st.dataset st.dim st.branching st.iterations
      st.centersInit st.rng st.ctr with _ | ⟨root1, ctr1⟩
  · rw [hbi] at hb
    cases hb
  · rw [hbi] at hb
    dsimp only at hb
    injection hb with h2
    have hr : some root1 = some root := by
      rw [← h2] at hroot
      exact hroot
    injection hr with hr2
    subst hr2
    rw [buildIndex] at hbi
    by_cases hblt : st.branching < 2
    · rw [if_pos hblt] at hbi
      cases hbi
    · rw [if_neg hblt] at hbi
      have hbf : 1 ≤ st.branching.toNat := by omega
      obtain ⟨hok, hsz⟩ := computeClustering_builtOk st.dataset st.dim
        st.branching.toNat st.iterations st.centersInit st.rng hbf
        (st.dataset.length + 1) st.ctr _ _ 0 root1 ctr1 hbi
      exact ⟨hok, by rw [hsz, List.length_range]⟩

/-- Two coincident points: the RANDOM seeder rejects the duplicate. -/
def dsDup2 : Dataset := [cVec 0, cVec 0]

/-- The root leaf `buildIndex` produces on `dsDup2` with branching 2:
seeding degradation keeps ALL `2 ≥ branching` indices in one leaf. -/
def leafDup2 : KMeansNode := KMeansNode.mk (cVec 0) 0 0 2 [] [0, 1] 0

/-- The built index over `dsDup2`. -/
def idxDup2 : KMIndex :=
  { dataset := dsDup2, dim := 1, branching := 2, iterations := 11
    centersInit := CentersInit.random, cbIndex := 2 / 5, sizeAtBuild := 2
    root := some leafDup2, rng := idRng, ctr := 1 }

theorem statsDup2 :
    computeNodeStatistics dsDup2 1 [0, 1] = (cVec 0, 0, 0) := by
  refine Prod.ext ?_ (Prod.ext ?_ ?_)
  · funext j
    show ((([0, 1] : List ℕ).map fun i => dsGet dsDup2 i j).sum /
      ((([0, 1] : List ℕ).length : ℕ) : ℚ)) = cVec 0 j
    norm_num [dsDup2, dsGet, cVec]
  · norm_num [computeNodeStatistics, dsDup2, dsGet, cVec, sqDist,
      Finset.sum_range_one]
  · norm_num [computeNodeStatistics, dsDup2, dsGet, cVec, sqDist,
      Finset.sum_range_one]

/-- On the two coincident points the RANDOM seeder returns a single
center: the second candidate is within `1e-16` of the first and is
rejected. -/
theorem dup2_seeder :
    chooseCenters CentersInit.random dsDup2 1 [0, 1] 2 idRng 0 =
      ([0], 1) := by
  show (chooseRandomGo dsDup2 1 [0, 1] 2 (idRng.permAt 0 2) [], 0 + 1) =
    ([0], 1)
  rw [show idRng.permAt 0 2 = [0, 1] from rfl]
  rw [chooseRandomGo]
  rw [if_neg (by norm_num)]
  dsimp only
  rw [if_neg (by simp)]
  rw [show ([] : List ℕ) ++ [([0, 1] : List ℕ).getD 0 0] = [0] from rfl]
  rw [chooseRandomGo]
  rw [if_neg (by norm_num)]
  dsimp only
  rw [if_pos (by
    norm_num [dsDup2, dsGet, cVec, sqDist, Finset.sum_range_one,
      dupThreshold, List.getD_cons_succ, List.getD_cons_zero])]
  rw [chooseRandomGo]

theorem dup2_build :
    buildIndex dsDup2 1 2 11 CentersInit.random idRng 0 =
      some (leafDup2, 1) := by
  rw [buildIndex, if_neg (by norm_num)]
  show computeClustering dsDup2 1 2 11 CentersInit.random idRng 3 0 _ _ 0 = _
  rw [computeClustering]
  rw [if_neg (by norm_num [dsDup2, List.length_range])]
  dsimp only
  rw [show List.range dsDup2.length = [0, 1] from rfl]
  rw [dup2_seeder]
  rw [if_pos (by norm_num)]
  rw [statsDup2]
  rfl

/-- `idxDup2` is reachable by construction followed by build. -/
theorem idxDup2_reachable :
    (mkIndex dsDup2 1 ⟨some 2, none, none, none⟩ idRng).build =
      some idxDup2 := by
  show KMIndex.build _ = _
  rw [KMIndex.build]
  show (match buildIndex dsDup2 1 2 11 CentersInit.random idRng 0 with
    | none => none
    | some (root, ctr2) =>
      some { dataset := dsDup2, dim := 1, branching := 2, iterations := 11,
             centersInit := CentersInit.random, cbIndex := 2 / 5,
             sizeAtBuild := dsDup2.length, root := some root, rng := idRng,
             ctr := ctr2 }) = some idxDup2
  rw [dup2_build]
  rfl

/-- C8: counterexample.  Building on two coincident points with
branching 2 degrades the seeder to one center, so the root is a terminal
node holding BOTH indices: its index count 2 is not `< branching = 2`. -/
theorem C8_counterexample :
    (mkIndex dsDup2 1 ⟨some 2, none, none, none⟩ idRng).build =
      some idxDup2 ∧
    idxDup2.root = some leafDup2 ∧ leafDup2.childs = [] ∧
    ¬ (leafDup2.indices.length < 2) := by
  refine ⟨idxDup2_reachable, rfl, rfl, ?_⟩
  show ¬ (([0, 1] : List ℕ).length < 2)
  norm_num

/-- Witness for C8 (amended) at the concrete degenerate build. -/
theorem C8_build_invariants_amended_witness :
    KMIndex.build (mkIndex dsDup2 1 ⟨some 2, none, none, none⟩ idRng) =
      some idxDup2 ∧
    idxDup2.root = some leafDup2 ∧
    (builtOk 2 leafDup2 = true ∧ leafDup2.size = dsDup2.length) := by
  refine ⟨idxDup2_reachable, rfl, ?_⟩
  exact C8_build_invariants_amended
    (mkIndex dsDup2 1 ⟨some 2, none, none, none⟩ idRng) idxDup2 leafDup2
    idxDup2_reachable rfl

/-! ### Claim C6 -/

/-- Count change under a positional overwrite. -/
theorem count_set_add :
    ∀ (l : List ℕ) (k : ℕ) (v c : ℕ), k < l.length →
      (l.set k v).count c + (if l.getD k 0 = c then 1 else 0) =
        l.count c + (if v = c then 1 else 0)
  | [], k, v, c, h => by simp at h
  | b :: l, 0, v, c, _ => by
    simp only [List.set_cons_zero, List.getD_cons_zero, List.count_cons]
    by_cases hv : v = c <;> by_cases hb : b = c <;>
      simp [hv, hb, beq_iff_eq] <;> omega
  | b :: l, k + 1, v, c, h => by
    simp only [List.set_cons_succ, List.getD_cons_succ, List.count_cons]
    have h2 := count_set_add l k v c (by simpa using h)
    by_cases hv : v = c <;> by_cases hb : c = b <;>
      simp [hv, hb, beq_iff_eq] at h2 ⊢ <;> omega

/-- Sum of per-cluster counts of an in-range assignment list. -/
theorem count_partition_sum :
    ∀ (l : List ℕ) (bf : ℕ), (∀ b ∈ l, b < bf) →
      (∑ c in Finset.range bf, l.count c) = l.length
  | [], bf, _ => by simp
  | b :: l, bf, h => by
    have hrec := count_partition_sum l bf
      (fun q hq => h q (List.mem_cons_of_mem b hq))
    calc (∑ c in Finset.range bf, (b :: l).count c)
        = ∑ c in Finset.range bf, (l.count c + if c = b then 1 else 0) := by
          refine Finset.sum_congr rfl (fun c _ => ?_)
          by_cases hb : c = b <;> simp [List.count_cons, hb, beq_iff_eq]
      _ = (∑ c in Finset.range bf, l.count c) +
            ∑ c in Finset.range bf, (if c = b then 1 else 0) :=
          Finset.sum_add_distrib
      _ = l.length + 1 := by
          rw [hrec, Finset.sum_ite_eq',
            if_pos (Finset.mem_range.mpr (h b (List.mem_cons_self b l)))]
      _ = (b :: l).length := by simp

/-- Pigeonhole: with `bf ≤ n` points distributed over `bf` counters and one
counter empty, some counter holds more than one point. -/
theorem counts_exists_gt_one (bf n : ℕ) (counts : List ℕ)
    (hsum : (∑ c in Finset.range bf, counts.getD c 0) = n)
    (hn : bf ≤ n) (i : ℕ) (hi : i < bf) (hz : counts.getD i 0 = 0) :
    ∃ j, j < bf ∧ 1 < counts.getD j 0 := by
  by_contra hno
  push_neg at hno
  have hmem : i ∈ Finset.range bf := Finset.mem_range.mpr hi
  have h1 : (∑ c in (Finset.range bf).erase i, counts.getD c 0) +
      counts.getD i 0 = n := by
    rw [Finset.sum_erase_add _ _ hmem, hsum]
  rw [hz, Nat.add_zero] at h1
  have h2 : (∑ c in (Finset.range bf).erase i, counts.getD c 0) ≤
      ((Finset.range bf).erase i).card * 1 := by
    have := Finset.sum_le_card_nsmul ((Finset.range bf).erase i)
      (fun c => counts.getD c 0) 1
      (fun c hc => hno c (Finset.mem_range.mp (Finset.mem_of_mem_erase hc)))
    simpa using this
  rw [Finset.card_erase_of_mem hmem, Finset.card_range] at h2
  omega

/-- The cyclic search list covers every cluster index. -/
theorem cyclic_mem (bf i j : ℕ) (hbf : 0 < bf) (hj : j < bf) :
    j ∈ (List.range bf).map fun t => (i + 1 + t) % bf := by
  refine List.mem_map.mpr ⟨(j + bf - (i + 1) % bf) % bf,
    List.mem_range.mpr (Nat.mod_lt _ hbf), ?_⟩
  rw [Nat.add_mod (i + 1)]
  rw [Nat.mod_mod_of_dvd _ dvd_rfl]
  rw [← Nat.add_mod]
  have h3 : i + 1 + (j + bf - (i + 1) % bf) =
      j + (bf * ((i + 1) / bf) + bf) := by
    have := Nat.div_add_mod (i + 1) bf
    have := Nat.mod_lt (i + 1) hbf
    omega
  rw [h3, ← Nat.mul_succ, Nat.add_mul_mod_self_left]
  exact Nat.mod_eq_of_lt hj

/-- If some cluster holds more than one point, the cyclic donor search
succeeds and returns such a cluster. -/
theorem cyclicFindGT1_spec (counts : List ℕ) (bf i : ℕ) (hbf : 0 < bf)
    (hex : ∃ j, j < bf ∧ 1 < counts.getD j 0) :
    ∃ j, cyclicFindGT1 counts bf i = some j ∧ j < bf ∧
      1 < counts.getD j 0 := by
  obtain ⟨j0, hj0, hgt⟩ := hex
  rcases hf : cyclicFindGT1 counts bf i with _ | j
  · rw [cyclicFindGT1] at hf
    have h2 := List.find?_eq_none.mp hf j0 (cyclic_mem bf i j0 hbf hj0)
    exact absurd hgt (by simpa using h2)
  · refine ⟨j, rfl, ?_, ?_⟩
    · rw [cyclicFindGT1] at hf
      have hmem := List.mem_of_find?_eq_some hf
      obtain ⟨t, _, ht⟩ := List.mem_map.mp hmem
      rw [← ht]
      exact Nat.mod_lt _ hbf
    · rw [cyclicFindGT1] at hf
      have := List.find?_some hf
      simpa using this

/-- Joint invariant of the recovery fold: in-range assignments of the
right length, and counters that agree with the per-cluster counts of the
assignment list. -/
def RecInv (bf n : ℕ) (st : List ℕ × List ℕ × Bool) : Prop :=
  st.1.length = n ∧ (∀ b ∈ st.1, b < bf) ∧ st.2.1.length = bf ∧
  (∀ c, c < bf → st.2.1.getD c 0 = st.1.count c)

theorem recInv_sum {bf n : ℕ} {st : List ℕ × List ℕ × Bool}
    (h : RecInv bf n st) :
    (∑ c in Finset.range bf, st.2.1.getD c 0) = n := by
  obtain ⟨h1, h2, h3, h4⟩ := h
  calc (∑ c in Finset.range bf, st.2.1.getD c 0)
      = ∑ c in Finset.range bf, st.1.count c :=
        Finset.sum_congr rfl (fun c hc => h4 c (Finset.mem_range.mp hc))
    _ = st.1.length := count_partition_sum st.1 bf h2
    _ = n := h1

/-- One recovery step: the invariant is preserved, the processed cluster
ends nonempty, and no nonempty cluster is emptied. -/
theorem recoveryStep_spec (bf n : ℕ) (hbf : 0 < bf) (hn : bf ≤ n)
    (st : List ℕ × List ℕ × Bool) (i : ℕ) (hi : i < bf)
    (hinv : RecInv bf n st) :
    RecInv bf n (recoveryStep bf st i) ∧
    1 ≤ (recoveryStep bf st i).2.1.getD i 0 ∧
    (∀ i2, i2 < bf → 1 ≤ st.2.1.getD i2 0 →
      1 ≤ (recoveryStep bf st i).2.1.getD i2 0) := by
  obtain ⟨l1, l2, l3, l4⟩ := hinv
  rw [recoveryStep]
  by_cases hz : st.2.1.getD i 0 = 0
  · rw [if_pos hz]
    obtain ⟨j, hfind, hj, hgt⟩ := cyclicFindGT1_spec st.2.1 bf i hbf
      (counts_exists_gt_one bf n st.2.1 (recInv_sum ⟨l1, l2, l3, l4⟩) hn i
        hi hz)
    rw [hfind]
    have hji : j ≠ i := by
      intro hc
      rw [hc] at hgt
      omega
    have hcj : st.1.count j = st.2.1.getD j 0 := (l4 j hj).symm
    have hjmem : j ∈ st.1 := by
      refine List.count_pos_iff.mp ?_
      omega
    have hcnti : st.1.count i = 0 := by
      have := l4 i hi
      omega
    rcases hidx : st.1.findIdx? (fun b => b = j) with _ | k
    · exfalso
      have h2 := List.findIdx?_eq_none_iff.mp hidx j hjmem
      simp at h2
    · obtain ⟨hk, hp, _⟩ := List.findIdx?_eq_some_iff_getElem.mp hidx
      have hkj : st.1.getD k 0 = j := by
        rw [List.getD_eq_getElem _ _ hk]
        simpa using hp
      have hmove : moveOneMember st.1 j i = st.1.set k i := by
        rw [moveOneMember, hidx]
      -- counters after the move
      have hgetd : ∀ c, c < bf →
          ((st.2.1.set j (st.2.1.getD j 0 - 1)).set i
            ((st.2.1.set j (st.2.1.getD j 0 - 1)).getD i 0 + 1)).getD c 0 =
          if c = i then 1 else if c = j then st.2.1.getD j 0 - 1
            else st.2.1.getD c 0 := by
        intro c hc
        by_cases hci : c = i
        · rw [hci]
          rw [getD_set_self (by rw [List.length_set]; omega)]
          rw [getD_set_ne hji, if_pos rfl, hz]
        · rw [getD_set_ne (show i ≠ c from fun h => hci h.symm), if_neg hci]
          by_cases hcj2 : c = j
          · rw [hcj2]
            rw [getD_set_self (by omega), if_pos rfl]
          · rw [getD_set_ne (show j ≠ c from fun h => hcj2 h.symm),
              if_neg hcj2]
      refine ⟨⟨?_, ?_, ?_, ?_⟩, ?_, ?_⟩
      · show (moveOneMember st.1 j i).length = n
        rw [moveOneMember_length]
        exact l1
      · exact moveOneMember_mem hi l2
      · show ((st.2.1.set _ _).set i _).length = bf
        rw [List.length_set, List.length_set]
        exact l3
      · intro c hc
        show ((st.2.1.set _ _).set i _).getD c 0 =
          (moveOneMember st.1 j i).count c
        rw [hgetd c hc, hmove]
        by_cases hci : c = i
        · rw [hci, if_pos rfl]
          have h5 := count_set_add st.1 k i i hk
          rw [hkj, if_neg hji, if_pos rfl] at h5
          omega
        · rw [if_neg hci]
          have h5 := count_set_add st.1 k i c hk
          rw [hkj] at h5
          rw [if_neg (show ¬ (i = c) from fun h => hci h.symm)] at h5
          by_cases hcj2 : c = j
          · rw [if_pos hcj2, hcj2]
            rw [hcj2] at h5
            rw [if_pos rfl] at h5
            omega
          · rw [if_neg hcj2]
            rw [if_neg (show ¬ (j = c) from fun h => hcj2 h.symm)] at h5
            have := l4 c hc
            omega
      · rw [hgetd i hi, if_pos rfl]
      · intro i2 hi2 hpos
        rw [hgetd i2 hi2]
        by_cases h1 : i2 = i
        · rw [if_pos h1]
        · rw [if_neg h1]
          by_cases h2 : i2 = j
          · rw [if_pos h2]
            omega
          · rw [if_neg h2]
            exact hpos
  · rw [if_neg hz]
    exact ⟨⟨l1, l2, l3, l4⟩, by omega, fun i2 _ h => h⟩

/-- The recovery fold preserves the invariant and leaves every processed
cluster (and every already nonempty cluster) nonempty. -/
theorem recoveryFold_ge1 (bf n : ℕ) (hbf : 0 < bf) (hn : bf ≤ n) :
    ∀ (l : List ℕ) (st : List ℕ × List ℕ × Bool),
      RecInv bf n st → (∀ i ∈ l, i < bf) →
      RecInv bf n (l.foldl (recoveryStep bf) st) ∧
      ∀ i, i < bf → (1 ≤ st.2.1.getD i 0 ∨ i ∈ l) →
        1 ≤ (l.foldl (recoveryStep bf) st).2.1.getD i 0
  | [], st, hinv, _ => by
    refine ⟨hinv, ?_⟩
    intro i hi hcase
    rcases hcase with h | h
    · exact h
    · cases h
  | i0 :: l, st, hinv, hl => by
    rw [List.foldl_cons]
    have hi0 : i0 < bf := hl i0 (List.mem_cons_self i0 l)
    obtain ⟨hinv2, hproc, hkeep⟩ := recoveryStep_spec bf n hbf hn st i0 hi0
      hinv
    obtain ⟨hinv3, hge⟩ := recoveryFold_ge1 bf n hbf hn l
      (recoveryStep bf st i0) hinv2
      (fun i hi => hl i (List.mem_cons_of_mem i0 hi))
    refine ⟨hinv3, ?_⟩
    intro i hi hcase
    rcases hcase with h | h
    · exact hge i hi (Or.inl (hkeep i hi h))
    · rcases List.mem_cons.mp h with rfl | h2
      · exact hge i hi (Or.inl hproc)
      · exact hge i hi (Or.inr h2)

/-- The reassignment fold keeps the counters in agreement with the
per-cluster counts of the rebuilt assignment list. -/
theorem reassignFold_counts (ds : Dataset) (dim : ℕ) (centers : List Vec)
    (bf : ℕ) (hc : centers ≠ []) (hlen : centers.length = bf) :
    ∀ (l : List (ℕ × ℕ)) (st : ClusterAssign × Bool),
      (∀ b ∈ st.1.belongs, b < bf) → st.1.counts.length = bf →
      (∀ q ∈ l, q.2 < bf) →
      (∀ c, c < bf → st.1.counts.getD c 0 =
        st.1.belongs.count c + (l.map Prod.snd).count c) →
      ∀ c, c < bf →
        (l.foldl (reassignStep ds dim centers) st).1.counts.getD c 0 =
          (l.foldl (reassignStep ds dim centers) st).1.belongs.count c
  | [], st, hb, hcnt, hq, hcorr => by
    intro c hc2
    have := hcorr c hc2
    simpa using this
  | p :: l, st, hb, hcnt, hq, hcorr => by
    intro c hc2
    rw [List.foldl_cons]
    have hbest : (nearestCenter dim centers (dsGet ds p.1)).1 < bf :=
      hlen ▸ nearestCenter_lt dim (dsGet ds p.1) centers hc
    have hp2 : p.2 < bf := hq p (List.mem_cons_self p l)
    have hbel : (reassignStep ds dim centers st p).1.belongs =
        st.1.belongs ++ [(nearestCenter dim centers (dsGet ds p.1)).1] := by
      rw [reassignStep]
      split
      · rfl
      · rfl
    have hstep_b : ∀ b ∈ (reassignStep ds dim centers st p).1.belongs,
        b < bf := by
      intro b hbmem
      rw [hbel] at hbmem
      rcases List.mem_append.mp hbmem with h2 | h2
      · exact hb b h2
      · rcases List.mem_singleton.mp h2 with rfl
        exact hbest
    have hstep_c : (reassignStep ds dim centers st p).1.counts.length =
        bf := by
      rw [reassignStep]
      split
      · show ((st.1.counts.set _ _).set _ _).length = bf
        rw [List.length_set, List.length_set]
        exact hcnt
      · exact hcnt
    refine reassignFold_counts ds dim centers bf hc hlen l
      (reassignStep ds dim centers st p) hstep_b hstep_c
      (fun q hq2 => hq q (List.mem_cons_of_mem p hq2)) ?_ c hc2
    intro c2 hc3
    have hold := hcorr c2 hc3
    have hcnt_ap : ∀ (bel : List ℕ) (x : ℕ),
        (bel ++ [x]).count c2 = bel.count c2 + (if x = c2 then 1 else 0) := by
      intro bel x
      rw [List.count_append]
      by_cases hx : x = c2 <;> simp [List.count_cons, hx, beq_iff_eq]
    have hmap : ((p :: l).map Prod.snd).count c2 =
        (l.map Prod.snd).count c2 + (if p.2 = c2 then 1 else 0) := by
      rw [List.map_cons]
      by_cases hx : p.2 = c2 <;> simp [List.count_cons, hx, beq_iff_eq]
    rw [hbel, hcnt_ap]
    rw [reassignStep]
    split
    · -- moved: counters set twice
      show ((st.1.counts.set p.2 (st.1.counts.getD p.2 0 - 1)).set
        (nearestCenter dim centers (dsGet ds p.1)).1 _).getD c2 0 = _
      rename_i hne
      have hne2 : (nearestCenter dim centers (dsGet ds p.1)).1 ≠ p.2 := hne
      have hone : 1 ≤ (l.map Prod.snd).count c2 +
          (if p.2 = c2 then 1 else 0) → True := fun _ => trivial
      by_cases hcb : c2 = (nearestCenter dim centers (dsGet ds p.1)).1
      · rw [← hcb]
        rw [getD_set_self (by rw [List.length_set]; omega)]
        rw [getD_set_ne (show p.2 ≠ c2 from fun h =>
          hne2 ((h.trans hcb).symm))]
        rw [if_pos rfl]
        rw [hmap] at hold
        rw [if_neg (show ¬ p.2 = c2 from fun h =>
          hne2 ((h.trans hcb).symm))] at hold
        omega
      · rw [getD_set_ne (show (nearestCenter dim centers
          (dsGet ds p.1)).1 ≠ c2 from fun h => hcb h.symm)]
        rw [if_neg (show ¬ (nearestCenter dim centers (dsGet ds p.1)).1 =
          c2 from fun h => hcb h.symm)]
        by_cases hcp : c2 = p.2
        · rw [← hcp]
          rw [getD_set_self (by omega)]
          rw [hmap, if_pos hcp.symm] at hold
          have hge : 1 ≤ st.1.counts.getD c2 0 := by omega
          omega
        · rw [getD_set_ne (show p.2 ≠ c2 from fun h => hcp h.symm)]
          rw [hmap, if_neg (show ¬ p.2 = c2 from fun h => hcp h.symm)]
            at hold
          omega
    · -- not moved: counters unchanged
      show st.1.counts.getD c2 0 = _
      rename_i hne
      have heq : (nearestCenter dim centers (dsGet ds p.1)).1 = p.2 := by
        by_contra hx
        exact hne hx
      rw [hmap] at hold
      by_cases hcb : (nearestCenter dim centers (dsGet ds p.1)).1 = c2
      · rw [if_pos hcb]
        rw [if_pos (heq ▸ hcb)] at hold
        omega
      · rw [if_neg hcb]
        rw [if_neg (show ¬ p.2 = c2 from heq ▸ hcb)] at hold
        omega

/-- The initial assignment keeps the counters in agreement with the
per-cluster counts. -/
theorem initFold_counts (ds : Dataset) (dim : ℕ) (centers : List Vec)
    (bf : ℕ) (hc : centers ≠ []) (hlen : centers.length = bf) :
    ∀ (pts : List ℕ) (st : ClusterAssign),
      st.counts.length = bf →
      (∀ c, c < bf → st.counts.getD c 0 = st.belongs.count c) →
      ∀ c, c < bf →
        (pts.foldl (initStep ds dim centers) st).counts.getD c 0 =
          (pts.foldl (initStep ds dim centers) st).belongs.count c
  | [], st, hcnt, hcorr => hcorr
  | i :: pts, st, hcnt, hcorr => by
    intro c hc2
    rw [List.foldl_cons]
    have hbest : (nearestCenter dim centers (dsGet ds i)).1 < bf :=
      hlen ▸ nearestCenter_lt dim (dsGet ds i) centers hc
    refine initFold_counts ds dim centers bf hc hlen pts
      (initStep ds dim centers st i) ?_ ?_ c hc2
    · show (st.counts.set _ _).length = bf
      rw [List.length_set]
      exact hcnt
    · intro c2 hc3
      show (st.counts.set (nearestCenter dim centers (dsGet ds i)).1
        _).getD c2 0 = (st.belongs ++
          [(nearestCenter dim centers (dsGet ds i)).1]).count c2
      have hap : (st.belongs ++
          [(nearestCenter dim centers (dsGet ds i)).1]).count c2 =
          st.belongs.count c2 + (if (nearestCenter dim centers
            (dsGet ds i)).1 = c2 then 1 else 0) := by
        rw [List.count_append]
        by_cases hx : (nearestCenter dim centers (dsGet ds i)).1 = c2 <;>
          simp [List.count_cons, hx, beq_iff_eq]
      rw [hap]
      have hold := hcorr c2 hc3
      by_cases hcb : c2 = (nearestCenter dim centers (dsGet ds i)).1
      · rw [← hcb]
        rw [getD_set_self (by omega)]
        rw [if_pos rfl, hold]
      · rw [getD_set_ne (show (nearestCenter dim centers
          (dsGet ds i)).1 ≠ c2 from fun h => hcb h.symm)]
        rw [if_neg (show ¬ (nearestCenter dim centers (dsGet ds i)).1 =
          c2 from fun h => hcb h.symm), hold]
        omega

/-- Full invariant of the refinement loop state. -/
def IterInv (bf n : ℕ) (st : RefineState) : Prop :=
  st.belongs.length = n ∧ (∀ b ∈ st.belongs, b < bf) ∧
  st.counts.length = bf ∧
  (∀ c, c < bf → st.counts.getD c 0 = st.belongs.count c)

/-- One refinement iteration preserves the invariant and, thanks to the
empty-cluster recovery that closes it, leaves every cluster nonempty. -/
theorem refineIter_inv2 (ds : Dataset) (dim : ℕ) (bf : ℕ) (pts : List ℕ)
    (hbf : 0 < bf) (hn : bf ≤ pts.length) (st : RefineState)
    (h : IterInv bf pts.length st) :
    IterInv bf pts.length (refineIter ds dim bf pts st) ∧
    ∀ c, c < bf → 1 ≤ (refineIter ds dim bf pts st).counts.getD c 0 := by
  obtain ⟨h1, h2, h3, h4⟩ := h
  have hc2len : (recomputeCenters ds bf pts st.belongs st.counts).length =
      bf := by
    rw [recomputeCenters, List.length_map, List.length_range]
  have hc2ne : recomputeCenters ds bf pts st.belongs st.counts ≠ [] := by
    intro hnil
    rw [hnil, List.length_nil] at hc2len
    omega
  have hzip : ((pts.zip st.belongs).map Prod.snd) = st.belongs :=
    List.map_snd_zip pts st.belongs (le_of_eq h1)
  have hpass := reassignFold_inv ds dim
    (recomputeCenters ds bf pts st.belongs st.counts) bf hc2ne hc2len
    (pts.zip st.belongs) ⟨⟨[], st.counts, List.replicate bf 0⟩, true⟩
    (fun b hb => absurd hb (List.not_mem_nil b)) h3
  have hpcnt := reassignFold_counts ds dim
    (recomputeCenters ds bf pts st.belongs st.counts) bf hc2ne hc2len
    (pts.zip st.belongs) ⟨⟨[], st.counts, List.replicate bf 0⟩, true⟩
    (fun b hb => absurd hb (List.not_mem_nil b)) h3
    (fun q hq => h2 q.2 (List.of_mem_zip hq).2)
    (by
      intro c hc
      show st.counts.getD c 0 = ([] : List ℕ).count c +
        ((pts.zip st.belongs).map Prod.snd).count c
      rw [hzip]
      simpa using h4 c hc)
  rw [← reassignPass_eq] at hpass hpcnt
  have hplen : (reassignPass ds dim
      (recomputeCenters ds bf pts st.belongs st.counts) pts st.belongs
      st.counts (List.replicate bf 0)).1.belongs.length = pts.length := by
    have h5 := hpass.1
    rw [List.length_zip, h1] at h5
    simpa using h5
  have hrecinv : RecInv bf pts.length
      ((reassignPass ds dim
        (recomputeCenters ds bf pts st.belongs st.counts) pts st.belongs
        st.counts (List.replicate bf 0)).1.belongs,
       (reassignPass ds dim
        (recomputeCenters ds bf pts st.belongs st.counts) pts st.belongs
        st.counts (List.replicate bf 0)).1.counts,
       (reassignPass ds dim
        (recomputeCenters ds bf pts st.belongs st.counts) pts st.belongs
        st.counts (List.replicate bf 0)).2) :=
    ⟨hplen, hpass.2.1, hpass.2.2, hpcnt⟩
  have hrec := recoveryFold_ge1 bf pts.length hbf hn (List.range bf) _
    hrecinv (fun i hi => List.mem_range.mp hi)
  rw [← recoveryPass_eq] at hrec
  obtain ⟨⟨r1, r2, r3, r4⟩, rge⟩ := hrec
  refine ⟨⟨r1, r2, r3, r4⟩, ?_⟩
  intro c hc
  exact rge c hc (Or.inr (List.mem_range.mpr hc))

/-- Once the loop condition fails the loop is the identity. -/
theorem refineLoop_stop (ds : Dataset) (dim : ℕ) (bf iters : ℕ)
    (pts : List ℕ) (st : RefineState)
    (h : ¬ (st.converged = false ∧ st.iteration < iters)) :
    ∀ fuel, refineLoop ds dim bf iters pts fuel st = st
  | 0 => rfl
  | fuel + 1 => by
    rw [refineLoop, if_neg h]

/-- The refinement loop, entered with the condition true, ends in a state
whose clusters are all nonempty. -/
theorem refineLoop_post (ds : Dataset) (dim : ℕ) (bf iters : ℕ)
    (pts : List ℕ) (hbf : 0 < bf) (hn : bf ≤ pts.length) :
    ∀ (fuel : ℕ) (st : RefineState),
      IterInv bf pts.length st →
      st.converged = false → st.iteration < iters →
      iters ≤ fuel + st.iteration →
      IterInv bf pts.length (refineLoop ds dim bf iters pts fuel st) ∧
      ∀ c, c < bf →
        1 ≤ (refineLoop ds dim bf iters pts fuel st).counts.getD c 0
  | 0, st, _, _, hlt, hfuel => by omega
  | fuel + 1, st, hinv, hconv, hlt, hfuel => by
    rw [refineLoop, if_pos ⟨hconv, hlt⟩]
    obtain ⟨hinv2, hge⟩ := refineIter_inv2 ds dim bf pts hbf hn st hinv
    by_cases hcond : (refineIter ds dim bf pts st).converged = false ∧
        (refineIter ds dim bf pts st).iteration < iters
    · refine refineLoop_post ds dim bf iters pts hbf hn fuel
        (refineIter ds dim bf pts st) hinv2 hcond.1 hcond.2 ?_
      have hit : (refineIter ds dim bf pts st).iteration =
          st.iteration + 1 := rfl
      omega
    · rw [refineLoop_stop ds dim bf iters pts _ hcond]
      exact ⟨hinv2, hge⟩

/-- The clustering state that feeds the child construction has every
cluster nonempty whenever at least one iteration is allowed. -/
theorem clusterState_post (ds : Dataset) (dim : ℕ) (bf iters : ℕ)
    (ci : CentersInit) (rng : Rng) (ctr : ℕ) (pts : List ℕ)
    (hit : 1 ≤ iters) (hbf : 0 < bf) (hn : bf ≤ pts.length)
    (hlen : (chooseCenters ci ds dim pts bf rng ctr).1.length = bf) :
    ∀ c, c < bf →
      1 ≤ ((pts.zip (clusterState ds dim bf iters ci rng ctr
        pts).belongs).filter fun p => p.2 = c).length := by
  have hclen : (clusterCenters0 ds dim bf ci rng ctr pts).length = bf := by
    rw [clusterCenters0, List.length_map]
    exact hlen
  have hcne : clusterCenters0 ds dim bf ci rng ctr pts ≠ [] := by
    intro hnil
    rw [hnil, List.length_nil] at hclen
    omega
  have hasg := initFold_inv ds dim (clusterCenters0 ds dim bf ci rng ctr pts)
    bf hcne hclen pts ⟨[], List.replicate bf 0, List.replicate bf 0⟩
    (fun b hb => absurd hb (List.not_mem_nil b)) (by simp)
  have hasgc := initFold_counts ds dim
    (clusterCenters0 ds dim bf ci rng ctr pts) bf hcne hclen pts
    ⟨[], List.replicate bf 0, List.replicate bf 0⟩ (by simp)
    (by
      intro c hc
      show (List.replicate bf (0 : ℕ)).getD c 0 = ([] : List ℕ).count c
      rw [List.getD_eq_getElem?_getD, List.getElem?_replicate]
      split
      · rfl
      · rfl)
  rw [← initAssign_eq] at hasg hasgc
  have hloop := refineLoop_post ds dim bf iters pts hbf hn iters
    ⟨clusterCenters0 ds dim bf ci rng ctr pts,
     (initAssign ds dim (clusterCenters0 ds dim bf ci rng ctr pts) bf
       pts).belongs,
     (initAssign ds dim (clusterCenters0 ds dim bf ci rng ctr pts) bf
       pts).counts,
     (initAssign ds dim (clusterCenters0 ds dim bf ci rng ctr pts) bf
       pts).radiuses,
     false, 0⟩
    ⟨by simpa using hasg.1, hasg.2.1, hasg.2.2, hasgc⟩ rfl
    (by show (0 : ℕ) < iters; omega) (by show iters ≤ iters + (0 : ℕ); omega)
  obtain ⟨⟨f1, f2, f3, f4⟩, fge⟩ := hloop
  have f1c : (clusterState ds dim bf iters ci rng ctr pts).belongs.length =
      pts.length := f1
  have f4c : ∀ c, c < bf → (clusterState ds dim bf iters ci rng ctr
      pts).counts.getD c 0 = List.count c (clusterState ds dim bf iters ci
        rng ctr pts).belongs := f4
  have fgec : ∀ c, c < bf → 1 ≤ (clusterState ds dim bf iters ci rng ctr
      pts).counts.getD c 0 := fge
  intro c hc
  have hcount : 1 ≤ (clusterState ds dim bf iters ci rng ctr
      pts).belongs.count c := by
    have h5 := fgec c hc
    have h6 := f4c c hc
    show 1 ≤ List.count c (clusterState ds dim bf iters ci rng ctr
      pts).belongs
    omega
  have hmem : c ∈ (clusterState ds dim bf iters ci rng ctr pts).belongs :=
    List.count_pos_iff.mp (by omega)
  obtain ⟨k, hk, hgetk⟩ := List.mem_iff_getElem.mp hmem
  have hkz : k < (pts.zip (clusterState ds dim bf iters ci rng ctr
      pts).belongs).length := by
    rw [List.length_zip]
    have := f1c
    omega
  have hzmem : (pts.zip (clusterState ds dim bf iters ci rng ctr
      pts).belongs)[k] ∈ (pts.zip (clusterState ds dim bf iters ci rng ctr
      pts).belongs).filter fun p => p.2 = c := by
    refine List.mem_filter.mpr ⟨List.getElem_mem hkz, ?_⟩
    rw [List.getElem_zip]
    simpa using hgetk
  have := List.ne_nil_of_mem hzmem
  have hpos := List.length_pos.mpr this
  omega

/-- Every child produced by `buildChildren` has the size of some spec's
member set. -/
theorem buildChildren_sizes
    (f : ℕ → Vec × ℚ × ℚ → List ℕ → Option (KMeansNode × ℕ))
    (hf : ∀ (c : ℕ) (stats : Vec × ℚ × ℚ) (pts2 : List ℕ)
      (child : KMeansNode) (c2 : ℕ), f c stats pts2 = some (child, c2) →
      child.size = pts2.length) :
    ∀ (specs : List ((Vec × ℚ × ℚ) × List ℕ)) (ctr : ℕ)
      (childs : List KMeansNode) (ctr3 : ℕ),
      buildChildren f specs ctr = some (childs, ctr3) →
      ∀ child ∈ childs, ∃ sp ∈ specs, child.size = sp.2.length
  | [], ctr, childs, ctr3 => by
    intro h child hch
    rw [buildChildren] at h
    injection h with h2
    have hc : ([] : List KMeansNode) = childs := congrArg Prod.fst h2
    rw [← hc] at hch
    cases hch
  | spec :: rest, ctr, childs, ctr3 => by
    intro h child hch
    rw [buildChildren] at h
    rcases hc : f ctr spec.1 spec.2 with _ | ⟨child1, ctr2⟩
    · rw [hc] at h
      cases h
    · rw [hc] at h
      dsimp only at h
      rcases hb : buildChildren f rest ctr2 with _ | ⟨childs2, ctrx⟩
      · rw [hb] at h
        cases h
      · rw [hb] at h
        dsimp only at h
        injection h with h2
        have hcc : child1 :: childs2 = childs := congrArg Prod.fst h2
        rw [← hcc] at hch
        rcases List.mem_cons.mp hch with rfl | h3
        · exact ⟨spec, List.mem_cons_self spec rest,
            hf ctr spec.1 spec.2 child ctr2 hc⟩
        · obtain ⟨sp, hsp, hsz⟩ := buildChildren_sizes f hf rest ctr2
            childs2 ctrx hb child h3
          exact ⟨sp, List.mem_cons_of_mem spec hsp, hsz⟩

/-- C6 (amended): whenever the clusterer succeeds with at least one
refinement iteration allowed (`iterations >= 1`), every direct child of
every produced node holds at least one point: the empty-cluster recovery
closes each executed iteration, and the loop runs at least once.  (With
`iterations = 0` the recovery never runs and a child can be empty, see
the counterexample.) -/
theorem C6_children_nonempty_amended :
    ∀ (ds : Dataset) (dim : ℕ) (bf iters : ℕ) (ci : CentersInit)
      (rng : Rng) (fuel ctr : ℕ) (stats : Vec × ℚ × ℚ) (pts : List ℕ)
      (level : ℕ) (t : KMeansNode) (ctr2 : ℕ),
      1 ≤ iters → 1 ≤ bf →
      computeClustering ds dim bf iters ci rng fuel ctr stats pts level =
        some (t, ctr2) →
      ∀ child ∈ t.childs, 1 ≤ child.size := by
  intro ds dim bf iters ci rng fuel ctr stats pts level t ctr2 hit hbf h
  cases fuel with
  | zero => simp [computeClustering] at h
  | succ fuel =>
    by_cases h1 : pts.length < bf
    · rw [computeClustering, if_pos h1] at h
      injection h with h2
      have ht : KMeansNode.mk stats.1 stats.2.1 stats.2.2 pts.length []
          (pts.insertionSort (· ≤ ·)) level = t := congrArg Prod.fst h2
      intro child hch
      rw [← ht] at hch
      simp only [KMeansNode.childs_mk] at hch
      cases hch
    · by_cases h2c : (chooseCenters ci ds dim pts bf rng ctr).1.length < bf
      · rw [computeClustering, if_neg h1] at h
        dsimp only at h
        rw [if_pos h2c] at h
        injection h with h2
        have ht : KMeansNode.mk stats.1 stats.2.1 stats.2.2 pts.length []
            (pts.insertionSort (· ≤ ·)) level = t := congrArg Prod.fst h2
        intro child hch
        rw [← ht] at hch
        simp only [KMeansNode.childs_mk] at hch
        cases hch
      · rw [computeClustering_subdiv ds dim bf iters ci rng fuel ctr stats
          pts level h1 h2c] at h
        rcases hbc : buildChildren (fun c2 stats2 pts2 =>
            computeClustering ds dim bf iters ci rng fuel c2 stats2 pts2
              (level + 1))
            (clusterSpecs ds dim bf iters ci rng ctr pts)
            (chooseCenters ci ds dim pts bf rng ctr).2 with
          _ | ⟨childs, ctr3⟩
        · rw [hbc] at h
          cases h
        · rw [hbc] at h
          dsimp only at h
          injection h with h2
          have ht : KMeansNode.mk stats.1 stats.2.1 stats.2.2 pts.length
              childs [] level = t := congrArg Prod.fst h2
          have hslen : (chooseCenters ci ds dim pts bf rng ctr).1.length =
              bf := le_antisymm
            (chooseCenters_len ci ds dim pts bf rng ctr hbf)
            (not_lt.mp h2c)
          have hn : bf ≤ pts.length := not_lt.mp h1
          intro child hch
          rw [← ht] at hch
          simp only [KMeansNode.childs_mk] at hch
          obtain ⟨sp, hsp, hsz⟩ := buildChildren_sizes _
            (fun c stats2 pts2 child2 c2 hcc =>
              (computeClustering_builtOk ds dim bf iters ci rng hbf fuel c
                stats2 pts2 (level + 1) child2 c2 hcc).2)
            (clusterSpecs ds dim bf iters ci rng ctr pts) _ childs ctr3
            hbc child hch
          rw [hsz]
          rw [clusterSpecs] at hsp
          obtain ⟨c, hcr, hceq⟩ := List.mem_map.mp hsp
          rw [← hceq]
          show 1 ≤ (((pts.zip (clusterState ds dim bf iters ci rng ctr
            pts).belongs).filter fun p => p.2 = c).map fun p => p.1).length
          rw [List.length_map]
          exact clusterState_post ds dim bf iters ci rng ctr pts hit
            (by omega) hn hslen c (List.mem_range.mp hcr)

theorem w_seed :
    chooseCenters CentersInit.random dsFar 1 [0, 1] 2 idRng 0 =
      ([0, 1], 1) := by
  show (chooseRandomGo dsFar 1 [0, 1] 2 (idRng.permAt 0 2) [], 0 + 1) =
    ([0, 1], 1)
  rw [show idRng.permAt 0 2 = [0, 1] from rfl]
  rw [chooseRandomGo]
  rw [if_neg (by norm_num)]
  dsimp only
  rw [if_neg (by simp)]
  rw [show ([] : List ℕ) ++ [([0, 1] : List ℕ).getD 0 0] = [0] from rfl]
  rw [chooseRandomGo]
  rw [if_neg (by norm_num)]
  dsimp only
  rw [if_neg (by
    norm_num [dsFar, dsGet, cVec, sqDist, Finset.sum_range_one,
      dupThreshold, List.getD_cons_succ, List.getD_cons_zero])]
  rw [show ([0] : List ℕ) ++ [([0, 1] : List ℕ).getD 1 0] = [0, 1] from rfl]
  rw [chooseRandomGo]

theorem w_nc0 : nearestCenter 1 [cVec 0, cVec 100] (dsGet dsFar 0) =
    (0, 0) := by
  show ([(0, cVec 100)] : List (ℕ × Vec)).foldl
    (fun acc p =>
      if sqDist 1 (dsGet dsFar 0) p.2 < acc.2 then
        (p.1 + 1, sqDist 1 (dsGet dsFar 0) p.2)
      else acc) (0, sqDist 1 (dsGet dsFar 0) (cVec 0)) = (0, 0)
  rw [List.foldl_cons, List.foldl_nil]
  rw [show sqDist 1 (dsGet dsFar 0) (cVec 0) = 0 from by
    norm_num [dsFar, dsGet, cVec, sqDist, Finset.sum_range_one]]
  rw [show sqDist 1 (dsGet dsFar 0) ((0, cVec 100) : ℕ × Vec).2 = 10000
    from by norm_num [dsFar, dsGet, cVec, sqDist, Finset.sum_range_one]]
  rw [if_neg (by norm_num)]

theorem w_nc1 : nearestCenter 1 [cVec 0, cVec 100] (dsGet dsFar 1) =
    (1, 0) := by
  show ([(0, cVec 100)] : List (ℕ × Vec)).foldl
    (fun acc p =>
      if sqDist 1 (dsGet dsFar 1) p.2 < acc.2 then
        (p.1 + 1, sqDist 1 (dsGet dsFar 1) p.2)
      else acc) (0, sqDist 1 (dsGet dsFar 1) (cVec 0)) = (1, 0)
  rw [List.foldl_cons, List.foldl_nil]
  rw [show sqDist 1 (dsGet dsFar 1) (cVec 0) = 10000 from by
    norm_num [dsFar, dsGet, cVec, sqDist, Finset.sum_range_one]]
  rw [show sqDist 1 (dsGet dsFar 1) ((0, cVec 100) : ℕ × Vec).2 = 0
    from by norm_num [dsFar, dsGet, cVec, sqDist, Finset.sum_range_one]]
  rw [if_pos (by norm_num)]

theorem w_init : initAssign dsFar 1 [cVec 0, cVec 100] 2 [0, 1] =
    ⟨[0, 1], [1, 1], [0, 0]⟩ := by
  rw [initAssign_eq, List.foldl_cons]
  have h1 : initStep dsFar 1 [cVec 0, cVec 100]
      ⟨[], List.replicate 2 0, List.replicate 2 0⟩ 0 =
      ⟨[0], [1, 0], [0, 0]⟩ := by
    rw [initStep, w_nc0]
    dsimp only
    rw [if_neg (by norm_num)]
    rfl
  rw [h1, List.foldl_cons, List.foldl_nil]
  rw [initStep, w_nc1]
  dsimp only
  rw [if_neg (by norm_num)]
  rfl

theorem w_recompute :
    recomputeCenters dsFar 2 [0, 1] [0, 1] [1, 1] = [cVec 0, cVec 100] := by
  rw [recomputeCenters]
  rw [show List.range 2 = [0, 1] from rfl, List.map_cons, List.map_cons,
    List.map_nil]
  congr 1
  · funext j
    show ((((([0, 1] : List ℕ).zip ([0, 1] : List ℕ)).filter
      fun p => p.2 = 0).map fun p => dsGet dsFar p.1 j).sum /
      ((([1, 1] : List ℕ).getD 0 0 : ℕ) : ℚ)) = cVec 0 j
    norm_num [dsFar, dsGet, cVec, List.getElem_cons_zero,
      List.getElem_cons_succ]
  congr 1
  funext j
  show ((((([0, 1] : List ℕ).zip ([0, 1] : List ℕ)).filter
    fun p => p.2 = 1).map fun p => dsGet dsFar p.1 j).sum /
    ((([1, 1] : List ℕ).getD 1 0 : ℕ) : ℚ)) = cVec 100 j
  rw [show (([0, 1] : List ℕ).zip ([0, 1] : List ℕ)).filter
    (fun p => p.2 = 1) = [(1, 1)] from rfl]
  simp only [List.map_cons, List.map_nil]
  rw [show dsGet dsFar 1 = cVec 100 from rfl]
  norm_num [cVec]

theorem w_reassign :
    reassignPass dsFar 1 [cVec 0, cVec 100] [0, 1] [0, 1] [1, 1]
      (List.replicate 2 0) = (⟨[0, 1], [1, 1], [0, 0]⟩, true) := by
  rw [reassignPass_eq]
  rw [show (([0, 1] : List ℕ).zip ([0, 1] : List ℕ)) = [(0, 0), (1, 1)]
    from rfl]
  rw [List.foldl_cons]
  have h1 : reassignStep dsFar 1 [cVec 0, cVec 100]
      ⟨⟨[], [1, 1], List.replicate 2 0⟩, true⟩ (0, 0) =
      (⟨[0], [1, 1], [0, 0]⟩, true) := by
    rw [reassignStep, w_nc0]
    dsimp only
    rw [if_neg (by norm_num)]
    rw [if_neg (by norm_num)]
    rfl
  rw [h1, List.foldl_cons, List.foldl_nil]
  rw [reassignStep, w_nc1]
  dsimp only
  rw [if_neg (by norm_num)]
  rw [if_neg (by norm_num)]
  rfl

theorem w_iter :
    refineIter dsFar 1 2 [0, 1]
      ⟨[cVec 0, cVec 100], [0, 1], [1, 1], [0, 0], false, 0⟩ =
      ⟨[cVec 0, cVec 100], [0, 1], [1, 1], [0, 0], true, 1⟩ := by
  rw [refineIter]
  dsimp only
  rw [w_recompute, w_reassign]
  dsimp only
  rw [show recoveryPass 2 [0, 1] [1, 1] true = ([0, 1], [1, 1], true)
    from rfl]

theorem w_loop :
    refineLoop dsFar 1 2 1 [0, 1] 1
      ⟨[cVec 0, cVec 100], [0, 1], [1, 1], [0, 0], false, 0⟩ =
      ⟨[cVec 0, cVec 100], [0, 1], [1, 1], [0, 0], true, 1⟩ := by
  rw [show (1 : ℕ) = 0 + 1 from rfl]
  rw [refineLoop]
  rw [if_pos ⟨rfl, Nat.zero_lt_one⟩]
  rw [w_iter]
  rfl

theorem w_state :
    clusterState dsFar 1 2 1 CentersInit.random idRng 0 [0, 1] =
      ⟨[cVec 0, cVec 100], [0, 1], [1, 1], [0, 0], true, 1⟩ := by
  rw [clusterState]
  rw [show clusterCenters0 dsFar 1 2 CentersInit.random idRng 0 [0, 1] =
    [cVec 0, cVec 100] from by rw [clusterCenters0, w_seed]; rfl]
  rw [w_init]
  exact w_loop

theorem w_specs :
    clusterSpecs dsFar 1 2 1 CentersInit.random idRng 0 [0, 1] =
      [((cVec 0, 0, 0), [0]), ((cVec 100, 0, 0), [1])] := by
  rw [clusterSpecs, w_state]
  rw [show List.range 2 = [0, 1] from rfl, List.map_cons, List.map_cons,
    List.map_nil]
  dsimp only
  rw [show (([0, 1] : List ℕ).zip ([0, 1] : List ℕ)).filter
    (fun p => p.2 = 0) = [(0, 0)] from rfl]
  rw [show (([0, 1] : List ℕ).zip ([0, 1] : List ℕ)).filter
    (fun p => p.2 = 1) = [(1, 1)] from rfl]
  rw [show (([0, 0] : List ℚ)).getD 0 0 = 0 from rfl]
  rw [show (([0, 0] : List ℚ)).getD 1 0 = 0 from rfl]
  rw [show (([cVec 0, cVec 100] : List Vec)).getD 0 (fun _ => 0) = cVec 0
    from rfl]
  rw [show (([cVec 0, cVec 100] : List Vec)).getD 1 (fun _ => 0) = cVec 100
    from rfl]
  simp only [List.map_cons, List.map_nil]
  rw [show dsGet dsFar 0 = cVec 0 from rfl]
  rw [show dsGet dsFar 1 = cVec 100 from rfl]
  norm_num [cVec, sqDist, Finset.sum_range_one]

theorem w_child0 :
    computeClustering dsFar 1 2 1 CentersInit.random idRng 2 1
      (cVec 0, 0, 0) [0] 1 = some (leafNear, 1) := by
  show computeClustering dsFar 1 2 1 CentersInit.random idRng (1 + 1) 1
    (cVec 0, 0, 0) [0] 1 = some (leafNear, 1)
  rw [computeClustering]
  rw [if_pos (by norm_num)]
  rfl

theorem w_child1 :
    computeClustering dsFar 1 2 1 CentersInit.random idRng 2 1
      (cVec 100, 0, 0) [1] 1 = some (leafFar, 1) := by
  show computeClustering dsFar 1 2 1 CentersInit.random idRng (1 + 1) 1
    (cVec 100, 0, 0) [1] 1 = some (leafFar, 1)
  rw [computeClustering]
  rw [if_pos (by norm_num)]
  rfl

theorem w_top :
    computeClustering dsFar 1 2 1 CentersInit.random idRng 3 0
      (cVec 50, 2500, 2500) [0, 1] 0 = some (treeFar, 1) := by
  show computeClustering dsFar 1 2 1 CentersInit.random idRng (2 + 1) 0
    (cVec 50, 2500, 2500) [0, 1] 0 = some (treeFar, 1)
  rw [computeClustering_subdiv dsFar 1 2 1 CentersInit.random idRng 2 0
    (cVec 50, 2500, 2500) [0, 1] 0 (by norm_num)
    (by rw [w_seed]; norm_num)]
  rw [w_specs]
  rw [show (chooseCenters CentersInit.random dsFar 1 [0, 1] 2 idRng 0).2 =
    1 from by rw [w_seed]]
  rw [buildChildren]
  dsimp only
  rw [w_child0]
  dsimp only
  rw [buildChildren]
  dsimp only
  rw [w_child1]
  dsimp only
  rw [buildChildren]
  rfl

/-- Witness for C6 (amended): the two-point clustering with one iteration
succeeds and both children of the produced node are nonempty. -/
theorem C6_children_nonempty_amended_witness :
    ((1 : ℕ) ≤ 1 ∧ (1 : ℕ) ≤ 2) ∧
    computeClustering dsFar 1 2 1 CentersInit.random idRng 3 0
      (cVec 50, 2500, 2500) [0, 1] 0 = some (treeFar, 1) ∧
    ∀ child ∈ treeFar.childs, 1 ≤ child.size := by
  refine ⟨⟨le_refl 1, by omega⟩, w_top, ?_⟩
  exact C6_children_nonempty_amended dsFar 1 2 1 CentersInit.random idRng
    3 0 (cVec 50, 2500, 2500) [0, 1] 0 treeFar 1 (le_refl 1) (by omega)
    w_top

/-- Two distinct points on which the roulette seeder duplicates its first
pick. -/
def ds6 : Dataset := [cVec 0, cVec 3]

/-- Oracle for the C6 counterexample: integer draws 0; the roulette draw
of the second-level seeding (counter 3) is 1, all other real draws 0. -/
def c6Rng : Rng :=
  ⟨fun _ _ => 0, fun c _ => if c = 3 then 1 else 0, fun _ n => List.range n⟩

theorem x_kpp0 :
    chooseCenters CentersInit.kmeanspp ds6 1 [0, 1] 2 c6Rng 0 =
      ([0, 0], 2) := by
  show kppGo ds6 1 [0, 1] c6Rng (0 + 1)
    [([0, 1] : List ℕ).getD (c6Rng.intAt 0 ([0, 1] : List ℕ).length) 0]
    ([0, 1].map fun i => sqDist 1 (dsGet ds6 i)
      (dsGet ds6 (([0, 1] : List ℕ).getD
        (c6Rng.intAt 0 ([0, 1] : List ℕ).length) 0)))
    ([0, 1].map fun i => sqDist 1 (dsGet ds6 i)
      (dsGet ds6 (([0, 1] : List ℕ).getD
        (c6Rng.intAt 0 ([0, 1] : List ℕ).length) 0))).sum (0 + 1) =
    ([0, 0], 2)
  rw [show ([0, 1] : List ℕ).getD (c6Rng.intAt 0 ([0, 1] : List ℕ).length)
    0 = 0 from rfl]
  rw [show ([0, 1].map fun i => sqDist 1 (dsGet ds6 i) (dsGet ds6 0)) =
    [sqDist 1 (dsGet ds6 0) (dsGet ds6 0), sqDist 1 (dsGet ds6 1)
      (dsGet ds6 0)] from rfl]
  rw [kppGo]
  rw [show c6Rng.ratAt (0 + 1) ([sqDist 1 (dsGet ds6 0) (dsGet ds6 0),
    sqDist 1 (dsGet ds6 1) (dsGet ds6 0)]).sum = 0 from rfl]
  rw [show ([sqDist 1 (dsGet ds6 0) (dsGet ds6 0), sqDist 1 (dsGet ds6 1)
    (dsGet ds6 0)]).take (([0, 1] : List ℕ).length - 1) =
    [sqDist 1 (dsGet ds6 0) (dsGet ds6 0)] from rfl]
  rw [kppWalk]
  rw [if_pos (by
    norm_num [ds6, dsGet, cVec, sqDist, Finset.sum_range_one])]
  rw [kppGo]
  rfl

theorem x_kpp2 :
    chooseCenters CentersInit.kmeanspp ds6 1 [0, 1] 2 c6Rng 2 =
      ([0, 1], 4) := by
  show kppGo ds6 1 [0, 1] c6Rng (0 + 1)
    [([0, 1] : List ℕ).getD (c6Rng.intAt 2 ([0, 1] : List ℕ).length) 0]
    ([0, 1].map fun i => sqDist 1 (dsGet ds6 i)
      (dsGet ds6 (([0, 1] : List ℕ).getD
        (c6Rng.intAt 2 ([0, 1] : List ℕ).length) 0)))
    ([0, 1].map fun i => sqDist 1 (dsGet ds6 i)
      (dsGet ds6 (([0, 1] : List ℕ).getD
        (c6Rng.intAt 2 ([0, 1] : List ℕ).length) 0))).sum (2 + 1) =
    ([0, 1], 4)
  rw [show ([0, 1] : List ℕ).getD (c6Rng.intAt 2 ([0, 1] : List ℕ).length)
    0 = 0 from rfl]
  rw [show ([0, 1].map fun i => sqDist 1 (dsGet ds6 i) (dsGet ds6 0)) =
    [sqDist 1 (dsGet ds6 0) (dsGet ds6 0), sqDist 1 (dsGet ds6 1)
      (dsGet ds6 0)] from rfl]
  rw [kppGo]
  rw [show c6Rng.ratAt (2 + 1) ([sqDist 1 (dsGet ds6 0) (dsGet ds6 0),
    sqDist 1 (dsGet ds6 1) (dsGet ds6 0)]).sum = 1 from rfl]
  rw [show ([sqDist 1 (dsGet ds6 0) (dsGet ds6 0), sqDist 1 (dsGet ds6 1)
    (dsGet ds6 0)]).take (([0, 1] : List ℕ).length - 1) =
    [sqDist 1 (dsGet ds6 0) (dsGet ds6 0)] from rfl]
  rw [kppWalk]
  rw [if_neg (by
    norm_num [ds6, dsGet, cVec, sqDist, Finset.sum_range_one])]
  rw [show kppWalk [] (1 - sqDist 1 (dsGet ds6 0) (dsGet ds6 0)) = 0
    from rfl]
  rw [kppGo]
  rfl

theorem x_nc_dup0 : nearestCenter 1 [cVec 0, cVec 0] (dsGet ds6 0) =
    (0, 0) := by
  show ([(0, cVec 0)] : List (ℕ × Vec)).foldl
    (fun acc p =>
      if sqDist 1 (dsGet ds6 0) p.2 < acc.2 then
        (p.1 + 1, sqDist 1 (dsGet ds6 0) p.2)
      else acc) (0, sqDist 1 (dsGet ds6 0) (cVec 0)) = (0, 0)
  rw [List.foldl_cons, List.foldl_nil]
  rw [show sqDist 1 (dsGet ds6 0) (cVec 0) = 0 from by
    norm_num [ds6, dsGet, cVec, sqDist, Finset.sum_range_one]]
  rw [if_neg (by norm_num)]

theorem x_nc_dup1 : nearestCenter 1 [cVec 0, cVec 0] (dsGet ds6 1) =
    (0, 9) := by
  show ([(0, cVec 0)] : List (ℕ × Vec)).foldl
    (fun acc p =>
      if sqDist 1 (dsGet ds6 1) p.2 < acc.2 then
        (p.1 + 1, sqDist 1 (dsGet ds6 1) p.2)
      else acc) (0, sqDist 1 (dsGet ds6 1) (cVec 0)) = (0, 9)
  rw [List.foldl_cons, List.foldl_nil]
  rw [show sqDist 1 (dsGet ds6 1) (cVec 0) = 9 from by
    norm_num [ds6, dsGet, cVec, sqDist, Finset.sum_range_one]]
  rw [if_neg (by norm_num)]

theorem x_init0 : initAssign ds6 1 [cVec 0, cVec 0] 2 [0, 1] =
    ⟨[0, 0], [2, 0], [9, 0]⟩ := by
  rw [initAssign_eq, List.foldl_cons]
  have h1 : initStep ds6 1 [cVec 0, cVec 0]
      ⟨[], List.replicate 2 0, List.replicate 2 0⟩ 0 =
      ⟨[0], [1, 0], [0, 0]⟩ := by
    rw [initStep, x_nc_dup0]
    dsimp only
    rw [if_neg (by norm_num)]
    rfl
  rw [h1, List.foldl_cons, List.foldl_nil]
  rw [initStep, x_nc_dup1]
  dsimp only
  rw [if_pos (by norm_num)]
  rfl

theorem x_nc20 : nearestCenter 1 [cVec 0, cVec 3] (dsGet ds6 0) =
    (0, 0) := by
  show ([(0, cVec 3)] : List (ℕ × Vec)).foldl
    (fun acc p =>
      if sqDist 1 (dsGet ds6 0) p.2 < acc.2 then
        (p.1 + 1, sqDist 1 (dsGet ds6 0) p.2)
      else acc) (0, sqDist 1 (dsGet ds6 0) (cVec 0)) = (0, 0)
  rw [List.foldl_cons, List.foldl_nil]
  rw [show sqDist 1 (dsGet ds6 0) (cVec 0) = 0 from by
    norm_num [ds6, dsGet, cVec, sqDist, Finset.sum_range_one]]
  rw [show sqDist 1 (dsGet ds6 0) ((0, cVec 3) : ℕ × Vec).2 = 9 from by
    norm_num [ds6, dsGet, cVec, sqDist, Finset.sum_range_one]]
  rw [if_neg (by norm_num)]

theorem x_nc21 : nearestCenter 1 [cVec 0, cVec 3] (dsGet ds6 1) =
    (1, 0) := by
  show ([(0, cVec 3)] : List (ℕ × Vec)).foldl
    (fun acc p =>
      if sqDist 1 (dsGet ds6 1) p.2 < acc.2 then
        (p.1 + 1, sqDist 1 (dsGet ds6 1) p.2)
      else acc) (0, sqDist 1 (dsGet ds6 1) (cVec 0)) = (1, 0)
  rw [List.foldl_cons, List.foldl_nil]
  rw [show sqDist 1 (dsGet ds6 1) (cVec 0) = 9 from by
    norm_num [ds6, dsGet, cVec, sqDist, Finset.sum_range_one]]
  rw [show sqDist 1 (dsGet ds6 1) ((0, cVec 3) : ℕ × Vec).2 = 0 from by
    norm_num [ds6, dsGet, cVec, sqDist, Finset.sum_range_one]]
  rw [if_pos (by norm_num)]

theorem x_init2 : initAssign ds6 1 [cVec 0, cVec 3] 2 [0, 1] =
    ⟨[0, 1], [1, 1], [0, 0]⟩ := by
  rw [initAssign_eq, List.foldl_cons]
  have h1 : initStep ds6 1 [cVec 0, cVec 3]
      ⟨[], List.replicate 2 0, List.replicate 2 0⟩ 0 =
      ⟨[0], [1, 0], [0, 0]⟩ := by
    rw [initStep, x_nc20]
    dsimp only
    rw [if_neg (by norm_num)]
    rfl
  rw [h1, List.foldl_cons, List.foldl_nil]
  rw [initStep, x_nc21]
  dsimp only
  rw [if_neg (by norm_num)]
  rfl

theorem x_state0 :
    clusterState ds6 1 2 0 CentersInit.kmeanspp c6Rng 0 [0, 1] =
      ⟨[cVec 0, cVec 0], [0, 0], [2, 0], [9, 0], false, 0⟩ := by
  rw [clusterState]
  rw [show clusterCenters0 ds6 1 2 CentersInit.kmeanspp c6Rng 0 [0, 1] =
    [cVec 0, cVec 0] from by rw [clusterCenters0, x_kpp0]; rfl]
  rw [x_init0]
  rfl

theorem x_state2 :
    clusterState ds6 1 2 0 CentersInit.kmeanspp c6Rng 2 [0, 1] =
      ⟨[cVec 0, cVec 3], [0, 1], [1, 1], [0, 0], false, 0⟩ := by
  rw [clusterState]
  rw [show clusterCenters0 ds6 1 2 CentersInit.kmeanspp c6Rng 2 [0, 1] =
    [cVec 0, cVec 3] from by rw [clusterCenters0, x_kpp2]; rfl]
  rw [x_init2]
  rfl

theorem x_specs0 :
    clusterSpecs ds6 1 2 0 CentersInit.kmeanspp c6Rng 0 [0, 1] =
      [((cVec 0, 9, 9 / 2), [0, 1]), ((cVec 0, 0, 0), [])] := by
  rw [clusterSpecs, x_state0]
  rw [show List.range 2 = [0, 1] from rfl, List.map_cons, List.map_cons,
    List.map_nil]
  dsimp only
  rw [show (([0, 1] : List ℕ).zip ([0, 0] : List ℕ)).filter
    (fun p => p.2 = 0) = [(0, 0), (1, 0)] from rfl]
  rw [show (([0, 1] : List ℕ).zip ([0, 0] : List ℕ)).filter
    (fun p => p.2 = 1) = [] from rfl]
  rw [show (([9, 0] : List ℚ)).getD 0 0 = 9 from rfl]
  rw [show (([9, 0] : List ℚ)).getD 1 0 = 0 from rfl]
  rw [show (([cVec 0, cVec 0] : List Vec)).getD 0 (fun _ => 0) = cVec 0
    from rfl]
  rw [show (([cVec 0, cVec 0] : List Vec)).getD 1 (fun _ => 0) = cVec 0
    from rfl]
  simp only [List.map_cons, List.map_nil]
  rw [show dsGet ds6 0 = cVec 0 from rfl]
  rw [show dsGet ds6 1 = cVec 3 from rfl]
  norm_num [cVec, sqDist, Finset.sum_range_one]

theorem x_specs2 :
    clusterSpecs ds6 1 2 0 CentersInit.kmeanspp c6Rng 2 [0, 1] =
      [((cVec 0, 0, 0), [0]), ((cVec 3, 0, 0), [1])] := by
  rw [clusterSpecs, x_state2]
  rw [show List.range 2 = [0, 1] from rfl, List.map_cons, List.map_cons,
    List.map_nil]
  dsimp only
  rw [show (([0, 1] : List ℕ).zip ([0, 1] : List ℕ)).filter
    (fun p => p.2 = 0) = [(0, 0)] from rfl]
  rw [show (([0, 1] : List ℕ).zip ([0, 1] : List ℕ)).filter
    (fun p => p.2 = 1) = [(1, 1)] from rfl]
  rw [show (([0, 0] : List ℚ)).getD 0 0 = 0 from rfl]
  rw [show (([0, 0] : List ℚ)).getD 1 0 = 0 from rfl]
  rw [show (([cVec 0, cVec 3] : List Vec)).getD 0 (fun _ => 0) = cVec 0
    from rfl]
  rw [show (([cVec 0, cVec 3] : List Vec)).getD 1 (fun _ => 0) = cVec 3
    from rfl]
  simp only [List.map_cons, List.map_nil]
  rw [show dsGet ds6 0 = cVec 0 from rfl]
  rw [show dsGet ds6 1 = cVec 3 from rfl]
  norm_num [cVec, sqDist, Finset.sum_range_one]

/-- The two second-level leaves and the empty first-level child. -/
def leaf6A : KMeansNode := KMeansNode.mk (cVec 0) 0 0 1 [] [0] 2

def leaf6B : KMeansNode := KMeansNode.mk (cVec 3) 0 0 1 [] [1] 2

def node6 : KMeansNode :=
  KMeansNode.mk (cVec 0) 9 (9 / 2) 2 [leaf6A, leaf6B] [] 1

/-- The EMPTY child: zero points, no indices. -/
def empty6 : KMeansNode := KMeansNode.mk (cVec 0) 0 0 0 [] [] 1

/-- The root of the counterexample build. -/
def tree6 : KMeansNode :=
  KMeansNode.mk (computeNodeStatistics ds6 1 [0, 1]).1
    (computeNodeStatistics ds6 1 [0, 1]).2.1
    (computeNodeStatistics ds6 1 [0, 1]).2.2
    2 [node6, empty6] [] 0

theorem x_leafA :
    computeClustering ds6 1 2 0 CentersInit.kmeanspp c6Rng 1 4
      (cVec 0, 0, 0) [0] 2 = some (leaf6A, 4) := by
  show computeClustering ds6 1 2 0 CentersInit.kmeanspp c6Rng (0 + 1) 4
    (cVec 0, 0, 0) [0] 2 = some (leaf6A, 4)
  rw [computeClustering]
  rw [if_pos (by norm_num)]
  rfl

theorem x_leafB :
    computeClustering ds6 1 2 0 CentersInit.kmeanspp c6Rng 1 4
      (cVec 3, 0, 0) [1] 2 = some (leaf6B, 4) := by
  show computeClustering ds6 1 2 0 CentersInit.kmeanspp c6Rng (0 + 1) 4
    (cVec 3, 0, 0) [1] 2 = some (leaf6B, 4)
  rw [computeClustering]
  rw [if_pos (by norm_num)]
  rfl

theorem x_child0 :
    computeClustering ds6 1 2 0 CentersInit.kmeanspp c6Rng 2 2
      (cVec 0, 9, 9 / 2) [0, 1] 1 = some (node6, 4) := by
  show computeClustering ds6 1 2 0 CentersInit.kmeanspp c6Rng (1 + 1) 2
    (cVec 0, 9, 9 / 2) [0, 1] 1 = some (node6, 4)
  rw [computeClustering_subdiv ds6 1 2 0 CentersInit.kmeanspp c6Rng 1 2
    (cVec 0, 9, 9 / 2) [0, 1] 1 (by norm_num)
    (by rw [x_kpp2]; norm_num)]
  rw [x_specs2]
  rw [show (chooseCenters CentersInit.kmeanspp ds6 1 [0, 1] 2 c6Rng 2).2 =
    4 from by rw [x_kpp2]]
  rw [buildChildren]
  dsimp only
  rw [x_leafA]
  dsimp only
  rw [buildChildren]
  dsimp only
  rw [x_leafB]
  dsimp only
  rw [buildChildren]
  rfl

theorem x_child1 :
    computeClustering ds6 1 2 0 CentersInit.kmeanspp c6Rng 2 4
      (cVec 0, 0, 0) [] 1 = some (empty6, 4) := by
  show computeClustering ds6 1 2 0 CentersInit.kmeanspp c6Rng (1 + 1) 4
    (cVec 0, 0, 0) [] 1 = some (empty6, 4)
  rw [computeClustering]
  rw [if_pos (by norm_num)]
  rfl

theorem x_top :
    computeClustering ds6 1 2 0 CentersInit.kmeanspp c6Rng 3 0
      (computeNodeStatistics ds6 1 [0, 1]) [0, 1] 0 = some (tree6, 4) := by
  show computeClustering ds6 1 2 0 CentersInit.kmeanspp c6Rng (2 + 1) 0
    (computeNodeStatistics ds6 1 [0, 1]) [0, 1] 0 = some (tree6, 4)
  rw [computeClustering_subdiv ds6 1 2 0 CentersInit.kmeanspp c6Rng 2 0
    (computeNodeStatistics ds6 1 [0, 1]) [0, 1] 0 (by norm_num)
    (by rw [x_kpp0]; norm_num)]
  rw [x_specs0]
  rw [show (chooseCenters CentersInit.kmeanspp ds6 1 [0, 1] 2 c6Rng 0).2 =
    2 from by rw [x_kpp0]]
  rw [buildChildren]
  dsimp only
  rw [x_child0]
  dsimp only
  rw [buildChildren]
  dsimp only
  rw [x_child1]
  dsimp only
  rw [buildChildren]
  rfl

theorem x_build :
    buildIndex ds6 1 2 0 CentersInit.kmeanspp c6Rng 0 = some (tree6, 4) := by
  rw [buildIndex, if_neg (by norm_num)]
  show computeClustering ds6 1 2 0 CentersInit.kmeanspp c6Rng 3 0 _ _ 0 = _
  rw [show List.range ds6.length = [0, 1] from rfl]
  exact x_top

/-- The built counterexample index: `iterations = 0`. -/
def idx6 : KMIndex :=
  { dataset := ds6, dim := 1, branching := 2, iterations := 0
    centersInit := CentersInit.kmeanspp, cbIndex := 2 / 5, sizeAtBuild := 2
    root := some tree6, rng := c6Rng, ctr := 4 }

/-- `idx6` is reachable by construction followed by build. -/
theorem idx6_reachable :
    (mkIndex ds6 1 ⟨some 2, some 0, some CentersInit.kmeanspp, none⟩
      c6Rng).build = some idx6 := by
  show KMIndex.build _ = _
  rw [KMIndex.build]
  show (match buildIndex ds6 1 2 0 CentersInit.kmeanspp c6Rng 0 with
    | none => none
    | some (root, ctr2) =>
      some { dataset := ds6, dim := 1, branching := 2, iterations := 0,
             centersInit := CentersInit.kmeanspp, cbIndex := 2 / 5,
             sizeAtBuild := ds6.length, root := some root, rng := c6Rng,
             ctr := ctr2 }) = some idx6
  rw [x_build]
  rfl

/-- C6: counterexample.  Building two distinct points with branching 2,
k-means++ seeding and `iterations = 0`: the seeder duplicates its first
pick, every point is assigned to cluster 0, and with no iteration the
empty-cluster recovery never runs - the built tree has a child holding
ZERO points. -/
theorem C6_counterexample :
    (mkIndex ds6 1 ⟨some 2, some 0, some CentersInit.kmeanspp, none⟩
      c6Rng).build = some idx6 ∧
    idx6.iterations = 0 ∧ idx6.root = some tree6 ∧
    empty6 ∈ tree6.childs ∧ ¬ (1 ≤ empty6.size) := by
  refine ⟨idx6_reachable, rfl, rfl, ?_, ?_⟩
  · show empty6 ∈ [node6, empty6]
    simp
  · show ¬ ((1 : ℕ) ≤ 0)
    omega

end KMeansSpec
